import Mathlib

/-!
EAGLE fragment allocation: the generation and encoder loop of `FragmentsAllocator::run`.

A shallow embedding of `src/c++/lib/main/FragmentsAllocator.cpp`.

* Machine integers are natural numbers, reduced `% 2^w` wherever the source
  computes in a `w`-bit unsigned type.
* A binary output stream is the list of the fixed-width words written to it, in
  order: 16-bit slots for `fragments.pos`, `fragments.length`, `fragments.tile`,
  32-bit words for `fragments.stats` and `fragments.pos.shift`, 64-bit words for
  `fragments.pos.index`.  `out.write((char*)&x, 2)` on a little-endian machine
  writes the word `x % 65536`.
* A failed `assert` and a thrown `EAGLE_ERROR` end the modelled run with a `Fatal`
  value.
* The histogram update of line 201 does not test its index.  The loop is given
  twice: `encodeFragment`, `runEncoder` and `runGeneration` mark an update outside the
  vector with `Fatal.outOfBounds` (a mark for undefined behaviour, not an outcome of
  the program), and `encodeFragmentUnchecked`, `runEncoderUnchecked` and
  `runGenerationUnchecked` have no such mark: there the update changes no cell of
  the vector and the loop goes on.  The two agree on every run whose tiles are all
  inside the vector.
* Loops whose exit depends on an external collaborator take a fuel argument; a
  result `none` means that the fuel ran out and is not a behaviour of the program.
* The collaborators (interval generator, coverage filter, merge reader, process
  random generator) are parameters.  `model/Fragment.hh` is not among the sources:
  `isValid`, the constructors and the three `allocate...` methods are modelled from
  the specification and marked as such.
* The world carries two logs that the program does not keep (intervals drawn,
  fragments on which the filter was consulted); no modelled result depends on them.

* The floating-point computations of `run` (the number of requested reads of line
  97, the coverage check of lines 216-218) are not modelled: their results are
  parameters of the environment.

The definitions come first: the embedding of the source, then the
specification-side definitions in which the theorems are stated.  The theorems
follow: lemmas first, the main theorems `C1` to `C20` last.
-/

namespace Eagle

/-- Ways in which the run stops abnormally. -/
inductive Fatal where
  /-- An `assert( ... )` of the source failed. -/
  | assertion
  /-- The exception raised by `EAGLE_ERROR( ... )`. -/
  | eagleError
  /-- An element access outside a `std::vector` (undefined behaviour in the source). -/
  | outOfBounds
  /-- An `EagleException` raised by a collaborator and not handled by `run`. -/
  | eagleException (what : String)
  deriving DecidableEq, Repr

/-- Data members of `FragmentWithAllocationMetadata` that `FragmentsAllocator.cpp` reads:
`startPos_`, `fragmentLength_`, `allocatedTile_`. -/
structure Fragment where
  startPos_ : Nat
  fragmentLength_ : Nat
  allocatedTile_ : Nat
  deriving DecidableEq, Repr

/-- Modelled from the spec: `Fragment::isValid` (model/Fragment.hh is not among the
sources); "a fragment is valid only if length > 0". -/
def Fragment.isValid (f : Fragment) : Bool :=
  decide (0 < f.fragmentLength_)

/-- Modelled from the spec: the default constructor `FragmentWithAllocationMetadata()`
(model/Fragment.hh is not among the sources), the invalid fragment that signals
exhaustion: its length is 0. -/
def Fragment.invalid : Fragment :=
  { startPos_ := 0, fragmentLength_ := 0, allocatedTile_ := 0 }

/-- Modelled from the spec: the constructor `FragmentWithAllocationMetadata( pair )`
(model/Fragment.hh is not among the sources): start position and length are taken
from the interval, the tile is not yet assigned. -/
def Fragment.ofInterval (p : Nat × Nat) : Fragment :=
  { startPos_ := p.1, fragmentLength_ := p.2, allocatedTile_ := 0 }

/-- The constant `const unsigned long indexVersion = 1;`. -/
def indexVersion : Nat := 1

/-- The constant `const unsigned long indexInterval = 1000;`. -/
def indexInterval : Nat := 1000

/-- The variables that the body of the loop of `run` reads and writes: the two
function-local statics, the block counter, the five streams written in the loop,
and the tile histogram. -/
structure EncoderState where
  /-- The function-local `static unsigned long lastPos`. -/
  lastPos : Nat
  /-- The function-local `static unsigned int shift`. -/
  shift : Nat
  /-- The local `unsigned long indexCount`. -/
  indexCount : Nat
  /-- The 16-bit slots of `fragments.pos`. -/
  out1 : List Nat
  /-- The 16-bit records of `fragments.length`. -/
  out2 : List Nat
  /-- The 16-bit records of `fragments.tile`. -/
  out3 : List Nat
  /-- The 64-bit words of `fragments.pos.index`. -/
  indexFile : List Nat
  /-- The 32-bit words of `fragments.pos.shift`. -/
  shiftFile : List Nat
  /-- The histogram `vector<unsigned int> tileReadCount`. -/
  tileReadCount : List Nat
  deriving DecidableEq, Repr

/-- Lines 182-198 of `run`: write `posDiff` to the positions stream and update
`shift`.  Returns the new contents of `out1` and the new `shift`. -/
def writePosDiff (out1 : List Nat) (shift posDiff : Nat) : Except Fatal (List Nat × Nat) :=
  if posDiff < 65535 then
    .ok (out1 ++ [posDiff % 65536], shift)
  else
    let const65535 := 65535
    let posDiffByte2 := (posDiff >>> 32) % 2 ^ 32
    let posDiffByte1 := ((posDiff >>> 16) &&& 0xFFFF) % 2 ^ 32
    let posDiffByte0 := (posDiff &&& 0xFFFF) % 2 ^ 32
    if posDiffByte2 < 65536 then
      .ok (out1 ++ [const65535 % 65536, posDiffByte2 % 65536,
                    posDiffByte1 % 65536, posDiffByte0 % 65536],
           (shift + 3) % 2 ^ 32)
    else
      .error .assertion

/-- Line 169 of `run`: `static_cast<unsigned long>(f.startPos_) - lastPos`, a
subtraction of 64-bit unsigned values, which wraps. -/
def posDiffOf (lastPos : Nat) (f : Fragment) : Nat :=
  (f.startPos_ % 2 ^ 64 + 2 ^ 64 - lastPos % 2 ^ 64) % 2 ^ 64

/-- Lines 166-209 of `run`: the body of the loop, for one valid fragment `f`.  The
test of the tile against the length of the histogram is not in the source: line
201 updates the histogram without testing its index, and the outcome
`Fatal.outOfBounds` marks the fragments for which that update is outside the
vector (`encodeFragmentUnchecked` is the body without the mark). -/
def encodeFragment (s : EncoderState) (f : Fragment) : Except Fatal EncoderState :=
  let posDiff := posDiffOf s.lastPos f
  if ¬ f.fragmentLength_ < 65536 then .error .assertion
  else if ¬ f.allocatedTile_ < 65536 then .error .assertion
  else
    let lastPos := f.startPos_ % 2 ^ 64
    match writePosDiff s.out1 s.shift posDiff with
    | .error e => .error e
    | .ok (out1, shift) =>
      let out2 := s.out2 ++ [f.fragmentLength_ % 65536]
      let out3 := s.out3 ++ [f.allocatedTile_ % 65536]
      if ¬ f.allocatedTile_ < s.tileReadCount.length then .error .outOfBounds
      else
        let count := (s.tileReadCount.getD f.allocatedTile_ 0 + 1) % 2 ^ 32
        let tileReadCount := s.tileReadCount.set f.allocatedTile_ count
        if count = 0xFFFFFFFF then .error .assertion
        else
          let indexCount := (s.indexCount + 1) % 2 ^ 64
          if indexCount = indexInterval then
            .ok { lastPos := lastPos, shift := shift, indexCount := 0,
                  out1 := out1, out2 := out2, out3 := out3,
                  indexFile := s.indexFile ++ [lastPos],
                  shiftFile := s.shiftFile ++ [shift],
                  tileReadCount := tileReadCount }
          else
            .ok { lastPos := lastPos, shift := shift, indexCount := indexCount,
                  out1 := out1, out2 := out2, out3 := out3,
                  indexFile := s.indexFile,
                  shiftFile := s.shiftFile,
                  tileReadCount := tileReadCount }

/-- Lines 179-200 of `run`: the part of the loop body up to the two writes of lines
199 and 200.  Returns the contents of the lengths stream and of the tiles stream once
line 200 has been executed, or the assertion of lines 179, 180 or 192 that ends the
body before line 199 is reached. -/
def lengthAndTileWritten (s : EncoderState) (f : Fragment) :
    Except Fatal (List Nat × List Nat) :=
  let posDiff := posDiffOf s.lastPos f
  if ¬ f.fragmentLength_ < 65536 then .error .assertion
  else if ¬ f.allocatedTile_ < 65536 then .error .assertion
  else
    match writePosDiff s.out1 s.shift posDiff with
    | .error e => .error e
    | .ok _ => .ok (s.out2 ++ [f.fragmentLength_ % 65536], s.out3 ++ [f.allocatedTile_ % 65536])

/-- Lines 95 and 141-153 of `run`: the state in which the loop is entered.  The
histogram holds `tileCount` zeros, the streams are empty except for the two header
words of the index file, and `lastPos` and `shift` hold whatever the statics hold
(0 and 0 the first time `run` is executed in a process). -/
def initialState (tileCount staticLastPos staticShift : Nat) : EncoderState :=
  { lastPos := staticLastPos, shift := staticShift, indexCount := 0,
    out1 := [], out2 := [], out3 := [],
    indexFile := [indexVersion, indexInterval],
    shiftFile := [],
    tileReadCount := List.replicate tileCount 0 }

/-- Lines 156-210 of `run`, for the case that the successive calls of
`getNextFragment` return the elements of `fs` and then an invalid fragment: the
counter `i` is incremented (a 64-bit counter; the loop ends should it wrap to 0),
the loop ends at the first invalid fragment, and every other fragment goes through
the body.  Returns the final value of `i` and the final encoder state. -/
def encodeLoop : Nat → EncoderState → List Fragment → Except Fatal (Nat × EncoderState)
  | i, s, [] => .ok ((i + 1) % 2 ^ 64, s)
  | i, s, f :: fs =>
    if (i + 1) % 2 ^ 64 = 0 then .ok ((i + 1) % 2 ^ 64, s)
    else if !f.isValid then .ok ((i + 1) % 2 ^ 64, s)
    else
      match encodeFragment s f with
      | .error e => .error e
      | .ok s1 => encodeLoop ((i + 1) % 2 ^ 64) s1 fs

/-- The escape rule for reading the positions stream, as the specification words
it: a slot other than 65535 is the delta itself; a slot 65535 is followed by three
slots holding bits 32-47, bits 16-31 and bits 0-15 of the delta.  A stream that
ends inside an escaped record does not decode. -/
def decodeDeltas : List Nat → Option (List Nat)
  | [] => some []
  | x :: rest =>
    if x = 65535 then
      match rest with
      | b2 :: b1 :: b0 :: rest1 =>
        (decodeDeltas rest1).map (fun ds => (b2 * 2 ^ 32 + b1 * 2 ^ 16 + b0) :: ds)
      | _ => none
    else
      (decodeDeltas rest).map (fun ds => x :: ds)

/-- Absolute positions from deltas: each position is the previous one (initially
`last`) plus the delta. -/
def accumulate : Nat → List Nat → List Nat
  | _, [] => []
  | last, d :: ds => (last + d) :: accumulate (last + d) ds

/-- The reader of the positions stream: decode the deltas by the escape rule and
accumulate them from the previous position 0. -/
def decodePositions (slots : List Nat) : Option (List Nat) :=
  (decodeDeltas slots).map (accumulate 0)

/-- What `run` leaves behind when it returns after the loop: the encoder state
(the five streams written in the loop and the statics), the stream
`fragments.stats`, and the count computed on line 215. -/
structure RunResult where
  /-- The encoder state at the end of the loop. -/
  state : EncoderState
  /-- The 32-bit words of `fragments.stats`. -/
  out4 : List Nat
  /-- The local `unsigned long generatedCount = i-1`. -/
  generatedCount : Nat
  deriving DecidableEq, Repr

/-- Lines 212-215 of `run`: the histogram is written to `fragments.stats` in one
piece, and `generatedCount = i-1` is computed in 64-bit arithmetic. -/
def finishRun (r : Nat × EncoderState) : RunResult :=
  { state := r.2, out4 := r.2.tileReadCount, generatedCount := (r.1 + 2 ^ 64 - 1) % 2 ^ 64 }

/-- Lines 95 and 141-215 of `run`, for the case that the successive calls of
`getNextFragment` return the elements of `fs` and then an invalid fragment. -/
def runEncoder (tileCount staticLastPos staticShift : Nat) (fs : List Fragment) :
    Except Fatal RunResult :=
  match encodeLoop 0 (initialState tileCount staticLastPos staticShift) fs with
  | .error e => .error e
  | .ok r => .ok (finishRun r)

/-! The generation loop: `getNextFragment` and the loop of `run` that calls it. -/

/-- Values of `options_.tileAllocationMethod`: the three enumerators that
`getNextFragment` names, and any other value of the option. -/
inductive TileAllocationMethod where
  | TILE_ALLOCATION_RANDOM
  | TILE_ALLOCATION_SEQUENCE
  | TILE_ALLOCATION_INTERLEAVED
  | other (code : Nat)
  deriving DecidableEq, Repr

/-- The fields of `FragmentsAllocatorOptions` that `run`, `setRandomSeed` and
`getNextFragment` read themselves (the other options reach the program only through
the collaborators). -/
structure FragmentsAllocatorOptions where
  mergeExistingFragments : Bool
  tileAllocationMethod : TileAllocationMethod
  tileCount : Nat
  contigName : String := ""
  randomSeed : Nat := 0

/-- The external collaborators of the loop, as functions on a state `σ` that stands
for everything they own (the interval generator, the merge reader, the process-wide
random generator): `IntervalGenerator::getNext`, the predicate
`GcCoverageFit::needsDiscarding`, the next value of the process random generator,
and `MultiFragmentFilesReader::getNext`. -/
structure Collaborators (σ : Type) where
  getNext : σ → (Nat × Nat) × σ
  needsDiscarding : Fragment → Bool
  rand : σ → Nat × σ
  readerGetNext : σ → Fragment × σ

/-- The state outside the encoder: the state of the collaborators, the running
counter of the interleaved allocation, and two logs that the program does not keep
but the theorems speak about: every interval returned by the generator, and every
fragment on which `needsDiscarding` was consulted, both in call order. -/
structure World (σ : Type) where
  ext : σ
  lastTile : Nat
  drawn : List (Nat × Nat)
  consulted : List Fragment

/-- Modelled from the spec: `allocateRandomTile` (model/Fragment.hh is not among the
sources); "uniform random draw over [0, tileCount) per fragment": the next value of
the process random generator, reduced to the range. -/
def allocateRandomTile {σ : Type} (c : Collaborators σ) (tileCount : Nat) (w : World σ)
    (f : Fragment) : Fragment × World σ :=
  ({ f with allocatedTile_ := (c.rand w.ext).1 % tileCount },
   { w with ext := (c.rand w.ext).2 })

/-- Modelled from the spec: `allocateTileInSequence` (model/Fragment.hh is not among
the sources); "tileIndex = floor(ordinal * tileCount / totalCount)". -/
def allocateTileInSequence (tileCount fragmentNum fragmentCount : Nat) (f : Fragment) :
    Fragment :=
  { f with allocatedTile_ := fragmentNum * tileCount / fragmentCount }

/-- Modelled from the spec: `allocateInterleavedTile` (model/Fragment.hh is not among
the sources); "tileIndex = runningCounter mod tileCount, where the counter
increments once per accepted fragment". -/
def allocateInterleavedTile {σ : Type} (tileCount : Nat) (w : World σ) (f : Fragment) :
    Fragment × World σ :=
  ({ f with allocatedTile_ := w.lastTile % tileCount },
   { w with lastTile := w.lastTile + 1 })

/-- Lines 261-275 of `getNextFragment`: the switch on the tile allocation method. -/
def allocateTile {σ : Type} (c : Collaborators σ) (o : FragmentsAllocatorOptions)
    (w : World σ) (f : Fragment) (fragmentNum fragmentCount : Nat) :
    Except Fatal (Fragment × World σ) :=
  match o.tileAllocationMethod with
  | .TILE_ALLOCATION_RANDOM => .ok (allocateRandomTile c o.tileCount w f)
  | .TILE_ALLOCATION_SEQUENCE =>
    .ok (allocateTileInSequence o.tileCount fragmentNum fragmentCount f, w)
  | .TILE_ALLOCATION_INTERLEAVED => .ok (allocateInterleavedTile o.tileCount w f)
  | .other _ => .error .eagleError

/-- Lines 246-276 of `getNextFragment`: the `while (1)` loop of generation mode, with
at most `fuel` iterations.  Every interval drawn is logged, and so is every
fragment on which the filter is consulted. -/
def generateLoop {σ : Type} (c : Collaborators σ) (o : FragmentsAllocatorOptions)
    (fragmentNum fragmentCount : Nat) : Nat → World σ → Option (Except Fatal (Fragment × World σ))
  | 0, _ => none
  | fuel + 1, w =>
    let nextInterval := (c.getNext w.ext).1
    let w1 : World σ := { w with ext := (c.getNext w.ext).2, drawn := w.drawn ++ [nextInterval] }
    if nextInterval.2 = 0 then
      some (.ok (Fragment.invalid, w1))
    else
      let f := Fragment.ofInterval nextInterval
      let w2 : World σ := { w1 with consulted := w1.consulted ++ [f] }
      if c.needsDiscarding f then
        generateLoop c o fragmentNum fragmentCount fuel w2
      else
        some (allocateTile c o w2 f fragmentNum fragmentCount)

/-- Lines 239-282: `getNextFragment`.  In merge mode the fragment comes from the
reader; otherwise from the loop above. -/
def getNextFragment {σ : Type} (c : Collaborators σ) (o : FragmentsAllocatorOptions)
    (fuel : Nat) (w : World σ) (fragmentNum fragmentCount : Nat) :
    Option (Except Fatal (Fragment × World σ)) :=
  if !o.mergeExistingFragments then
    generateLoop c o fragmentNum fragmentCount fuel w
  else
    some (.ok ((c.readerGetNext w.ext).1, { w with ext := (c.readerGetNext w.ext).2 }))

/-- Lines 156-210 of `run`: the loop, with at most `fuel` iterations, each call of
`getNextFragment` being given the fuel that is left.  Returns the final value of
`i`, the final world and the final encoder state. -/
def runLoop {σ : Type} (c : Collaborators σ) (o : FragmentsAllocatorOptions) (readCount : Nat) :
    Nat → Nat → World σ → EncoderState → Option (Except Fatal (Nat × World σ × EncoderState))
  | 0, _, _, _ => none
  | fuel + 1, i, w, s =>
    if (i + 1) % 2 ^ 64 = 0 then some (.ok ((i + 1) % 2 ^ 64, w, s))
    else
      match getNextFragment c o (fuel + 1) w ((i + 1) % 2 ^ 64) readCount with
      | none => none
      | some (.error e) => some (.error e)
      | some (.ok (f, w1)) =>
        if !f.isValid then some (.ok ((i + 1) % 2 ^ 64, w1, s))
        else
          match encodeFragment s f with
          | .error e => some (.error e)
          | .ok s1 => runLoop c o readCount fuel ((i + 1) % 2 ^ 64) w1 s1

/-- Lines 95 and 141-215 of `run` with the collaborators in place: the streams are
opened, the header is written, the loop runs, the histogram is written. -/
def runGeneration {σ : Type} (c : Collaborators σ) (o : FragmentsAllocatorOptions)
    (readCount fuel : Nat) (w : World σ) (staticLastPos staticShift : Nat) :
    Option (Except Fatal (RunResult × World σ)) :=
  match runLoop c o readCount fuel 0 w (initialState o.tileCount staticLastPos staticShift) with
  | none => none
  | some (.error e) => some (.error e)
  | some (.ok (i, w1, s)) => some (.ok (finishRun (i, s), w1))

/-! The loop with the histogram update of line 201 as the source has it.

The statement `tileReadCount[f.allocatedTile_]++` does not test its index, and
nothing in `run` stops a fragment whose tile is `tileCount` or more: `encodeFragment`
above marks that event with `Fatal.outOfBounds`, which is not something the program
does.  The definitions below leave the marker out: the state keeps the `tileCount`
cells of the vector and nothing of the memory around them, so an update outside the
vector changes none of the cells, the value read back on line 202 is the incremented
value of a cell taken to hold 0, and the loop goes on.  Inside the vector the two
bodies are the same. -/

/-- Lines 166-209 of `run`: the body of the loop for one valid fragment `f`, with
line 201 not testing its index. -/
def encodeFragmentUnchecked (s : EncoderState) (f : Fragment) : Except Fatal EncoderState :=
  let posDiff := posDiffOf s.lastPos f
  if ¬ f.fragmentLength_ < 65536 then .error .assertion
  else if ¬ f.allocatedTile_ < 65536 then .error .assertion
  else
    let lastPos := f.startPos_ % 2 ^ 64
    match writePosDiff s.out1 s.shift posDiff with
    | .error e => .error e
    | .ok (out1, shift) =>
      let out2 := s.out2 ++ [f.fragmentLength_ % 65536]
      let out3 := s.out3 ++ [f.allocatedTile_ % 65536]
      let count := (s.tileReadCount.getD f.allocatedTile_ 0 + 1) % 2 ^ 32
      let tileReadCount := s.tileReadCount.set f.allocatedTile_ count
      if count = 0xFFFFFFFF then .error .assertion
      else
        let indexCount := (s.indexCount + 1) % 2 ^ 64
        if indexCount = indexInterval then
          .ok { lastPos := lastPos, shift := shift, indexCount := 0,
                out1 := out1, out2 := out2, out3 := out3,
                indexFile := s.indexFile ++ [lastPos],
                shiftFile := s.shiftFile ++ [shift],
                tileReadCount := tileReadCount }
        else
          .ok { lastPos := lastPos, shift := shift, indexCount := indexCount,
                out1 := out1, out2 := out2, out3 := out3,
                indexFile := s.indexFile,
                shiftFile := s.shiftFile,
                tileReadCount := tileReadCount }

/-- Lines 156-210 of `run` on the fragments `fs` followed by an invalid fragment, as
`encodeLoop`, with line 201 not testing its index. -/
def encodeLoopUnchecked : Nat → EncoderState → List Fragment → Except Fatal (Nat × EncoderState)
  | i, s, [] => .ok ((i + 1) % 2 ^ 64, s)
  | i, s, f :: fs =>
    if (i + 1) % 2 ^ 64 = 0 then .ok ((i + 1) % 2 ^ 64, s)
    else if !f.isValid then .ok ((i + 1) % 2 ^ 64, s)
    else
      match encodeFragmentUnchecked s f with
      | .error e => .error e
      | .ok s1 => encodeLoopUnchecked ((i + 1) % 2 ^ 64) s1 fs

/-- Lines 95 and 141-215 of `run` on the fragments `fs` followed by an invalid
fragment, as `runEncoder`, with line 201 not testing its index. -/
def runEncoderUnchecked (tileCount staticLastPos staticShift : Nat) (fs : List Fragment) :
    Except Fatal RunResult :=
  match encodeLoopUnchecked 0 (initialState tileCount staticLastPos staticShift) fs with
  | .error e => .error e
  | .ok r => .ok (finishRun r)

/-- Lines 156-210 of `run` with the collaborators in place, as `runLoop`, with line
201 not testing its index. -/
def runLoopUnchecked {σ : Type} (c : Collaborators σ) (o : FragmentsAllocatorOptions)
    (readCount : Nat) :
    Nat → Nat → World σ → EncoderState → Option (Except Fatal (Nat × World σ × EncoderState))
  | 0, _, _, _ => none
  | fuel + 1, i, w, s =>
    if (i + 1) % 2 ^ 64 = 0 then some (.ok ((i + 1) % 2 ^ 64, w, s))
    else
      match getNextFragment c o (fuel + 1) w ((i + 1) % 2 ^ 64) readCount with
      | none => none
      | some (.error e) => some (.error e)
      | some (.ok (f, w1)) =>
        if !f.isValid then some (.ok ((i + 1) % 2 ^ 64, w1, s))
        else
          match encodeFragmentUnchecked s f with
          | .error e => some (.error e)
          | .ok s1 => runLoopUnchecked c o readCount fuel ((i + 1) % 2 ^ 64) w1 s1

/-- Lines 95 and 141-215 of `run` with the collaborators in place, as
`runGeneration`, with line 201 not testing its index. -/
def runGenerationUnchecked {σ : Type} (c : Collaborators σ) (o : FragmentsAllocatorOptions)
    (readCount fuel : Nat) (w : World σ) (staticLastPos staticShift : Nat) :
    Option (Except Fatal (RunResult × World σ)) :=
  match runLoopUnchecked c o readCount fuel 0 w
      (initialState o.tileCount staticLastPos staticShift) with
  | none => none
  | some (.error e) => some (.error e)
  | some (.ok (i, w1, s)) => some (.ok (finishRun (i, s), w1))

/-- A generator that returns the intervals of a list one by one and then the
zero-length interval, a filter given as a predicate, a random generator that
always returns 0 and a reader that is exhausted. -/
def listCollaborators (discard : Fragment → Bool) : Collaborators (List (Nat × Nat)) where
  getNext := fun e => match e with
    | [] => ((0, 0), [])
    | p :: rest => (p, rest)
  needsDiscarding := discard
  rand := fun e => (0, e)
  readerGetNext := fun e => (Fragment.invalid, e)

/-- A merge reader that returns the fragments of a list one by one and then the
invalid fragment; the generator, the filter and the random generator are not used
in merge mode. -/
def readerCollaborators : Collaborators (List Fragment) where
  getNext := fun e => ((0, 0), e)
  needsDiscarding := fun _ => false
  rand := fun e => (0, e)
  readerGetNext := fun e => match e with
    | [] => (Fragment.invalid, [])
    | f :: rest => (f, rest)

/-- The world at the start of a run of the list generator: nothing drawn, nothing
consulted, the interleaving counter at 0. -/
def listWorld (intervals : List (Nat × Nat)) : World (List (Nat × Nat)) :=
  { ext := intervals, lastTile := 0, drawn := [], consulted := [] }

/-! The whole of `run`: setup, mode selection, loop, count check. -/

/-- Lines 225-236: `setRandomSeed` computes the seed that it hands to `srand`:
starting from `options_.randomSeed`, for each character of the contig name the
seed is multiplied by the character and incremented, in 32-bit unsigned
arithmetic.  Contig names are taken to be ASCII, for which a `char` is its code
whatever its signedness. -/
def setRandomSeed (randomSeed : Nat) (contigName : String) : Nat :=
  contigName.data.foldl (fun seed c => (seed * c.toNat % 2 ^ 32 + 1) % 2 ^ 32)
    (randomSeed % 2 ^ 32)

/-- What `run` obtains from outside the file: the contigs of the reference as
(name, length) pairs in order (`allContigNames`, `allContigLengths`); the number of
requested reads of line 97, computed in floating point from the total size; the
constructor of the merge reader, which yields the reader's state or raises an
`EagleException`; the constructor of the interval generator of lines 127-137;
whether the file `fragments.done` exists in the output directory; and the
floating-point comparison of lines 216-218 on `generatedCount` and `readCount`.
The seed set by `setRandomSeed` reaches the collaborators through their
constructors. -/
structure Environment (σ : Type) where
  contigs : List (String × Nat)
  readCountOf : Nat → Nat
  newReader : Nat → List Nat → List String → Nat → Except String σ
  newGenerator : Nat → List Nat → Nat → σ
  markerExists : Bool
  coverageWarning : Nat → Nat → Bool

/-- Lines 63-70 of `run`: the length of the first contig whose name is the requested
one, as a list of one element, or the empty list when there is none. -/
def findContig (contigName : String) : List (String × Nat) → List Nat
  | [] => []
  | p :: rest => if p.1 = contigName then [p.2] else findContig contigName rest

/-- Lines 60-84 of `run`: the lengths of the active contigs, or `none` when a contig
name is requested that the reference does not have (the early return of line 77). -/
def selectContigLengths (contigName : String) (contigs : List (String × Nat)) :
    Option (List Nat) :=
  if contigName ≠ "" then
    if (findContig contigName contigs).isEmpty then none
    else some (findContig contigName contigs)
  else
    some (contigs.map (fun p => p.2))

/-- The ways in which `run` returns normally: at line 77 (requested contig absent),
at line 117 (merge reader failed, marker present), both before any output stream is
opened, or at the end, with the streams written and the warning of line 220 raised
or not. -/
inductive RunReturn (σ : Type) where
  | ignoredContig
  | fragmentsPresent
  | finished (result : RunResult) (world : World σ) (warning : Bool)

/-- The output streams that a return of `run` leaves behind, if it opened them. -/
def RunReturn.streams {σ : Type} : RunReturn σ → Option RunResult
  | .ignoredContig => none
  | .fragmentsPresent => none
  | .finished result _ _ => some result

/-- Lines 141-221 of `run`, from the opening of the streams on, in a world whose
collaborators have been constructed. -/
def runFromStreams {σ : Type} (c : Collaborators σ) (env : Environment σ)
    (o : FragmentsAllocatorOptions) (readCount fuel : Nat) (w : World σ)
    (staticLastPos staticShift : Nat) : Option (Except Fatal (RunReturn σ)) :=
  match runGeneration c o readCount fuel w staticLastPos staticShift with
  | none => none
  | some (.error e) => some (.error e)
  | some (.ok (r, w1)) =>
    some (.ok (.finished r w1 (env.coverageWarning r.generatedCount readCount)))

/-- Lines 49-222: `run`.  The statics `lastPos` and `shift` hold the given values
when `run` is entered. -/
def run {σ : Type} (c : Collaborators σ) (env : Environment σ)
    (o : FragmentsAllocatorOptions) (fuel staticLastPos staticShift : Nat) :
    Option (Except Fatal (RunReturn σ)) :=
  let seed := setRandomSeed o.randomSeed o.contigName
  match selectContigLengths o.contigName env.contigs with
  | none => some (.ok .ignoredContig)
  | some contigLengths =>
    let totalSize := contigLengths.sum % 2 ^ 64
    let readCount := env.readCountOf totalSize
    if o.mergeExistingFragments then
      match env.newReader seed contigLengths (env.contigs.map (fun p => p.1)) readCount with
      | .error what =>
        if env.markerExists then some (.ok .fragmentsPresent)
        else some (.error (.eagleException what))
      | .ok reader =>
        runFromStreams c env o readCount fuel
          { ext := reader, lastTile := 0, drawn := [], consulted := [] }
          staticLastPos staticShift
    else
      runFromStreams c env o readCount fuel
        { ext := env.newGenerator seed contigLengths readCount,
          lastTile := 0, drawn := [], consulted := [] }
        staticLastPos staticShift

/-- Two successive invocations of `run` in one process, each given the same
fragments by `getNextFragment`: the first finds the statics at 0, the second finds
in them what the first left there. -/
def runEncoderTwice (tileCount : Nat) (fs : List Fragment) :
    Except Fatal (RunResult × RunResult) :=
  match runEncoder tileCount 0 0 fs with
  | .error e => .error e
  | .ok r1 =>
    match runEncoder tileCount r1.state.lastPos r1.state.shift fs with
    | .error e => .error e
    | .ok r2 => .ok (r1, r2)

/-! Specification-side definitions used to state the theorems. -/

/-- The slots that one delta occupies in the positions stream. -/
def slotsOf (d : Nat) : List Nat :=
  if d < 65535 then [d] else [65535, d / 2 ^ 32 % 2 ^ 16, d / 2 ^ 16 % 2 ^ 16, d % 2 ^ 16]

/-- The value of the 32-bit `shift` after a delta `d` has been written. -/
def shiftAfter (shift d : Nat) : Nat :=
  if d < 65535 then shift else (shift + 3) % 2 ^ 32

/-- The state that the loop body leaves behind when no assertion fails
(`encodeFragment_ok_iff` relates it to `encodeFragment`). -/
def stepState (s : EncoderState) (f : Fragment) : EncoderState :=
  let d := posDiffOf s.lastPos f
  let cp : Bool := decide ((s.indexCount + 1) % 2 ^ 64 = indexInterval)
  { lastPos := f.startPos_ % 2 ^ 64,
    shift := shiftAfter s.shift d,
    indexCount := if cp then 0 else (s.indexCount + 1) % 2 ^ 64,
    out1 := s.out1 ++ slotsOf d,
    out2 := s.out2 ++ [f.fragmentLength_],
    out3 := s.out3 ++ [f.allocatedTile_],
    indexFile := if cp then s.indexFile ++ [f.startPos_ % 2 ^ 64] else s.indexFile,
    shiftFile := if cp then s.shiftFile ++ [shiftAfter s.shift d] else s.shiftFile,
    tileReadCount :=
      s.tileReadCount.set f.allocatedTile_ ((s.tileReadCount.getD f.allocatedTile_ 0 + 1) % 2 ^ 32) }

/-- The conditions under which the loop body passes all its assertions and stays
inside the histogram. -/
def StepOk (s : EncoderState) (f : Fragment) : Prop :=
  f.fragmentLength_ < 65536 ∧ f.allocatedTile_ < 65536 ∧ posDiffOf s.lastPos f < 2 ^ 48 ∧
  f.allocatedTile_ < s.tileReadCount.length ∧
  (s.tileReadCount.getD f.allocatedTile_ 0 + 1) % 2 ^ 32 ≠ 0xFFFFFFFF

/-- The state after the loop body has run for each fragment of a list in turn. -/
def stateAfter (s : EncoderState) (fs : List Fragment) : EncoderState :=
  fs.foldl stepState s

/-- Every fragment of the list passes the assertions of the loop body in the state
in which the body meets it. -/
def RunOk : EncoderState → List Fragment → Prop
  | _, [] => True
  | s, f :: fs => StepOk s f ∧ RunOk (stepState s f) fs

/-- The wrapped deltas of a stream of fragments, the first one relative to `lastPos`. -/
def posDiffs : Nat → List Fragment → List Nat
  | _, [] => []
  | lastPos, f :: fs => posDiffOf lastPos f :: posDiffs (f.startPos_ % 2 ^ 64) fs

/-- The number of escaped records among the deltas. -/
def escapes (ds : List Nat) : Nat :=
  ds.countP (fun d => decide (65535 ≤ d))

/-- The slots that a list of deltas occupies in the positions stream. -/
def encodeDeltas : List Nat → List Nat
  | [] => []
  | d :: ds => slotsOf d ++ encodeDeltas ds

/-- Six fragments for two tiles whose successive deltas are 0, 1, 65534, 65535,
65536 and 2^47-1. -/
def boundaryFragments : List Fragment :=
  [⟨0, 1, 0⟩, ⟨1, 1, 1⟩, ⟨65535, 1, 0⟩, ⟨131070, 5, 1⟩, ⟨196606, 5, 1⟩, ⟨140737488551933, 5, 1⟩]

/-- A stream of `n` fragments of length 1 for tile 0 whose start positions are the
multiples `stride * (k+1)`, `stride * (k+2)`, ... of a stride. -/
def strideStream (stride : Nat) : Nat → Nat → List Fragment
  | _, 0 => []
  | k, n + 1 => ⟨stride * (k + 1), 1, 0⟩ :: strideStream stride (k + 1) n

/-- The reader's formula for the byte offset of the record that follows a checkpoint
written after fragment ordinal `N` with cumulative shift `S`. -/
def byteOffset (N S : Nat) : Nat := 2 * (N + S)

/-- The state of the collaborators after `k` successive calls of the generator. -/
def extAfter {σ : Type} (c : Collaborators σ) : σ → Nat → σ
  | e, 0 => e
  | e, k + 1 => extAfter c (c.getNext e).2 k

/-- The intervals that `k` successive calls of the generator return. -/
def draws {σ : Type} (c : Collaborators σ) : σ → Nat → List (Nat × Nat)
  | _, 0 => []
  | e, k + 1 => (c.getNext e).1 :: draws c (c.getNext e).2 k

/-- The world after `k` successive draws on each of which the filter was consulted. -/
def worldAfterDraws {σ : Type} (c : Collaborators σ) (w : World σ) (k : Nat) : World σ :=
  { ext := extAfter c w.ext k, lastTile := w.lastTile,
    drawn := w.drawn ++ draws c w.ext k,
    consulted := w.consulted ++ (draws c w.ext k).map Fragment.ofInterval }

/-- Start position and length of a fragment. -/
def Fragment.interval (f : Fragment) : Nat × Nat := (f.startPos_, f.fragmentLength_)

/-- The candidates of a list of intervals that the filter does not discard. -/
def accepted {σ : Type} (c : Collaborators σ) (cands : List (Nat × Nat)) : List (Nat × Nat) :=
  cands.filter (fun p => !c.needsDiscarding (Fragment.ofInterval p))

/-- The intervals of a list that are candidates: those of non-zero length. -/
def candidates (drawn : List (Nat × Nat)) : List (Nat × Nat) :=
  drawn.filter (fun p => decide (p.2 ≠ 0))

/-- Options of a generation run with the SEQUENCE policy. -/
def sequenceOptions (tileCount : Nat) : FragmentsAllocatorOptions :=
  { mergeExistingFragments := false,
    tileAllocationMethod := .TILE_ALLOCATION_SEQUENCE,
    tileCount := tileCount }

/-- Options of a generation run with the INTERLEAVED policy. -/
def interleavedOptions (tileCount : Nat) : FragmentsAllocatorOptions :=
  { mergeExistingFragments := false,
    tileAllocationMethod := .TILE_ALLOCATION_INTERLEAVED,
    tileCount := tileCount }

/-- Options of a generation run with the RANDOM policy. -/
def randomOptions (tileCount : Nat) : FragmentsAllocatorOptions :=
  { mergeExistingFragments := false,
    tileAllocationMethod := .TILE_ALLOCATION_RANDOM,
    tileCount := tileCount }

/-- A filter that discards nothing. -/
def keepAll : Fragment → Bool := fun _ => false

/-- A filter that discards the fragments whose start position is 10 modulo 20. -/
def discardOdd : Fragment → Bool := fun f => f.startPos_ % 20 == 10

/-- Four intervals of length 100 at a stride of 10, as a uniform generator asked for
four fragments returns them. -/
def uniformFour : List (Nat × Nat) := [(0, 100), (10, 100), (20, 100), (30, 100)]

/-- Five intervals, two of which `discardOdd` discards. -/
def fiveIntervals : List (Nat × Nat) := [(0, 100), (10, 100), (20, 100), (30, 5), (40, 7)]

/-- An environment with three contigs, two of which share the name `chr2`; one read
per 250 bases; a merge reader whose construction fails; a generator of intervals of
length 100 at a stride of 250; and no coverage warning. -/
def sampleEnvironment (markerExists : Bool) : Environment (List (Nat × Nat)) where
  contigs := [("chr1", 1000), ("chr2", 500), ("chr2", 700)]
  readCountOf := fun totalSize => totalSize / 250
  newReader := fun _ _ _ _ => .error "no fragments file"
  newGenerator := fun _ _ readCount => (List.range readCount).map (fun j => (250 * j, 100))
  markerExists := markerExists
  coverageWarning := fun _ _ => false

/-- Options of a run restricted to one contig, in generation mode with the
INTERLEAVED policy or in merge mode. -/
def contigOptions (contigName : String) (merge : Bool) : FragmentsAllocatorOptions :=
  { mergeExistingFragments := merge,
    tileAllocationMethod := .TILE_ALLOCATION_INTERLEAVED,
    tileCount := 2,
    contigName := contigName }

/-- Options of a generation run whose tile allocation method is none of the three
enumerators. -/
def unknownPolicyOptions : FragmentsAllocatorOptions :=
  { mergeExistingFragments := false,
    tileAllocationMethod := .other 7,
    tileCount := 2 }

/-- A filter that discards everything. -/
def discardAll : Fragment → Bool := fun _ => true

/-- The generator returns a zero-length interval after finitely many calls:
`remaining` bounds the number of candidates that it can still return.  Each call
that returns a candidate lowers the bound, and a draw from the process random
generator, which shares the state, does not raise it. -/
def Exhausts {σ : Type} (c : Collaborators σ) (remaining : σ → Nat) : Prop :=
  (∀ e, (c.getNext e).1.2 ≠ 0 → remaining (c.getNext e).2 < remaining e) ∧
  (∀ e, remaining (c.rand e).2 ≤ remaining e)

/-- Options of a run in merge mode. -/
def mergeOptions (tileCount : Nat) : FragmentsAllocatorOptions :=
  { mergeExistingFragments := true,
    tileAllocationMethod := .TILE_ALLOCATION_RANDOM,
    tileCount := tileCount }

/-- The world at the start of a merge run whose reader holds the given fragments. -/
def readerWorld (fs : List Fragment) : World (List Fragment) :=
  { ext := fs, lastTile := 0, drawn := [], consulted := [] }

/-- The interval generator and the process random generator do not disturb each
other: drawing a random number before an interval gives the same interval, and the
same state afterwards, as drawing it after the interval. -/
def RandIndependent {σ : Type} (c : Collaborators σ) : Prop :=
  ∀ e, c.getNext (c.rand e).2 = ((c.getNext e).1, (c.rand (c.getNext e).2).2)

/-- The conditions under which the loop body with line 201 unchecked passes all its
assertions. -/
def StepOkUnchecked (s : EncoderState) (f : Fragment) : Prop :=
  f.fragmentLength_ < 65536 ∧ f.allocatedTile_ < 65536 ∧ posDiffOf s.lastPos f < 2 ^ 48 ∧
  (s.tileReadCount.getD f.allocatedTile_ 0 + 1) % 2 ^ 32 ≠ 0xFFFFFFFF

/-! Lemmas on the loop body. -/

theorem writePosDiff_small (out1 : List Nat) (shift d : Nat) (h : d < 65535) :
    writePosDiff out1 shift d = .ok (out1 ++ [d], shift) := by
  have h1 : d % 65536 = d := Nat.mod_eq_of_lt (by omega)
  simp [writePosDiff, h, h1]

theorem writePosDiff_escape (out1 : List Nat) (shift d : Nat) (h : 65535 ≤ d) (h48 : d < 2 ^ 48) :
    writePosDiff out1 shift d =
      .ok (out1 ++ [65535, d / 2 ^ 32 % 2 ^ 16, d / 2 ^ 16 % 2 ^ 16, d % 2 ^ 16],
           (shift + 3) % 2 ^ 32) := by
  have e1 : (65535 : Nat) = 2 ^ 16 - 1 := by norm_num
  have h2 : d / 2 ^ 32 < 65536 := by omega
  have h3 : d / 2 ^ 32 % 2 ^ 32 = d / 2 ^ 32 := Nat.mod_eq_of_lt (by omega)
  have a1 : (2 ^ 16 - 1) % 65536 = 2 ^ 16 - 1 := by norm_num
  have a2 : d / 2 ^ 32 % 65536 = d / 2 ^ 32 % 2 ^ 16 := by norm_num
  have a3 : d / 2 ^ 16 % 2 ^ 16 % 2 ^ 32 % 65536 = d / 2 ^ 16 % 2 ^ 16 := by omega
  have a4 : d % 2 ^ 16 % 2 ^ 32 % 65536 = d % 2 ^ 16 := by omega
  unfold writePosDiff
  rw [if_neg (by omega)]
  simp only [Nat.shiftRight_eq_div_pow, e1, Nat.and_pow_two_sub_one_eq_mod]
  rw [h3, if_pos h2, a1, a2, a3, a4]

theorem writePosDiff_fatal (out1 : List Nat) (shift d : Nat) (h48 : 2 ^ 48 ≤ d) (h64 : d < 2 ^ 64) :
    writePosDiff out1 shift d = .error .assertion := by
  have h3 : d / 2 ^ 32 % 2 ^ 32 = d / 2 ^ 32 := Nat.mod_eq_of_lt (by omega)
  unfold writePosDiff
  rw [if_neg (by omega)]
  simp only [Nat.shiftRight_eq_div_pow]
  rw [h3, if_neg (by omega)]

theorem writePosDiff_ok_iff (out1 : List Nat) (shift d : Nat) (h64 : d < 2 ^ 64) (r : List Nat × Nat) :
    writePosDiff out1 shift d = .ok r ↔ d < 2 ^ 48 ∧ r = (out1 ++ slotsOf d, shiftAfter shift d) := by
  by_cases hs : d < 65535
  · rw [writePosDiff_small _ _ _ hs]
    simp only [Except.ok.injEq, slotsOf, shiftAfter, if_pos hs]
    constructor
    · intro h; exact ⟨by omega, h.symm⟩
    · intro h; exact h.2.symm
  · by_cases h48 : d < 2 ^ 48
    · rw [writePosDiff_escape _ _ _ (by omega) h48]
      simp only [Except.ok.injEq, slotsOf, shiftAfter, if_neg hs]
      constructor
      · intro h; exact ⟨h48, h.symm⟩
      · intro h; exact h.2.symm
    · rw [writePosDiff_fatal _ _ _ (by omega) h64]
      constructor
      · intro h; cases h
      · intro h; exact absurd h.1 h48

theorem posDiffOf_lt (lastPos : Nat) (f : Fragment) : posDiffOf lastPos f < 2 ^ 64 :=
  Nat.mod_lt _ (by norm_num)

theorem encodeFragment_ok_iff (s s1 : EncoderState) (f : Fragment) :
    encodeFragment s f = .ok s1 ↔ StepOk s f ∧ s1 = stepState s f := by
  simp only [encodeFragment, StepOk]
  by_cases hl : f.fragmentLength_ < 65536
  swap
  · simp only [hl, not_false_eq_true, if_true, false_and]
    constructor <;> intro h <;> cases h
  by_cases ht : f.allocatedTile_ < 65536
  swap
  · simp only [hl, ht, not_false_eq_true, not_true_eq_false, if_true, if_false, false_and, and_false]
    constructor <;> intro h <;> cases h
  have hl' : f.fragmentLength_ % 65536 = f.fragmentLength_ := Nat.mod_eq_of_lt hl
  have ht' : f.allocatedTile_ % 65536 = f.allocatedTile_ := Nat.mod_eq_of_lt ht
  simp only [hl, ht, not_true_eq_false, if_false, true_and]
  cases hw : writePosDiff s.out1 s.shift (posDiffOf s.lastPos f) with
  | error e =>
    have h48 : ¬ posDiffOf s.lastPos f < 2 ^ 48 := by
      intro h48
      have := (writePosDiff_ok_iff s.out1 s.shift _ (posDiffOf_lt _ _) _).2 ⟨h48, rfl⟩
      rw [hw] at this
      cases this
    constructor
    · intro h; cases h
    · intro h; exact absurd h.1.1 h48
  | ok r =>
    obtain ⟨h48, hr⟩ := (writePosDiff_ok_iff _ _ _ (posDiffOf_lt _ _) r).1 hw
    subst hr
    simp only [h48, true_and]
    by_cases hb : f.allocatedTile_ < s.tileReadCount.length
    swap
    · simp only [hb, not_false_eq_true, if_true, false_and]
      constructor <;> intro h <;> cases h
    simp only [hb, not_true_eq_false, if_false, true_and, hl', ht']
    by_cases hc : (s.tileReadCount.getD f.allocatedTile_ 0 + 1) % 2 ^ 32 = 0xFFFFFFFF
    · simp only [hc, if_true, ne_eq, not_true_eq_false, false_and]
      constructor <;> intro h <;> cases h
    simp only [hc, if_false, ne_eq, not_false_eq_true, true_and]
    by_cases hi : (s.indexCount + 1) % 2 ^ 64 = indexInterval
    · simp only [hi, if_true, stepState, decide_True, Except.ok.injEq]
      exact eq_comm
    · simp only [hi, if_false, stepState, decide_False, Except.ok.injEq]
      exact eq_comm

/-! Lemmas on the loop. -/

theorem encodeLoop_of_runOk (fs : List Fragment) (hv : ∀ f ∈ fs, f.isValid = true) :
    ∀ (i : Nat) (s : EncoderState), i + fs.length + 1 < 2 ^ 64 → RunOk s fs →
      encodeLoop i s fs = .ok (i + fs.length + 1, stateAfter s fs) := by
  induction fs with
  | nil =>
    intro i s hi _
    simp only [List.length_nil, Nat.add_zero] at hi
    simp only [encodeLoop, stateAfter, List.foldl_nil, List.length_nil, Nat.add_zero,
      Nat.mod_eq_of_lt hi]
  | cons f fs ih =>
    intro i s hi hok
    simp only [List.length_cons] at hi
    have hi1 : (i + 1) % 2 ^ 64 = i + 1 := Nat.mod_eq_of_lt (by omega)
    have hf : f.isValid = true := hv f (List.mem_cons_self _ _)
    obtain ⟨h1, h2⟩ := hok
    have hstep : encodeFragment s f = .ok (stepState s f) :=
      (encodeFragment_ok_iff s _ f).2 ⟨h1, rfl⟩
    simp only [encodeLoop, hi1, Nat.add_one_ne_zero, if_false, hf, Bool.not_true, hstep]
    rw [ih (fun g hg => hv g (List.mem_cons_of_mem _ hg)) (i + 1) _ (by omega) h2]
    have e : i + 1 + fs.length + 1 = i + (fs.length + 1) + 1 := by omega
    simp only [stateAfter, List.foldl_cons, List.length_cons, e, Bool.false_eq_true, if_false]

theorem encodeLoop_ok_prefix (fs : List Fragment) (hv : ∀ f ∈ fs, f.isValid = true) :
    ∀ (i : Nat) (s : EncoderState) (r : Nat × EncoderState), encodeLoop i s fs = .ok r →
      ∃ k, k ≤ fs.length ∧ RunOk s (fs.take k) ∧ r.2 = stateAfter s (fs.take k) ∧
        r.1 = (i + k + 1) % 2 ^ 64 ∧ (k < fs.length → (i + k + 1) % 2 ^ 64 = 0) := by
  induction fs with
  | nil =>
    intro i s r h
    simp only [encodeLoop, Except.ok.injEq] at h
    subst h
    exact ⟨0, le_refl _, trivial, rfl, rfl, fun h => absurd h (Nat.lt_irrefl _)⟩
  | cons f fs ih =>
    intro i s r h
    have hf : f.isValid = true := hv f (List.mem_cons_self _ _)
    by_cases hw : (i + 1) % 2 ^ 64 = 0
    · simp only [encodeLoop, hw, if_true, Except.ok.injEq] at h
      subst h
      exact ⟨0, Nat.zero_le _, trivial, rfl, by simpa using hw.symm, fun _ => by simpa using hw⟩
    · simp only [encodeLoop, hw, if_false, hf, Bool.not_true] at h
      cases hstep : encodeFragment s f with
      | error e => rw [hstep] at h; cases h
      | ok s1 =>
        rw [hstep] at h
        obtain ⟨hok, hs1⟩ := (encodeFragment_ok_iff s s1 f).1 hstep
        subst hs1
        obtain ⟨k, hk, hrun, hst, hi, hlt⟩ :=
          ih (fun g hg => hv g (List.mem_cons_of_mem _ hg)) _ _ r h
        refine ⟨k + 1, by simpa using hk, ⟨hok, by simpa using hrun⟩, by simpa [stateAfter] using hst, ?_, ?_⟩
        · rw [hi]; omega
        · intro hlt2
          have := hlt (by simpa using hlt2)
          omega

/-! The fields of the state after a list of fragments. -/

theorem stateAfter_nil (s : EncoderState) : stateAfter s [] = s := rfl

theorem stateAfter_cons (s : EncoderState) (f : Fragment) (fs : List Fragment) :
    stateAfter s (f :: fs) = stateAfter (stepState s f) fs := rfl

theorem stateAfter_append (s : EncoderState) (a b : List Fragment) :
    stateAfter s (a ++ b) = stateAfter (stateAfter s a) b := by
  simp only [stateAfter, List.foldl_append]

theorem stateAfter_snoc (s : EncoderState) (a : List Fragment) (f : Fragment) :
    stateAfter s (a ++ [f]) = stepState (stateAfter s a) f := by
  simp only [stateAfter, List.foldl_append, List.foldl_cons, List.foldl_nil]

theorem runOk_cons (s : EncoderState) (f : Fragment) (fs : List Fragment) :
    RunOk s (f :: fs) ↔ StepOk s f ∧ RunOk (stepState s f) fs := Iff.rfl

theorem runOk_append (a b : List Fragment) :
    ∀ s : EncoderState, RunOk s (a ++ b) ↔ RunOk s a ∧ RunOk (stateAfter s a) b := by
  induction a with
  | nil =>
    intro s
    rw [List.nil_append, stateAfter_nil]
    exact ⟨fun h => ⟨trivial, h⟩, fun h => h.2⟩
  | cons f a ih =>
    intro s
    rw [List.cons_append, runOk_cons, runOk_cons, stateAfter_cons, ih, and_assoc]

theorem stateAfter_out1 (fs : List Fragment) :
    ∀ s : EncoderState,
      (stateAfter s fs).out1 = s.out1 ++ encodeDeltas (posDiffs s.lastPos fs) := by
  induction fs with
  | nil => intro s; simp only [stateAfter_nil, posDiffs, encodeDeltas, List.append_nil]
  | cons f fs ih =>
    intro s
    rw [stateAfter_cons, ih]
    simp only [stepState, posDiffs, encodeDeltas, List.append_assoc]

theorem stateAfter_out2 (fs : List Fragment) :
    ∀ s : EncoderState,
      (stateAfter s fs).out2 = s.out2 ++ fs.map (fun f => f.fragmentLength_) := by
  induction fs with
  | nil => intro s; simp only [stateAfter_nil, List.map_nil, List.append_nil]
  | cons f fs ih =>
    intro s
    rw [stateAfter_cons, ih]
    simp only [stepState, List.map_cons, List.append_assoc, List.singleton_append]

theorem stateAfter_out3 (fs : List Fragment) :
    ∀ s : EncoderState,
      (stateAfter s fs).out3 = s.out3 ++ fs.map (fun f => f.allocatedTile_) := by
  induction fs with
  | nil => intro s; simp only [stateAfter_nil, List.map_nil, List.append_nil]
  | cons f fs ih =>
    intro s
    rw [stateAfter_cons, ih]
    simp only [stepState, List.map_cons, List.append_assoc, List.singleton_append]

theorem shiftAfter_lt (shift d : Nat) (h : shift < 2 ^ 32) : shiftAfter shift d < 2 ^ 32 := by
  unfold shiftAfter
  split
  · exact h
  · exact Nat.mod_lt _ (by norm_num)

theorem escapes_cons (d : Nat) (ds : List Nat) :
    escapes (d :: ds) = escapes ds + (if 65535 ≤ d then 1 else 0) := by
  simp only [escapes, List.countP_cons, decide_eq_true_eq]

theorem stateAfter_shift (fs : List Fragment) :
    ∀ s : EncoderState, s.shift < 2 ^ 32 →
      (stateAfter s fs).shift = (s.shift + 3 * escapes (posDiffs s.lastPos fs)) % 2 ^ 32 := by
  induction fs with
  | nil =>
    intro s hs
    simp only [stateAfter_nil, posDiffs, escapes, List.countP_nil, Nat.mul_zero, Nat.add_zero,
      Nat.mod_eq_of_lt hs]
  | cons f fs ih =>
    intro s hs
    rw [stateAfter_cons, ih _ (shiftAfter_lt _ _ hs)]
    simp only [stepState, posDiffs, escapes_cons, shiftAfter]
    by_cases h : posDiffOf s.lastPos f < 65535
    · rw [if_pos h, if_neg (by omega)]; rfl
    · rw [if_neg h, if_pos (by omega)]; omega

theorem length_encodeDeltas (ds : List Nat) :
    (encodeDeltas ds).length = ds.length + 3 * escapes ds := by
  induction ds with
  | nil => rfl
  | cons d ds ih =>
    simp only [encodeDeltas, List.length_append, ih, List.length_cons, escapes_cons, slotsOf]
    by_cases h : d < 65535
    · rw [if_pos h, if_neg (by omega)]; simp only [List.length_cons, List.length_nil]; omega
    · rw [if_neg h, if_pos (by omega)]; simp only [List.length_cons, List.length_nil]; omega

theorem length_posDiffs (fs : List Fragment) : ∀ lastPos, (posDiffs lastPos fs).length = fs.length := by
  induction fs with
  | nil => intro _; rfl
  | cons f fs ih => intro _; simp only [posDiffs, List.length_cons, ih]

theorem stepState_checkpoint (s : EncoderState) (f : Fragment)
    (hc : s.indexCount + 1 = 1000) :
    (stepState s f).indexCount = 0 ∧
    (stepState s f).indexFile = s.indexFile ++ [(stepState s f).lastPos] ∧
    (stepState s f).shiftFile = s.shiftFile ++ [(stepState s f).shift] := by
  have hcp : (s.indexCount + 1) % 2 ^ 64 = indexInterval := by
    rw [Nat.mod_eq_of_lt (by omega)]; exact hc
  simp only [stepState, hcp, decide_True, if_true, and_self]

theorem stepState_no_checkpoint (s : EncoderState) (f : Fragment)
    (hs : s.indexCount < 1000) (hc : s.indexCount + 1 ≠ 1000) :
    (stepState s f).indexCount = s.indexCount + 1 ∧
    (stepState s f).indexFile = s.indexFile ∧
    (stepState s f).shiftFile = s.shiftFile := by
  have h64 : (s.indexCount + 1) % 2 ^ 64 = s.indexCount + 1 := Nat.mod_eq_of_lt (by omega)
  have hcp : ¬ s.indexCount + 1 = indexInterval := hc
  simp only [stepState, h64, hcp, decide_False, Bool.false_eq_true, if_false, and_self]

theorem stateAfter_index (fs : List Fragment) :
    ∀ s : EncoderState, s.indexCount < 1000 →
      (stateAfter s fs).indexCount = (s.indexCount + fs.length) % 1000 ∧
      (stateAfter s fs).indexFile.length = s.indexFile.length + (s.indexCount + fs.length) / 1000 ∧
      (stateAfter s fs).shiftFile.length = s.shiftFile.length + (s.indexCount + fs.length) / 1000 := by
  induction fs with
  | nil =>
    intro s hs
    simp only [stateAfter_nil, List.length_nil, Nat.add_zero, Nat.mod_eq_of_lt hs,
      Nat.div_eq_of_lt hs, and_self]
  | cons f fs ih =>
    intro s hs
    rw [stateAfter_cons]
    by_cases hc : s.indexCount + 1 = 1000
    · obtain ⟨h1, h2, h3⟩ := stepState_checkpoint s f hc
      obtain ⟨i1, i2, i3⟩ := ih (stepState s f) (by omega)
      rw [i1, i2, i3, h1, h2, h3, List.length_cons, List.length_append, List.length_append]
      simp only [List.length_cons, List.length_nil]
      refine ⟨?_, ?_, ?_⟩ <;> omega
    · obtain ⟨h1, h2, h3⟩ := stepState_no_checkpoint s f hs hc
      obtain ⟨i1, i2, i3⟩ := ih (stepState s f) (by omega)
      rw [i1, i2, i3, h1, h2, h3, List.length_cons]
      refine ⟨?_, ?_, ?_⟩ <;> omega

/-! The tile histogram. -/

theorem getD_set_eq (l : List Nat) (i t v : Nat) (hi : i < l.length) :
    (l.set i v).getD t 0 = if t = i then v else l.getD t 0 := by
  simp only [List.getD_eq_getElem?_getD, List.getElem?_set]
  by_cases h : i = t
  · subst h
    simp only [if_true, hi, Option.getD_some]
  · rw [if_neg h, if_neg (fun e => h e.symm)]

theorem stepState_hist (s : EncoderState) (f : Fragment) (hok : StepOk s f)
    (hs : ∀ t, s.tileReadCount.getD t 0 < 2 ^ 32 - 1) :
    (stepState s f).tileReadCount.length = s.tileReadCount.length ∧
    ∀ t, (stepState s f).tileReadCount.getD t 0 =
          s.tileReadCount.getD t 0 + (if t = f.allocatedTile_ then 1 else 0) ∧
        (stepState s f).tileReadCount.getD t 0 < 2 ^ 32 - 1 := by
  obtain ⟨_, _, _, hb, hc⟩ := hok
  have hold := hs f.allocatedTile_
  have hmod : (s.tileReadCount.getD f.allocatedTile_ 0 + 1) % 2 ^ 32 =
      s.tileReadCount.getD f.allocatedTile_ 0 + 1 := Nat.mod_eq_of_lt (by omega)
  rw [hmod] at hc
  have hT : (stepState s f).tileReadCount =
      s.tileReadCount.set f.allocatedTile_ (s.tileReadCount.getD f.allocatedTile_ 0 + 1) := by
    simp only [stepState, hmod]
  rw [hT]
  refine ⟨List.length_set _ _ _, fun t => ?_⟩
  rw [getD_set_eq _ _ _ _ hb]
  by_cases ht : t = f.allocatedTile_
  · subst ht
    simp only [if_true]
    exact ⟨trivial, by omega⟩
  · simp only [if_neg ht, Nat.add_zero]
    exact ⟨trivial, hs t⟩

theorem stateAfter_hist (fs : List Fragment) :
    ∀ s : EncoderState, (∀ t, s.tileReadCount.getD t 0 < 2 ^ 32 - 1) → RunOk s fs →
      (stateAfter s fs).tileReadCount.length = s.tileReadCount.length ∧
      ∀ t, (stateAfter s fs).tileReadCount.getD t 0 =
            s.tileReadCount.getD t 0 + (fs.map (fun f => f.allocatedTile_)).count t ∧
          (stateAfter s fs).tileReadCount.getD t 0 < 2 ^ 32 - 1 := by
  induction fs with
  | nil =>
    intro s hs _
    exact ⟨rfl, fun t => ⟨by simp only [stateAfter_nil, List.map_nil, List.count_nil, Nat.add_zero], hs t⟩⟩
  | cons f fs ih =>
    intro s hs hok
    obtain ⟨h1, h2⟩ := (runOk_cons s f fs).1 hok
    obtain ⟨hl, hstep⟩ := stepState_hist s f h1 hs
    obtain ⟨il, ih2⟩ := ih (stepState s f) (fun t => (hstep t).2) h2
    rw [stateAfter_cons]
    refine ⟨il.trans hl, fun t => ⟨?_, (ih2 t).2⟩⟩
    rw [(ih2 t).1, (hstep t).1, List.map_cons, List.count_cons]
    by_cases ht : t = f.allocatedTile_
    · subst ht
      simp only [if_true, beq_self_eq_true]
      omega
    · have : (f.allocatedTile_ == t) = false := by
        simp only [beq_eq_false_iff_ne, ne_eq]
        exact fun e => ht e.symm
      simp only [if_neg ht, this, Bool.false_eq_true, if_false]
      omega

theorem runOk_forall (fs : List Fragment) :
    ∀ s : EncoderState, RunOk s fs →
      ∀ f ∈ fs, f.fragmentLength_ < 65536 ∧ f.allocatedTile_ < 65536 ∧
        f.allocatedTile_ < s.tileReadCount.length := by
  induction fs with
  | nil => intro s _ f hf; cases hf
  | cons g fs ih =>
    intro s hok f hf
    obtain ⟨h1, h2⟩ := (runOk_cons s g fs).1 hok
    rcases List.mem_cons.1 hf with rfl | hf
    · exact ⟨h1.1, h1.2.1, h1.2.2.2.1⟩
    · have hlen : (stepState s g).tileReadCount.length = s.tileReadCount.length := by
        simp only [stepState, List.length_set]
      have := ih (stepState s g) h2 f hf
      rw [hlen] at this
      exact this

theorem length_le_of_count_le (l : List Nat) (m B : Nat) (hm : ∀ x ∈ l, x < m)
    (hB : ∀ t, l.count t ≤ B) : l.length ≤ m * B := by
  have h1 : (∑ a in Finset.range m, (l : Multiset Nat).count a) = Multiset.card (l : Multiset Nat) :=
    Multiset.sum_count_eq_card (fun a ha => Finset.mem_range.2 (hm a (by simpa using ha)))
  have h2 : (∑ a in Finset.range m, (l : Multiset Nat).count a) ≤ ∑ _a in Finset.range m, B :=
    Finset.sum_le_sum (fun a _ => by simpa using hB a)
  simp only [Finset.sum_const, Finset.card_range, smul_eq_mul, Multiset.coe_card] at h1 h2
  omega

theorem sum_map_range (g : Nat → Nat) (m : Nat) :
    ((List.range m).map g).sum = ∑ a in Finset.range m, g a := by
  induction m with
  | zero => rfl
  | succ m ih =>
    rw [List.range_succ, List.map_append, List.sum_append, ih, Finset.sum_range_succ]
    simp only [List.map_cons, List.map_nil, List.sum_cons, List.sum_nil, Nat.add_zero]

theorem sum_count_range (l : List Nat) (m : Nat) (hm : ∀ x ∈ l, x < m) :
    ((List.range m).map (fun t => l.count t)).sum = l.length := by
  have h1 : (∑ a in Finset.range m, (l : Multiset Nat).count a) = Multiset.card (l : Multiset Nat) :=
    Multiset.sum_count_eq_card (fun a ha => Finset.mem_range.2 (hm a (by simpa using ha)))
  simp only [Multiset.coe_count, Multiset.coe_card] at h1
  rw [sum_map_range, h1]

/-! The run on a given sequence of fragments. -/

theorem initialState_hist (tileCount lp sh t : Nat) :
    (initialState tileCount lp sh).tileReadCount.getD t 0 = 0 := by
  simp only [initialState, List.getD_eq_getElem?_getD, List.getElem?_replicate]
  split <;> rfl

theorem runOk_length_le (tileCount lp sh : Nat) (fs : List Fragment)
    (h : RunOk (initialState tileCount lp sh) fs) : fs.length < 2 ^ 48 := by
  have h0 : ∀ t, (initialState tileCount lp sh).tileReadCount.getD t 0 < 2 ^ 32 - 1 := by
    intro t; rw [initialState_hist]; norm_num
  obtain ⟨_, hh⟩ := stateAfter_hist fs _ h0 h
  have hall := runOk_forall fs _ h
  have := length_le_of_count_le (fs.map (fun f => f.allocatedTile_)) 65536 (2 ^ 32 - 2)
    (by
      intro x hx
      obtain ⟨f, hf, rfl⟩ := List.mem_map.1 hx
      exact (hall f hf).2.1)
    (by
      intro t
      have h1 := (hh t).1
      have h2 := (hh t).2
      rw [initialState_hist] at h1
      omega)
  have e : 65536 * (2 ^ 32 - 2) < 2 ^ 48 := by norm_num
  rw [List.length_map] at this
  exact lt_of_le_of_lt this e

theorem isValid_iff (f : Fragment) : f.isValid = true ↔ 0 < f.fragmentLength_ := by
  simp only [Fragment.isValid, decide_eq_true_eq]

theorem runEncoder_ok_iff (tileCount lp sh : Nat) (fs : List Fragment)
    (hv : ∀ f ∈ fs, 0 < f.fragmentLength_) (r : RunResult) :
    runEncoder tileCount lp sh fs = .ok r ↔
      RunOk (initialState tileCount lp sh) fs ∧
      r = { state := stateAfter (initialState tileCount lp sh) fs,
            out4 := (stateAfter (initialState tileCount lp sh) fs).tileReadCount,
            generatedCount := fs.length } := by
  have hv' : ∀ f ∈ fs, f.isValid = true := fun f hf => (isValid_iff f).2 (hv f hf)
  constructor
  · intro h
    unfold runEncoder at h
    cases hl : encodeLoop 0 (initialState tileCount lp sh) fs with
    | error e => rw [hl] at h; cases h
    | ok p =>
      rw [hl] at h
      simp only [Except.ok.injEq] at h
      obtain ⟨k, hk, hrun, hst, hi, hlt⟩ := encodeLoop_ok_prefix fs hv' 0 _ p hl
      have hbound := runOk_length_le tileCount lp sh (fs.take k) hrun
      have hklen : (fs.take k).length = k := by
        rw [List.length_take]; omega
      rw [hklen] at hbound
      have hkeq : k = fs.length := by
        by_contra hne
        have := hlt (by omega)
        omega
      have htake : fs.take k = fs := by rw [hkeq]; exact List.take_length fs
      rw [htake] at hrun hst
      refine ⟨hrun, ?_⟩
      have e : (0 + fs.length + 1) % 2 ^ 64 + 2 ^ 64 - 1 = fs.length + 2 ^ 64 := by omega
      rw [← h]
      simp only [finishRun, hst, hi, hkeq, e, Nat.add_mod_right, Nat.mod_eq_of_lt (show fs.length < 2 ^ 64 by omega)]
  · rintro ⟨hrun, rfl⟩
    have hbound := runOk_length_le tileCount lp sh fs hrun
    unfold runEncoder
    have e : 0 + fs.length + 1 + 2 ^ 64 - 1 = fs.length + 2 ^ 64 := by omega
    rw [encodeLoop_of_runOk fs hv' 0 _ (by omega) hrun]
    simp only [finishRun, e, Nat.add_mod_right, Nat.mod_eq_of_lt (show fs.length < 2 ^ 64 by omega)]

/-! Decoding the positions stream. -/

theorem decodeDeltas_plain (x : Nat) (rest : List Nat) (h : x ≠ 65535) :
    decodeDeltas (x :: rest) = (decodeDeltas rest).map (fun ds => x :: ds) := by
  conv_lhs => unfold decodeDeltas
  simp only [h, if_false]

theorem decodeDeltas_escape (b2 b1 b0 : Nat) (rest : List Nat) :
    decodeDeltas (65535 :: b2 :: b1 :: b0 :: rest) =
      (decodeDeltas rest).map (fun ds => (b2 * 2 ^ 32 + b1 * 2 ^ 16 + b0) :: ds) := by
  conv_lhs => unfold decodeDeltas
  simp only [if_true]

theorem decodeDeltas_slotsOf_append (d : Nat) (rest : List Nat) (h : d < 2 ^ 48) :
    decodeDeltas (slotsOf d ++ rest) = (decodeDeltas rest).map (fun ds => d :: ds) := by
  unfold slotsOf
  by_cases hs : d < 65535
  · rw [if_pos hs, List.singleton_append, decodeDeltas_plain _ _ (by omega)]
  · rw [if_neg hs]
    have e : d / 2 ^ 32 % 2 ^ 16 * 2 ^ 32 + d / 2 ^ 16 % 2 ^ 16 * 2 ^ 16 + d % 2 ^ 16 = d := by
      omega
    have l : [65535, d / 2 ^ 32 % 2 ^ 16, d / 2 ^ 16 % 2 ^ 16, d % 2 ^ 16] ++ rest =
        65535 :: (d / 2 ^ 32 % 2 ^ 16) :: (d / 2 ^ 16 % 2 ^ 16) :: (d % 2 ^ 16) :: rest := rfl
    rw [l, decodeDeltas_escape, e]

theorem decodeDeltas_encodeDeltas (ds : List Nat) (h : ∀ d ∈ ds, d < 2 ^ 48) :
    decodeDeltas (encodeDeltas ds) = some ds := by
  induction ds with
  | nil => rfl
  | cons d ds ih =>
    rw [encodeDeltas, decodeDeltas_slotsOf_append d _ (h d (List.mem_cons_self _ _)),
      ih (fun x hx => h x (List.mem_cons_of_mem _ hx))]
    rfl

theorem accumulate_posDiffs (fs : List Fragment) :
    ∀ last, last < 2 ^ 64 → (∀ f ∈ fs, f.startPos_ < 2 ^ 64) →
      List.Chain (fun a b => a ≤ b) last (fs.map (fun f => f.startPos_)) →
      accumulate last (posDiffs last fs) = fs.map (fun f => f.startPos_) := by
  induction fs with
  | nil => intro _ _ _ _; rfl
  | cons f fs ih =>
    intro last hl hp hc
    rw [List.map_cons, List.chain_cons] at hc
    have hf := hp f (List.mem_cons_self _ _)
    have hm : f.startPos_ % 2 ^ 64 = f.startPos_ := Nat.mod_eq_of_lt hf
    have hd : last + posDiffOf last f = f.startPos_ := by
      unfold posDiffOf
      have := hc.1
      omega
    rw [posDiffs, accumulate, hd, hm, List.map_cons,
      ih _ hf (fun g hg => hp g (List.mem_cons_of_mem _ hg)) hc.2]

theorem posDiffs_lt (fs : List Fragment) :
    ∀ last, last < 2 ^ 64 → (∀ f ∈ fs, f.startPos_ < 2 ^ 64) →
      List.Chain (fun a b => b - a < 2 ^ 48) last (fs.map (fun f => f.startPos_)) →
      List.Chain (fun a b => a ≤ b) last (fs.map (fun f => f.startPos_)) →
      ∀ d ∈ posDiffs last fs, d < 2 ^ 48 := by
  induction fs with
  | nil => intro _ _ _ _ _ d hd; cases hd
  | cons f fs ih =>
    intro last hl hp hc hm d hd
    rw [List.map_cons, List.chain_cons] at hc hm
    have hf := hp f (List.mem_cons_self _ _)
    have hmod : f.startPos_ % 2 ^ 64 = f.startPos_ := Nat.mod_eq_of_lt hf
    rw [posDiffs, hmod] at hd
    rcases List.mem_cons.1 hd with rfl | hd
    · unfold posDiffOf
      have := hc.1
      have := hm.1
      omega
    · exact ih _ hf (fun g hg => hp g (List.mem_cons_of_mem _ hg)) hc.2 hm.2 d hd

theorem runOk_posDiffs (fs : List Fragment) :
    ∀ s : EncoderState, RunOk s fs → ∀ d ∈ posDiffs s.lastPos fs, d < 2 ^ 48 := by
  induction fs with
  | nil => intro _ _ d hd; cases hd
  | cons f fs ih =>
    intro s hok d hd
    obtain ⟨h1, h2⟩ := (runOk_cons s f fs).1 hok
    rw [posDiffs] at hd
    rcases List.mem_cons.1 hd with rfl | hd
    · exact h1.2.2.1
    · exact ih (stepState s f) h2 d hd

theorem runOk_of_wellFormed (fs : List Fragment) :
    ∀ s : EncoderState,
      (∀ f ∈ fs, f.fragmentLength_ < 65536 ∧ f.allocatedTile_ < 65536 ∧
        f.allocatedTile_ < s.tileReadCount.length) →
      (∀ d ∈ posDiffs s.lastPos fs, d < 2 ^ 48) →
      (∀ t, s.tileReadCount.getD t 0 + (fs.map (fun f => f.allocatedTile_)).count t < 2 ^ 32 - 1) →
      RunOk s fs := by
  induction fs with
  | nil => intro _ _ _ _; trivial
  | cons f fs ih =>
    intro s hf hd hc
    obtain ⟨f1, f2, f3⟩ := hf f (List.mem_cons_self _ _)
    have hcf := hc f.allocatedTile_
    rw [List.map_cons, List.count_cons_self] at hcf
    have hs : ∀ t, s.tileReadCount.getD t 0 < 2 ^ 32 - 1 := fun t => by
      have := hc t; omega
    have hstep : StepOk s f := by
      refine ⟨f1, f2, hd _ (by rw [posDiffs]; exact List.mem_cons_self _ _), f3, ?_⟩
      rw [Nat.mod_eq_of_lt (by omega)]
      omega
    obtain ⟨hl, hh⟩ := stepState_hist s f hstep hs
    refine (runOk_cons s f fs).2 ⟨hstep, ih (stepState s f) ?_ ?_ ?_⟩
    · intro g hg
      rw [hl]
      exact hf g (List.mem_cons_of_mem _ hg)
    · intro d hdm
      exact hd d (by rw [posDiffs]; exact List.mem_cons_of_mem _ hdm)
    · intro t
      have h1 := hc t
      rw [(hh t).1]
      rw [List.map_cons, List.count_cons] at h1
      by_cases ht : t = f.allocatedTile_
      · subst ht
        simp only [beq_self_eq_true, if_true] at h1 ⊢
        omega
      · have : (f.allocatedTile_ == t) = false := by
          simp only [beq_eq_false_iff_ne, ne_eq]
          exact fun e => ht e.symm
        simp only [this, Bool.false_eq_true, if_false, if_neg ht] at h1 ⊢
        omega

/-! Streams with a fixed stride. -/

theorem strideStream_length (stride : Nat) (n : Nat) :
    ∀ k, (strideStream stride k n).length = n := by
  induction n with
  | zero => intro k; rfl
  | succ n ih => intro k; rw [strideStream, List.length_cons, ih]

theorem strideStream_fields (stride : Nat) (n : Nat) :
    ∀ k, ∀ f ∈ strideStream stride k n, f.fragmentLength_ = 1 ∧ f.allocatedTile_ = 0 := by
  induction n with
  | zero => intro k f hf; cases hf
  | succ n ih =>
    intro k f hf
    rw [strideStream] at hf
    rcases List.mem_cons.1 hf with rfl | hf
    · exact ⟨rfl, rfl⟩
    · exact ih _ f hf

theorem strideStream_posDiffs (stride : Nat) (n : Nat) :
    ∀ k, stride * (k + n) < 2 ^ 64 →
      posDiffs (stride * k) (strideStream stride k n) = List.replicate n stride := by
  induction n with
  | zero => intro k _; rfl
  | succ n ih =>
    intro k hk
    have e1 : stride * (k + (n + 1)) = stride * k + stride * n + stride := by ring
    have e2 : stride * (k + 1) = stride * k + stride := by ring
    have e3 : stride * (k + 1 + n) = stride * k + stride * n + stride := by ring
    rw [e1] at hk
    have hd : posDiffOf (stride * k) ⟨stride * (k + 1), 1, 0⟩ = stride := by
      simp only [posDiffOf, e2]
      omega
    have hm : stride * (k + 1) % 2 ^ 64 = stride * (k + 1) := by
      rw [e2]; exact Nat.mod_eq_of_lt (by omega)
    rw [strideStream, posDiffs, hd]
    simp only [hm]
    rw [ih (k + 1) (by rw [e3]; exact hk), List.replicate_succ]

theorem strideStream_lastPos (stride : Nat) (n : Nat) :
    ∀ (k : Nat) (s : EncoderState), stride * (k + (n + 1)) < 2 ^ 64 →
      (stateAfter s (strideStream stride k (n + 1))).lastPos = stride * (k + (n + 1)) := by
  induction n with
  | zero =>
    intro k s hk
    rw [strideStream, strideStream, stateAfter_cons, stateAfter_nil]
    simp only [stepState]
    exact Nat.mod_eq_of_lt hk
  | succ n ih =>
    intro k s hk
    rw [strideStream, stateAfter_cons]
    have e : k + (n + 1 + 1) = k + 1 + (n + 1) := by omega
    rw [e] at hk ⊢
    exact ih (k + 1) _ hk

theorem strideStream_pos_lt (stride : Nat) (n : Nat) :
    ∀ k, stride * (k + n) < 2 ^ 64 → ∀ f ∈ strideStream stride k n, f.startPos_ < 2 ^ 64 := by
  induction n with
  | zero => intro k _ f hf; cases hf
  | succ n ih =>
    intro k hk f hf
    rw [strideStream] at hf
    rcases List.mem_cons.1 hf with rfl | hf
    · exact lt_of_le_of_lt (Nat.mul_le_mul_left stride (by omega)) hk
    · exact ih (k + 1) (by rwa [show k + 1 + n = k + (n + 1) by omega]) f hf

theorem escapes_replicate (n d : Nat) (h : 65535 ≤ d) : escapes (List.replicate n d) = n := by
  induction n with
  | zero => rfl
  | succ n ih => rw [List.replicate_succ, escapes_cons, ih, if_pos h]

theorem strideStream_runOk (stride n tileCount sh : Nat) (htc : 0 < tileCount)
    (hs : stride < 2 ^ 48) (hn : n < 2 ^ 32 - 1) (h64 : stride * n < 2 ^ 64) :
    RunOk (initialState tileCount 0 sh) (strideStream stride 0 n) := by
  have hp := strideStream_posDiffs stride n 0 (by simpa using h64)
  rw [Nat.mul_zero] at hp
  apply runOk_of_wellFormed
  · intro f hf
    obtain ⟨h1, h2⟩ := strideStream_fields stride n 0 f hf
    rw [h1, h2]
    refine ⟨by norm_num, by norm_num, ?_⟩
    simp only [initialState, List.length_replicate]
    exact htc
  · intro d hd
    have hl : (initialState tileCount 0 sh).lastPos = 0 := rfl
    rw [hl, hp] at hd
    rw [List.eq_of_mem_replicate hd]
    exact hs
  · intro t
    rw [initialState_hist, Nat.zero_add]
    have := List.count_le_length t ((strideStream stride 0 n).map (fun f => f.allocatedTile_))
    rw [List.length_map, strideStream_length] at this
    omega

theorem strideStream_valid (stride n k : Nat) :
    ∀ f ∈ strideStream stride k n, 0 < f.fragmentLength_ := by
  intro f hf
  rw [(strideStream_fields stride n k f hf).1]
  exact Nat.one_pos

/-! Checkpoints. -/

theorem stateAfter_files_prefix (fs : List Fragment) :
    ∀ s : EncoderState, ∃ e1 e2, (stateAfter s fs).indexFile = s.indexFile ++ e1 ∧
      (stateAfter s fs).shiftFile = s.shiftFile ++ e2 := by
  induction fs with
  | nil => intro s; exact ⟨[], [], by simp only [stateAfter_nil, List.append_nil], by simp only [stateAfter_nil, List.append_nil]⟩
  | cons f fs ih =>
    intro s
    obtain ⟨e1, e2, h1, h2⟩ := ih (stepState s f)
    rw [stateAfter_cons, h1, h2]
    by_cases hc : (s.indexCount + 1) % 2 ^ 64 = indexInterval
    · refine ⟨[f.startPos_ % 2 ^ 64] ++ e1, [shiftAfter s.shift (posDiffOf s.lastPos f)] ++ e2, ?_, ?_⟩
      · simp only [stepState, hc, decide_True, if_true, List.append_assoc]
      · simp only [stepState, hc, decide_True, if_true, List.append_assoc]
    · refine ⟨e1, e2, ?_, ?_⟩
      · simp only [stepState, hc, decide_False, Bool.false_eq_true, if_false]
      · simp only [stepState, hc, decide_False, Bool.false_eq_true, if_false]

theorem stateAfter_lastPos_snoc (s : EncoderState) (a : List Fragment) (f : Fragment) :
    (stateAfter s (a ++ [f])).lastPos = f.startPos_ % 2 ^ 64 := by
  rw [stateAfter_snoc]
  simp only [stepState]

theorem stateAfter_last_checkpoint (s : EncoderState) (a : List Fragment) (f : Fragment)
    (hs : s.indexCount < 1000) (hm : (s.indexCount + (a.length + 1)) % 1000 = 0) :
    (stateAfter s (a ++ [f])).indexFile =
        (stateAfter s a).indexFile ++ [(stateAfter s (a ++ [f])).lastPos] ∧
    (stateAfter s (a ++ [f])).shiftFile =
        (stateAfter s a).shiftFile ++ [(stateAfter s (a ++ [f])).shift] := by
  obtain ⟨h1, _, _⟩ := stateAfter_index a s hs
  have hc : (stateAfter s a).indexCount + 1 = 1000 := by
    rw [h1]; omega
  obtain ⟨_, c2, c3⟩ := stepState_checkpoint (stateAfter s a) f hc
  rw [stateAfter_snoc]
  exact ⟨c2, c3⟩

theorem posDiffs_append (a b : List Fragment) :
    ∀ s : EncoderState, posDiffs s.lastPos (a ++ b) =
      posDiffs s.lastPos a ++ posDiffs (stateAfter s a).lastPos b := by
  induction a with
  | nil => intro s; rfl
  | cons f a ih =>
    intro s
    have hl : (stepState s f).lastPos = f.startPos_ % 2 ^ 64 := rfl
    rw [List.cons_append, posDiffs, posDiffs, stateAfter_cons, List.cons_append, ← hl, ih]

theorem escapes_append (a b : List Nat) : escapes (a ++ b) = escapes a + escapes b := by
  simp only [escapes, List.countP_append]

theorem encodeDeltas_append (a b : List Nat) :
    encodeDeltas (a ++ b) = encodeDeltas a ++ encodeDeltas b := by
  induction a with
  | nil => rfl
  | cons d a ih => rw [List.cons_append, encodeDeltas, encodeDeltas, ih, List.append_assoc]

theorem take_eq_snoc (fs : List Fragment) (n : Nat) (h : n < fs.length) :
    fs.take (n + 1) = fs.take n ++ [fs.get ⟨n, h⟩] := by
  rw [List.take_succ, List.getElem?_eq_getElem h]
  rfl

theorem checkpoint_entries (s0 : EncoderState) (hc : s0.indexCount = 0) (fs : List Fragment)
    (k : Nat) (hk : 1 ≤ k) (hkn : 1000 * k ≤ fs.length) :
    (stateAfter s0 fs).indexFile[s0.indexFile.length + (k - 1)]? =
        some (stateAfter s0 (fs.take (1000 * k))).lastPos ∧
    (stateAfter s0 fs).shiftFile[s0.shiftFile.length + (k - 1)]? =
        some (stateAfter s0 (fs.take (1000 * k))).shift := by
  have hN : 1000 * k - 1 < fs.length := by omega
  have hsplit : fs = fs.take (1000 * k) ++ fs.drop (1000 * k) := (List.take_append_drop _ _).symm
  have hpre : fs.take (1000 * k) = fs.take (1000 * k - 1) ++ [fs.get ⟨1000 * k - 1, hN⟩] := by
    have := take_eq_snoc fs (1000 * k - 1) hN
    rwa [show 1000 * k - 1 + 1 = 1000 * k by omega] at this
  have hlen : (fs.take (1000 * k - 1)).length = 1000 * k - 1 := by
    rw [List.length_take]; omega
  have hs0 : s0.indexCount < 1000 := by omega
  obtain ⟨_, i2, i3⟩ := stateAfter_index (fs.take (1000 * k - 1)) s0 hs0
  obtain ⟨c2, c3⟩ := stateAfter_last_checkpoint s0 (fs.take (1000 * k - 1))
    (fs.get ⟨1000 * k - 1, hN⟩) hs0 (by rw [hlen, hc]; omega)
  rw [← hpre] at c2 c3
  rw [hlen, hc] at i2 i3
  have d : (0 + (1000 * k - 1)) / 1000 = k - 1 := by omega
  rw [d] at i2 i3
  obtain ⟨e1, e2, p1, p2⟩ := stateAfter_files_prefix (fs.drop (1000 * k))
    (stateAfter s0 (fs.take (1000 * k)))
  rw [← stateAfter_append, ← hsplit] at p1 p2
  constructor
  · rw [p1, c2, List.append_assoc, List.getElem?_append_right (by omega), i2,
      Nat.sub_self, List.singleton_append, List.getElem?_cons_zero]
  · rw [p2, c3, List.append_assoc, List.getElem?_append_right (by omega), i3,
      Nat.sub_self, List.singleton_append, List.getElem?_cons_zero]

theorem strideStream_run (stride n tileCount sh : Nat) (htc : 0 < tileCount)
    (hlo : 65535 ≤ stride) (hs : stride < 2 ^ 48) (hn : n < 2 ^ 32 - 1)
    (h64 : stride * n < 2 ^ 64) (hsh : sh < 2 ^ 32) :
    ∃ r, runEncoder tileCount 0 sh (strideStream stride 0 n) = .ok r ∧
      escapes (posDiffs 0 (strideStream stride 0 n)) = n ∧
      r.state.shift = (sh + 3 * n) % 2 ^ 32 ∧
      r.state.out1.length = n + 3 * n ∧
      r.state.tileReadCount.getD 0 0 ≤ n ∧
      r.state.tileReadCount.length = tileCount ∧
      r.state = stateAfter (initialState tileCount 0 sh) (strideStream stride 0 n) := by
  have hrun := strideStream_runOk stride n tileCount sh htc hs hn h64
  have hp := strideStream_posDiffs stride n 0 (by simpa using h64)
  rw [Nat.mul_zero] at hp
  have hesc : escapes (posDiffs 0 (strideStream stride 0 n)) = n := by
    rw [hp, escapes_replicate n stride hlo]
  have hl : (initialState tileCount 0 sh).lastPos = 0 := rfl
  have ho : (initialState tileCount 0 sh).out1 = [] := rfl
  have hsf : (initialState tileCount 0 sh).shift = sh := rfl
  have h0 : ∀ t, (initialState tileCount 0 sh).tileReadCount.getD t 0 < 2 ^ 32 - 1 := by
    intro t; rw [initialState_hist]; norm_num
  obtain ⟨hlen, hh⟩ := stateAfter_hist _ _ h0 hrun
  refine ⟨_, (runEncoder_ok_iff tileCount 0 sh _ (strideStream_valid stride n 0) _).2 ⟨hrun, rfl⟩,
    hesc, ?_, ?_, ?_, ?_, rfl⟩
  · show (stateAfter (initialState tileCount 0 sh) (strideStream stride 0 n)).shift = _
    rw [stateAfter_shift _ _ (by rw [hsf]; exact hsh), hl, hesc, hsf]
  · show (stateAfter (initialState tileCount 0 sh) (strideStream stride 0 n)).out1.length = _
    rw [stateAfter_out1, ho, List.nil_append, length_encodeDeltas, hl, hesc, length_posDiffs,
      strideStream_length]
  · show (stateAfter (initialState tileCount 0 sh) (strideStream stride 0 n)).tileReadCount.getD 0 0 ≤ n
    rw [(hh 0).1, initialState_hist, Nat.zero_add]
    have := List.count_le_length 0 ((strideStream stride 0 n).map (fun f => f.allocatedTile_))
    rwa [List.length_map, strideStream_length] at this
  · show (stateAfter (initialState tileCount 0 sh) (strideStream stride 0 n)).tileReadCount.length = _
    rw [hlen]
    simp only [initialState, List.length_replicate]

theorem list_eq_map_range (l : List Nat) (n : Nat) (g : Nat → Nat) (hl : l.length = n)
    (hg : ∀ t, t < n → l.getD t 0 = g t) : l = (List.range n).map g := by
  apply List.ext_getElem?
  intro t
  by_cases ht : t < n
  · have h1 := hg t ht
    rw [List.getD_eq_getElem?_getD, List.getElem?_eq_getElem (by omega)] at h1
    rw [List.getElem?_eq_getElem (by omega), List.getElem?_map,
      List.getElem?_range ht]
    simp only [Option.getD_some] at h1
    simp only [Option.map_some', h1]
  · rw [List.getElem?_eq_none (by omega), List.getElem?_eq_none (by
      rw [List.length_map, List.length_range]; omega)]

/-! The generation loop. -/

theorem draws_succ {σ : Type} (c : Collaborators σ) (k : Nat) :
    ∀ e : σ, draws c e (k + 1) = draws c e k ++ [(c.getNext (extAfter c e k)).1] := by
  induction k with
  | zero => intro e; rfl
  | succ k ih =>
    intro e
    show (c.getNext e).1 :: draws c (c.getNext e).2 (k + 1) = _
    rw [ih]
    rfl

theorem extAfter_succ {σ : Type} (c : Collaborators σ) (k : Nat) :
    ∀ e : σ, extAfter c e (k + 1) = (c.getNext (extAfter c e k)).2 := by
  induction k with
  | zero => intro e; rfl
  | succ k ih =>
    intro e
    show extAfter c (c.getNext e).2 (k + 1) = _
    rw [ih]
    rfl

theorem generateLoop_spec {σ : Type} (c : Collaborators σ) (o : FragmentsAllocatorOptions)
    (n N : Nat) (k : Nat) :
    ∀ (w : World σ) (fuel : Nat), k < fuel →
      (∀ p ∈ draws c w.ext k, p.2 ≠ 0 ∧ c.needsDiscarding (Fragment.ofInterval p) = true) →
      ((c.getNext (extAfter c w.ext k)).1.2 = 0 →
        generateLoop c o n N fuel w =
          some (.ok (Fragment.invalid,
            { worldAfterDraws c w k with
              ext := extAfter c w.ext (k + 1),
              drawn := w.drawn ++ draws c w.ext (k + 1) }))) ∧
      ((c.getNext (extAfter c w.ext k)).1.2 ≠ 0 →
        c.needsDiscarding (Fragment.ofInterval (c.getNext (extAfter c w.ext k)).1) = false →
        generateLoop c o n N fuel w =
          some (allocateTile c o (worldAfterDraws c w (k + 1))
            (Fragment.ofInterval (c.getNext (extAfter c w.ext k)).1) n N)) := by
  induction k with
  | zero =>
    intro w fuel hf _
    obtain ⟨fuel, rfl⟩ : ∃ m, fuel = m + 1 := ⟨fuel - 1, by omega⟩
    constructor
    · intro hz
      have hz' : (c.getNext w.ext).1.2 = 0 := hz
      simp only [generateLoop, hz', if_true, worldAfterDraws, draws, extAfter, List.map_nil,
        List.append_nil, Nat.zero_add]
    · intro hnz hnd
      have hnz' : ¬ (c.getNext w.ext).1.2 = 0 := hnz
      have hnd' : c.needsDiscarding (Fragment.ofInterval (c.getNext w.ext).1) = false := hnd
      simp only [generateLoop, hnz', if_false, hnd', Bool.false_eq_true]
      rfl
  | succ k ih =>
    intro w fuel hf hall
    obtain ⟨fuel, rfl⟩ : ∃ m, fuel = m + 1 := ⟨fuel - 1, by omega⟩
    have h0 := hall (c.getNext w.ext).1 (List.mem_cons_self _ _)
    let w2 : World σ :=
      { ext := (c.getNext w.ext).2, lastTile := w.lastTile,
        drawn := w.drawn ++ [(c.getNext w.ext).1],
        consulted := w.consulted ++ [Fragment.ofInterval (c.getNext w.ext).1] }
    have hstep : generateLoop c o n N (fuel + 1) w = generateLoop c o n N fuel w2 := by
      simp only [generateLoop, h0.1, if_false, h0.2, if_true]
    have hrest : ∀ p ∈ draws c w2.ext k,
        p.2 ≠ 0 ∧ c.needsDiscarding (Fragment.ofInterval p) = true :=
      fun p hp => hall p (List.mem_cons_of_mem _ hp)
    obtain ⟨i1, i2⟩ := ih w2 fuel (by omega) hrest
    have hwa : ∀ j, worldAfterDraws c w2 j = worldAfterDraws c w (j + 1) := by
      intro j
      simp only [worldAfterDraws, w2, draws, extAfter, List.append_assoc, List.singleton_append,
        List.map_cons]
    have hext : ∀ j, extAfter c w2.ext j = extAfter c w.ext (j + 1) := fun j => rfl
    have hdr : ∀ j, w2.drawn ++ draws c w2.ext j = w.drawn ++ draws c w.ext (j + 1) := by
      intro j
      simp only [w2, draws, List.append_assoc, List.singleton_append]
    rw [hstep]
    constructor
    · intro hz
      rw [i1 hz, hwa, hext, hdr]
    · intro hnz hnd
      rw [i2 hnz hnd, hwa]
      rfl

theorem allocateTile_ok {σ : Type} (c : Collaborators σ) (o : FragmentsAllocatorOptions)
    (w w1 : World σ) (f f1 : Fragment) (n N : Nat)
    (h : allocateTile c o w f n N = .ok (f1, w1)) :
    f1.interval = f.interval ∧ w1.drawn = w.drawn ∧ w1.consulted = w.consulted := by
  unfold allocateTile at h
  split at h
  · simp only [allocateRandomTile, Except.ok.injEq, Prod.mk.injEq] at h
    obtain ⟨rfl, rfl⟩ := h
    exact ⟨rfl, rfl, rfl⟩
  · simp only [allocateTileInSequence, Except.ok.injEq, Prod.mk.injEq] at h
    obtain ⟨rfl, rfl⟩ := h
    exact ⟨rfl, rfl, rfl⟩
  · simp only [allocateInterleavedTile, Except.ok.injEq, Prod.mk.injEq] at h
    obtain ⟨rfl, rfl⟩ := h
    exact ⟨rfl, rfl, rfl⟩
  · cases h

theorem generateLoop_ok {σ : Type} (c : Collaborators σ) (o : FragmentsAllocatorOptions)
    (n N : Nat) (fuel : Nat) :
    ∀ (w w1 : World σ) (f : Fragment), generateLoop c o n N fuel w = some (.ok (f, w1)) →
      ∃ D0 t, w1.drawn = w.drawn ++ (D0 ++ [t]) ∧
        (∀ p ∈ D0, p.2 ≠ 0 ∧ c.needsDiscarding (Fragment.ofInterval p) = true) ∧
        ((t.2 = 0 ∧ f = Fragment.invalid ∧
            w1.consulted = w.consulted ++ D0.map Fragment.ofInterval) ∨
         (t.2 ≠ 0 ∧ c.needsDiscarding (Fragment.ofInterval t) = false ∧ f.interval = t ∧
            w1.consulted = w.consulted ++ (D0 ++ [t]).map Fragment.ofInterval)) := by
  induction fuel with
  | zero => intro w w1 f h; cases h
  | succ fuel ih =>
    intro w w1 f h
    by_cases hz : (c.getNext w.ext).1.2 = 0
    · simp only [generateLoop, hz, if_true, Option.some.injEq, Except.ok.injEq,
        Prod.mk.injEq] at h
      obtain ⟨rfl, rfl⟩ := h
      exact ⟨[], (c.getNext w.ext).1, rfl, (fun p hp => by cases hp),
        Or.inl ⟨hz, rfl, by simp only [List.map_nil, List.append_nil]⟩⟩
    · by_cases hd : c.needsDiscarding (Fragment.ofInterval (c.getNext w.ext).1) = true
      · simp only [generateLoop, hz, if_false, hd, if_true] at h
        obtain ⟨D0, t, h1, h2, h3⟩ := ih _ w1 f h
        refine ⟨(c.getNext w.ext).1 :: D0, t, ?_, ?_, ?_⟩
        · rw [h1]
          simp only [List.append_assoc, List.singleton_append, List.cons_append,
            List.nil_append]
        · intro p hp
          rcases List.mem_cons.1 hp with rfl | hp
          · exact ⟨hz, hd⟩
          · exact h2 p hp
        · rcases h3 with ⟨a, b, e⟩ | ⟨a, b, b2, e⟩
          · refine Or.inl ⟨a, b, ?_⟩
            rw [e]
            simp only [List.append_assoc, List.singleton_append, List.map_cons,
              List.nil_append]
          · refine Or.inr ⟨a, b, b2, ?_⟩
            rw [e]
            simp only [List.append_assoc, List.singleton_append, List.map_cons,
              List.cons_append, List.nil_append]
      · have hd' : c.needsDiscarding (Fragment.ofInterval (c.getNext w.ext).1) = false := by
          simpa using hd
        simp only [generateLoop, hz, if_false, hd', Bool.false_eq_true,
          Option.some.injEq] at h
        obtain ⟨a1, a2, a3⟩ := allocateTile_ok c o _ w1 _ f n N h
        refine ⟨[], (c.getNext w.ext).1, ?_, (fun p hp => by cases hp),
          Or.inr ⟨hz, hd', a1, ?_⟩⟩
        · rw [a2]; rfl
        · rw [a3]; rfl

theorem candidates_append (a b : List (Nat × Nat)) :
    candidates (a ++ b) = candidates a ++ candidates b := by
  simp only [candidates, List.filter_append]

theorem candidates_of_nonzero (a : List (Nat × Nat)) (h : ∀ p ∈ a, p.2 ≠ 0) :
    candidates a = a := by
  simp only [candidates, List.filter_eq_self, decide_eq_true_eq]
  exact h

theorem candidates_zero (t : Nat × Nat) (h : t.2 = 0) : candidates [t] = [] := by
  simp only [candidates, List.filter_cons, h, ne_eq, not_true_eq_false, decide_False,
    Bool.false_eq_true, if_false, List.filter_nil]

theorem accepted_append {σ : Type} (c : Collaborators σ) (a b : List (Nat × Nat)) :
    accepted c (a ++ b) = accepted c a ++ accepted c b := by
  simp only [accepted, List.filter_append]

theorem accepted_of_discarded {σ : Type} (c : Collaborators σ) (a : List (Nat × Nat))
    (h : ∀ p ∈ a, c.needsDiscarding (Fragment.ofInterval p) = true) : accepted c a = [] := by
  simp only [accepted, List.filter_eq_nil_iff, Bool.not_eq_true', Bool.not_eq_false]
  exact h

theorem accepted_single {σ : Type} (c : Collaborators σ) (t : Nat × Nat)
    (h : c.needsDiscarding (Fragment.ofInterval t) = false) : accepted c [t] = [t] := by
  simp only [accepted, List.filter_cons, h, Bool.not_false, if_true, List.filter_nil]

theorem runLoop_ok {σ : Type} (c : Collaborators σ) (o : FragmentsAllocatorOptions)
    (hgen : o.mergeExistingFragments = false) (readCount : Nat) (fuel : Nat) :
    ∀ (i : Nat) (w : World σ) (s : EncoderState) (i1 : Nat) (w1 : World σ) (s1 : EncoderState),
      runLoop c o readCount fuel i w s = some (.ok (i1, w1, s1)) →
      ∃ D fs, w1.drawn = w.drawn ++ D ∧
        w1.consulted = w.consulted ++ (candidates D).map Fragment.ofInterval ∧
        fs.map Fragment.interval = accepted c (candidates D) ∧
        (∀ f ∈ fs, 0 < f.fragmentLength_) ∧
        encodeLoop i s fs = .ok (i1, s1) ∧
        (i1 = 0 ∨ ∃ D0 t, D = D0 ++ [t] ∧ t.2 = 0 ∧ ∀ p ∈ D0, p.2 ≠ 0) := by
  induction fuel with
  | zero => intro i w s i1 w1 s1 h; cases h
  | succ fuel ih =>
    intro i w s i1 w1 s1 h
    by_cases hw : (i + 1) % 2 ^ 64 = 0
    · simp only [runLoop, hw, if_true, Option.some.injEq, Except.ok.injEq,
        Prod.mk.injEq] at h
      obtain ⟨rfl, rfl, rfl⟩ := h
      refine ⟨[], [], by simp only [List.append_nil], ?_, rfl, (fun f hf => by cases hf), ?_,
        Or.inl rfl⟩
      · simp only [candidates, List.filter_nil, List.map_nil, List.append_nil]
      · simp only [encodeLoop, hw]
    · have hg : getNextFragment c o (fuel + 1) w ((i + 1) % 2 ^ 64) readCount =
          generateLoop c o ((i + 1) % 2 ^ 64) readCount (fuel + 1) w := by
        simp only [getNextFragment, hgen, Bool.not_false, if_true]
      rw [runLoop, if_neg hw, hg] at h
      cases hgl : generateLoop c o ((i + 1) % 2 ^ 64) readCount (fuel + 1) w with
      | none => rw [hgl] at h; cases h
      | some res =>
        cases res with
        | error e => rw [hgl] at h; cases h
        | ok p =>
          obtain ⟨f, w2⟩ := p
          rw [hgl] at h
          obtain ⟨D0, t, d1, d2, d3⟩ := generateLoop_ok c o _ _ _ w w2 f hgl
          have hD0 : ∀ p ∈ D0, p.2 ≠ 0 := fun p hp => (d2 p hp).1
          have hD0d : ∀ p ∈ D0, c.needsDiscarding (Fragment.ofInterval p) = true :=
            fun p hp => (d2 p hp).2
          by_cases hv : f.isValid = true
          · have hlen : 0 < f.fragmentLength_ := (isValid_iff f).1 hv
            rcases d3 with ⟨_, rfl, _⟩ | ⟨tz, td, tf, tc⟩
            · cases hv
            simp only [hv, Bool.not_true, Bool.false_eq_true, if_false] at h
            cases hs : encodeFragment s f with
            | error e => rw [hs] at h; cases h
            | ok s2 =>
              rw [hs] at h
              obtain ⟨D, fs, e1, e2, e3, e4, e5, e6⟩ := ih _ w2 s2 i1 w1 s1 h
              have hc1 : candidates (D0 ++ [t] ++ D) = D0 ++ [t] ++ candidates D := by
                rw [candidates_append, candidates_of_nonzero (D0 ++ [t])]
                intro p hp
                rcases List.mem_append.1 hp with hp | hp
                · exact hD0 p hp
                · rw [List.mem_singleton.1 hp]; exact tz
              refine ⟨D0 ++ [t] ++ D, f :: fs, ?_, ?_, ?_, ?_, ?_, ?_⟩
              · rw [e1, d1]
                simp only [List.append_assoc]
              · rw [e2, tc, hc1]
                simp only [List.append_assoc, List.map_append]
              · rw [hc1, accepted_append, accepted_append, accepted_of_discarded c D0 hD0d,
                  accepted_single c t td, List.map_cons, e3, tf]
                rfl
              · intro g hg
                rcases List.mem_cons.1 hg with rfl | hg
                · exact hlen
                · exact e4 g hg
              · simp only [encodeLoop, hw, if_false, hv, Bool.not_true, hs]
                exact e5
              · rcases e6 with e6 | ⟨E0, u, rfl, u1, u2⟩
                · exact Or.inl e6
                · refine Or.inr ⟨D0 ++ [t] ++ E0, u, by simp only [List.append_assoc], u1, ?_⟩
                  intro p hp
                  rcases List.mem_append.1 hp with hp | hp
                  · rcases List.mem_append.1 hp with hp | hp
                    · exact hD0 p hp
                    · rw [List.mem_singleton.1 hp]; exact tz
                  · exact u2 p hp
          · have hv' : f.isValid = false := by simpa using hv
            rcases d3 with ⟨tz, _, tc⟩ | ⟨tz, _, tf, _⟩
            swap
            · exfalso
              have : f.fragmentLength_ = t.2 := congrArg Prod.snd tf
              have h0 : ¬ 0 < f.fragmentLength_ := fun hh => hv ((isValid_iff f).2 hh)
              omega
            simp only [hv', Bool.not_false, if_true, Option.some.injEq, Except.ok.injEq,
              Prod.mk.injEq] at h
            obtain ⟨rfl, rfl, rfl⟩ := h
            have hc1 : candidates (D0 ++ [t]) = D0 := by
              rw [candidates_append, candidates_of_nonzero D0 hD0, candidates_zero t tz,
                List.append_nil]
            refine ⟨D0 ++ [t], [], d1, ?_, ?_, (fun g hg => by cases hg), ?_,
              Or.inr ⟨D0, t, rfl, tz, hD0⟩⟩
            · rw [tc, hc1]
            · rw [hc1, accepted_of_discarded c D0 hD0d]
              rfl
            · simp only [encodeLoop]

theorem runLoop_merge (o : FragmentsAllocatorOptions) (hm : o.mergeExistingFragments = true)
    (readCount : Nat) (fs : List Fragment) :
    ∀ (fuel i : Nat) (w : World (List Fragment)) (s : EncoderState),
      w.ext = fs → fs.length < fuel →
      (∀ e, encodeLoop i s fs = .error e →
        runLoop readerCollaborators o readCount fuel i w s = some (.error e)) ∧
      (∀ r, encodeLoop i s fs = .ok r →
        ∃ w1, runLoop readerCollaborators o readCount fuel i w s = some (.ok (r.1, w1, r.2))) := by
  induction fs with
  | nil =>
    intro fuel i w s hw hf
    obtain ⟨fuel, rfl⟩ : ∃ m, fuel = m + 1 := ⟨fuel - 1, by omega⟩
    constructor
    · intro e h
      simp only [encodeLoop] at h
      cases h
    · intro r h
      simp only [encodeLoop, Except.ok.injEq] at h
      subst h
      by_cases hwrap : (i + 1) % 2 ^ 64 = 0
      · exact ⟨w, by simp only [runLoop, hwrap, if_true]⟩
      · refine ⟨{ w with ext := [] }, ?_⟩
        simp only [runLoop, hwrap, if_false, getNextFragment, hm, Bool.not_true,
          Bool.false_eq_true, readerCollaborators, hw]
        rfl
  | cons f fs ih =>
    intro fuel i w s hw hf
    obtain ⟨fuel, rfl⟩ : ∃ m, fuel = m + 1 := ⟨fuel - 1, by omega⟩
    rw [List.length_cons] at hf
    by_cases hwrap : (i + 1) % 2 ^ 64 = 0
    · constructor
      · intro e h
        simp only [encodeLoop, hwrap, if_true] at h
        cases h
      · intro r h
        simp only [encodeLoop, hwrap, if_true, Except.ok.injEq] at h
        subst h
        exact ⟨w, by simp only [runLoop, hwrap, if_true]⟩
    · have hg : getNextFragment readerCollaborators o (fuel + 1) w ((i + 1) % 2 ^ 64) readCount =
          some (.ok (f, { w with ext := fs })) := by
        simp only [getNextFragment, hm, Bool.not_true, Bool.false_eq_true, if_false,
          readerCollaborators, hw]
      by_cases hv : f.isValid = true
      · cases hs : encodeFragment s f with
        | error e0 =>
          constructor
          · intro e h
            simp only [encodeLoop, hwrap, if_false, hv, Bool.not_true, Bool.false_eq_true,
              hs, Except.error.injEq] at h
            subst h
            simp only [runLoop, hwrap, if_false, hg, hv, Bool.not_true, Bool.false_eq_true, hs]
          · intro r h
            simp only [encodeLoop, hwrap, if_false, hv, Bool.not_true, Bool.false_eq_true,
              hs] at h
            cases h
        | ok s2 =>
          obtain ⟨i1, i2⟩ := ih fuel ((i + 1) % 2 ^ 64) { w with ext := fs } s2 rfl (by omega)
          constructor
          · intro e h
            simp only [encodeLoop, hwrap, if_false, hv, Bool.not_true, Bool.false_eq_true,
              hs] at h
            simp only [runLoop, hwrap, if_false, hg, hv, Bool.not_true, Bool.false_eq_true, hs]
            exact i1 e h
          · intro r h
            simp only [encodeLoop, hwrap, if_false, hv, Bool.not_true, Bool.false_eq_true,
              hs] at h
            simp only [runLoop, hwrap, if_false, hg, hv, Bool.not_true, Bool.false_eq_true, hs]
            exact i2 r h
      · have hv' : f.isValid = false := by simpa using hv
        constructor
        · intro e h
          simp only [encodeLoop, hwrap, if_false, hv', Bool.not_false, if_true] at h
          cases h
        · intro r h
          simp only [encodeLoop, hwrap, if_false, hv', Bool.not_false, if_true,
            Except.ok.injEq] at h
          subst h
          exact ⟨{ w with ext := fs }, by
            simp only [runLoop, hwrap, if_false, hg, hv', Bool.not_false, if_true]⟩

theorem allocateTileInSequence_mono (tileCount fragmentCount i j : Nat) (f g : Fragment)
    (h : i ≤ j) :
    (allocateTileInSequence tileCount i fragmentCount f).allocatedTile_ ≤
      (allocateTileInSequence tileCount j fragmentCount g).allocatedTile_ :=
  Nat.div_le_div_right (Nat.mul_le_mul_right tileCount h)

theorem allocateTileInSequence_last (tileCount readCount : Nat) (f : Fragment)
    (h : 0 < readCount) :
    (allocateTileInSequence tileCount readCount readCount f).allocatedTile_ = tileCount := by
  show readCount * tileCount / readCount = tileCount
  exact Nat.mul_div_cancel_left tileCount h

/-! More on the loop body. -/

theorem writePosDiff_error (out1 : List Nat) (shift d : Nat) (e : Fatal)
    (h : writePosDiff out1 shift d = .error e) : e = .assertion := by
  unfold writePosDiff at h
  split at h
  · cases h
  · simp only at h
    split at h
    · cases h
    · simp only [Except.error.injEq] at h
      exact h.symm

theorem encodeFragment_error_of_not_stepOk (s : EncoderState) (f : Fragment)
    (h : ¬ StepOk s f) : ∃ e, encodeFragment s f = .error e := by
  cases hr : encodeFragment s f with
  | error e => exact ⟨e, rfl⟩
  | ok s1 => exact absurd ((encodeFragment_ok_iff s s1 f).1 hr).1 h

theorem encodeFragment_counter_fatal (s : EncoderState) (f : Fragment)
    (hc : s.tileReadCount.getD f.allocatedTile_ 0 = 2 ^ 32 - 2) :
    encodeFragment s f = .error .assertion := by
  have hb : f.allocatedTile_ < s.tileReadCount.length := by
    by_contra hb
    rw [List.getD_eq_default _ _ (by omega)] at hc
    norm_num at hc
  have hcount : (s.tileReadCount.getD f.allocatedTile_ 0 + 1) % 2 ^ 32 = 0xFFFFFFFF := by
    rw [hc]; norm_num
  simp only [encodeFragment]
  by_cases hl : f.fragmentLength_ < 65536
  swap
  · simp only [hl, not_false_eq_true, if_true]
  by_cases ht : f.allocatedTile_ < 65536
  swap
  · simp only [hl, ht, not_false_eq_true, not_true_eq_false, if_true, if_false]
  simp only [hl, ht, not_true_eq_false, if_false]
  cases hw : writePosDiff s.out1 s.shift (posDiffOf s.lastPos f) with
  | error e =>
    rw [writePosDiff_error _ _ _ e hw]
  | ok r =>
    simp only [hb, not_true_eq_false, if_false, hcount, if_true]

theorem strideStream_tiles (stride : Nat) (n : Nat) :
    ∀ k, (strideStream stride k n).map (fun f => f.allocatedTile_) = List.replicate n 0 := by
  induction n with
  | zero => intro k; rfl
  | succ n ih => intro k; rw [strideStream, List.map_cons, ih, List.replicate_succ]

/-! The seed. -/

theorem setRandomSeed_push (randomSeed : Nat) (name : String) (c : Char) :
    setRandomSeed randomSeed (name.push c) =
      (setRandomSeed randomSeed name * c.toNat % 2 ^ 32 + 1) % 2 ^ 32 := by
  simp only [setRandomSeed, String.data_push, List.foldl_append, List.foldl_cons,
    List.foldl_nil]

theorem char_toNat_lt (c : Char) : c.toNat < 2 ^ 32 := by
  have h : c.val.toNat < 4294967296 := c.val.toNat_lt
  exact h

theorem char_toNat_inj (c1 c2 : Char) (h : c1.toNat = c2.toNat) : c1 = c2 := by
  apply Char.ext
  apply UInt32.ext
  exact h

theorem mul_mod_cancel_of_odd (r a b : Nat) (hodd : r % 2 = 1) (ha : a < 2 ^ 32)
    (hb : b < 2 ^ 32) (h : r * a % 2 ^ 32 = r * b % 2 ^ 32) : a = b := by
  have hco : Nat.Coprime (2 ^ 32) r := by
    apply Nat.Coprime.pow_left
    exact Nat.coprime_two_left.2 (Nat.odd_iff.2 hodd)
  have hm : a ≡ b [MOD 2 ^ 32] :=
    Nat.ModEq.cancel_left_of_coprime hco h
  exact Nat.ModEq.eq_of_lt_of_lt hm ha hb

/-! Termination of the generation loop. -/

theorem allocateTile_remaining {σ : Type} (c : Collaborators σ) (o : FragmentsAllocatorOptions)
    (remaining : σ → Nat) (hex : Exhausts c remaining)
    (w w1 : World σ) (f f1 : Fragment) (n N : Nat)
    (h : allocateTile c o w f n N = .ok (f1, w1)) : remaining w1.ext ≤ remaining w.ext := by
  unfold allocateTile at h
  split at h
  · simp only [allocateRandomTile, Except.ok.injEq, Prod.mk.injEq] at h
    obtain ⟨_, rfl⟩ := h
    exact hex.2 w.ext
  · simp only [Except.ok.injEq, Prod.mk.injEq] at h
    obtain ⟨_, rfl⟩ := h
    exact le_refl _
  · simp only [allocateInterleavedTile, Except.ok.injEq, Prod.mk.injEq] at h
    obtain ⟨_, rfl⟩ := h
    exact le_refl _
  · cases h

theorem generateLoop_terminates {σ : Type} (c : Collaborators σ)
    (o : FragmentsAllocatorOptions) (remaining : σ → Nat) (hex : Exhausts c remaining)
    (n N : Nat) (fuel : Nat) :
    ∀ w : World σ, remaining w.ext < fuel →
      ∃ res, generateLoop c o n N fuel w = some res ∧
        ∀ f w1, res = .ok (f, w1) → f.isValid = true → remaining w1.ext < remaining w.ext := by
  induction fuel with
  | zero => intro w h; exact absurd h (Nat.not_lt_zero _)
  | succ fuel ih =>
    intro w hw
    by_cases hz : (c.getNext w.ext).1.2 = 0
    · have hstep : generateLoop c o n N (fuel + 1) w =
          some (.ok (Fragment.invalid,
            { w with ext := (c.getNext w.ext).2,
                     drawn := w.drawn ++ [(c.getNext w.ext).1] })) := by
        simp only [generateLoop, hz, if_true]
      refine ⟨_, hstep, ?_⟩
      intro f w1 h hv
      simp only [Except.ok.injEq, Prod.mk.injEq] at h
      rw [← h.1] at hv
      cases hv
    · have hlow := hex.1 w.ext hz
      by_cases hd : c.needsDiscarding (Fragment.ofInterval (c.getNext w.ext).1) = true
      · obtain ⟨res, hres, hprop⟩ := ih
          { ext := (c.getNext w.ext).2, lastTile := w.lastTile,
            drawn := w.drawn ++ [(c.getNext w.ext).1],
            consulted := w.consulted ++ [Fragment.ofInterval (c.getNext w.ext).1] }
          (by show remaining (c.getNext w.ext).2 < fuel; omega)
        refine ⟨res, ?_, ?_⟩
        · simp only [generateLoop, hz, if_false, hd, if_true]
          exact hres
        · intro f w1 h hv
          have := hprop f w1 h hv
          exact lt_trans this hlow
      · have hd' : c.needsDiscarding (Fragment.ofInterval (c.getNext w.ext).1) = false := by
          simpa using hd
        have hstep : generateLoop c o n N (fuel + 1) w =
            some (allocateTile c o
              { ext := (c.getNext w.ext).2, lastTile := w.lastTile,
                drawn := w.drawn ++ [(c.getNext w.ext).1],
                consulted := w.consulted ++ [Fragment.ofInterval (c.getNext w.ext).1] }
              (Fragment.ofInterval (c.getNext w.ext).1) n N) := by
          simp only [generateLoop, hz, if_false, hd', Bool.false_eq_true]
        refine ⟨_, hstep, ?_⟩
        intro f w1 h _
        have := allocateTile_remaining c o remaining hex _ w1 _ f n N h
        exact lt_of_le_of_lt this hlow

theorem runLoop_terminates {σ : Type} (c : Collaborators σ) (o : FragmentsAllocatorOptions)
    (hgen : o.mergeExistingFragments = false) (remaining : σ → Nat)
    (hex : Exhausts c remaining) (readCount : Nat) (fuel : Nat) :
    ∀ (i : Nat) (w : World σ) (s : EncoderState), remaining w.ext < fuel →
      ∃ res, runLoop c o readCount fuel i w s = some res := by
  induction fuel with
  | zero => intro i w s h; exact absurd h (Nat.not_lt_zero _)
  | succ fuel ih =>
    intro i w s hw
    by_cases hwrap : (i + 1) % 2 ^ 64 = 0
    · exact ⟨.ok ((i + 1) % 2 ^ 64, w, s), by simp only [runLoop, hwrap, if_true]⟩
    · have hg : getNextFragment c o (fuel + 1) w ((i + 1) % 2 ^ 64) readCount =
          generateLoop c o ((i + 1) % 2 ^ 64) readCount (fuel + 1) w := by
        simp only [getNextFragment, hgen, Bool.not_false, if_true]
      obtain ⟨res, hres, hprop⟩ :=
        generateLoop_terminates c o remaining hex ((i + 1) % 2 ^ 64) readCount (fuel + 1) w hw
      rw [runLoop, if_neg hwrap, hg, hres]
      cases res with
      | error e => exact ⟨_, rfl⟩
      | ok p =>
        obtain ⟨f, w1⟩ := p
        by_cases hv : f.isValid = true
        · have hlt := hprop f w1 rfl hv
          simp only [hv, Bool.not_true, Bool.false_eq_true, if_false]
          cases hs : encodeFragment s f with
          | error e => exact ⟨_, rfl⟩
          | ok s1 => exact ih _ w1 s1 (by omega)
        · have hv' : f.isValid = false := by simpa using hv
          simp only [hv', Bool.not_false, if_true]
          exact ⟨_, rfl⟩

theorem generateLoop_mono {σ : Type} (c : Collaborators σ) (o : FragmentsAllocatorOptions)
    (n N : Nat) (fuel : Nat) :
    ∀ (w : World σ) (res : Except Fatal (Fragment × World σ)),
      generateLoop c o n N fuel w = some res → generateLoop c o n N (fuel + 1) w = some res := by
  induction fuel with
  | zero => intro w res h; cases h
  | succ fuel ih =>
    intro w res h
    by_cases hz : (c.getNext w.ext).1.2 = 0
    · simp only [generateLoop, hz, if_true] at h ⊢
      exact h
    · by_cases hd : c.needsDiscarding (Fragment.ofInterval (c.getNext w.ext).1) = true
      · simp only [generateLoop, hz, if_false, hd, if_true] at h
        have := ih _ res h
        rw [generateLoop]
        simp only [hz, if_false, hd, if_true]
        exact this
      · have hd' : c.needsDiscarding (Fragment.ofInterval (c.getNext w.ext).1) = false := by
          simpa using hd
        simp only [generateLoop, hz, if_false, hd', Bool.false_eq_true] at h ⊢
        exact h

theorem getNextFragment_mono {σ : Type} (c : Collaborators σ) (o : FragmentsAllocatorOptions)
    (n N : Nat) (fuel : Nat) (w : World σ) (res : Except Fatal (Fragment × World σ))
    (h : getNextFragment c o fuel w n N = some res) :
    getNextFragment c o (fuel + 1) w n N = some res := by
  unfold getNextFragment at h ⊢
  split
  · rename_i hm
    rw [if_pos hm] at h
    exact generateLoop_mono c o n N fuel w res h
  · rename_i hm
    rw [if_neg hm] at h
    exact h

theorem runLoop_mono {σ : Type} (c : Collaborators σ) (o : FragmentsAllocatorOptions)
    (readCount : Nat) (fuel : Nat) :
    ∀ (i : Nat) (w : World σ) (s : EncoderState)
      (res : Except Fatal (Nat × World σ × EncoderState)),
      runLoop c o readCount fuel i w s = some res →
      runLoop c o readCount (fuel + 1) i w s = some res := by
  induction fuel with
  | zero => intro i w s res h; cases h
  | succ fuel ih =>
    intro i w s res h
    by_cases hwrap : (i + 1) % 2 ^ 64 = 0
    · simp only [runLoop, hwrap, if_true] at h ⊢
      exact h
    · rw [runLoop, if_neg hwrap] at h
      rw [runLoop, if_neg hwrap]
      cases hg : getNextFragment c o (fuel + 1) w ((i + 1) % 2 ^ 64) readCount with
      | none => rw [hg] at h; cases h
      | some x =>
        rw [hg] at h
        rw [getNextFragment_mono c o _ _ _ w x hg]
        cases x with
        | error e => exact h
        | ok p =>
          obtain ⟨f, w1⟩ := p
          by_cases hv : f.isValid = true
          · simp only [hv, Bool.not_true, Bool.false_eq_true, if_false] at h ⊢
            cases hs : encodeFragment s f with
            | error e => rw [hs] at h; exact h
            | ok s1 =>
              rw [hs] at h
              exact ih _ w1 s1 res h
          · have hv' : f.isValid = false := by simpa using hv
            simp only [hv', Bool.not_false, if_true] at h ⊢
            exact h

theorem getNextFragment_mono_le {σ : Type} (c : Collaborators σ)
    (o : FragmentsAllocatorOptions) (n N : Nat) (w : World σ)
    (res : Except Fatal (Fragment × World σ)) (fuel1 fuel2 : Nat) (hle : fuel1 ≤ fuel2)
    (h : getNextFragment c o fuel1 w n N = some res) :
    getNextFragment c o fuel2 w n N = some res := by
  induction hle with
  | refl => exact h
  | step _ ih => exact getNextFragment_mono c o n N _ w res ih

theorem runGeneration_mono_le {σ : Type} (c : Collaborators σ)
    (o : FragmentsAllocatorOptions) (readCount : Nat) (w : World σ) (lp sh : Nat)
    (res : Except Fatal (RunResult × World σ)) (fuel1 fuel2 : Nat) (hle : fuel1 ≤ fuel2)
    (h : runGeneration c o readCount fuel1 w lp sh = some res) :
    runGeneration c o readCount fuel2 w lp sh = some res := by
  induction hle with
  | refl => exact h
  | step _ ih =>
    rename_i m _
    unfold runGeneration at ih ⊢
    cases hl : runLoop c o readCount m 0 w (initialState o.tileCount lp sh) with
    | none => rw [hl] at ih; cases ih
    | some x =>
      rw [hl] at ih
      rw [runLoop_mono c o readCount m 0 w _ x hl]
      exact ih

theorem listCollaborators_exhausts (discard : Fragment → Bool) :
    Exhausts (listCollaborators discard) List.length := by
  constructor
  · intro e h
    cases e with
    | nil => exact absurd rfl h
    | cons p rest => exact Nat.lt_succ_self _
  · intro e
    exact le_refl _

theorem runGeneration_emitted {σ : Type} (c : Collaborators σ)
    (o : FragmentsAllocatorOptions) (hgen : o.mergeExistingFragments = false)
    (readCount fuel lp sh : Nat) (w w1 : World σ) (r : RunResult)
    (h : runGeneration c o readCount fuel w lp sh = some (.ok (r, w1))) :
    ∃ cands t fs, w1.drawn = w.drawn ++ (cands ++ [t]) ∧ t.2 = 0 ∧
      (∀ p ∈ cands, p.2 ≠ 0) ∧
      w1.consulted = w.consulted ++ cands.map Fragment.ofInterval ∧
      fs.map Fragment.interval = accepted c cands ∧
      runEncoder o.tileCount lp sh fs = .ok r ∧
      r.generatedCount = (accepted c cands).length ∧
      r.state.out2 = (accepted c cands).map (fun p => p.2) ∧
      r.state.out3.length = (accepted c cands).length := by
  unfold runGeneration at h
  cases hl : runLoop c o readCount fuel 0 w (initialState o.tileCount lp sh) with
  | none => rw [hl] at h; cases h
  | some res =>
    cases res with
    | error e => rw [hl] at h; cases h
    | ok p =>
      obtain ⟨i1, w2, s1⟩ := p
      rw [hl] at h
      simp only [Option.some.injEq, Except.ok.injEq, Prod.mk.injEq] at h
      obtain ⟨rfl, rfl⟩ := h
      obtain ⟨D, fs, e1, e2, e3, e4, e5, e6⟩ := runLoop_ok c o hgen readCount fuel 0 w _ i1 w2 s1 hl
      have hr : runEncoder o.tileCount lp sh fs = .ok (finishRun (i1, s1)) := by
        unfold runEncoder
        rw [e5]
      obtain ⟨hrun, hres⟩ := (runEncoder_ok_iff o.tileCount lp sh fs e4 _).1 hr
      have hi := encodeLoop_of_runOk fs (fun f hf => (isValid_iff f).2 (e4 f hf)) 0 _
        (by have := runOk_length_le o.tileCount lp sh fs hrun; omega) hrun
      rw [e5] at hi
      simp only [Except.ok.injEq, Prod.mk.injEq] at hi
      have hi1 : i1 ≠ 0 := by omega
      rcases e6 with e6 | ⟨D0, t, rfl, tz, hD0⟩
      · exact absurd e6 hi1
      have hc1 : candidates (D0 ++ [t]) = D0 := by
        rw [candidates_append, candidates_of_nonzero D0 hD0, candidates_zero t tz,
          List.append_nil]
      rw [hc1] at e2 e3
      have hlen : fs.length = (accepted c D0).length := by
        rw [← e3, List.length_map]
      have ho2 : (initialState o.tileCount lp sh).out2 = [] := rfl
      have ho3 : (initialState o.tileCount lp sh).out3 = [] := rfl
      refine ⟨D0, t, fs, e1, tz, hD0, e2, e3, hr, ?_, ?_, ?_⟩
      · rw [hres, hlen]
      · rw [hres]
        show (stateAfter (initialState o.tileCount lp sh) fs).out2 = _
        rw [stateAfter_out2, ho2, List.nil_append, ← e3, List.map_map]
        rfl
      · rw [hres]
        show (stateAfter (initialState o.tileCount lp sh) fs).out3.length = _
        rw [stateAfter_out3, ho3, List.nil_append, List.length_map, hlen]

theorem runFromStreams_finished {σ : Type} (c : Collaborators σ) (env : Environment σ)
    (o : FragmentsAllocatorOptions) (readCount fuel lp sh : Nat) (w w1 : World σ)
    (r : RunResult) (h : runGeneration c o readCount fuel w lp sh = some (.ok (r, w1))) :
    ∃ warning, runFromStreams c env o readCount fuel w lp sh =
        some (.ok (.finished r w1 warning)) ∧
      (RunReturn.finished r w1 warning).streams = some r ∧ r.out4 = r.state.tileReadCount := by
  refine ⟨env.coverageWarning r.generatedCount readCount, ?_, rfl, ?_⟩
  · simp only [runFromStreams, h]
  · unfold runGeneration at h
    cases hl : runLoop c o readCount fuel 0 w (initialState o.tileCount lp sh) with
    | none => rw [hl] at h; cases h
    | some res =>
      cases res with
      | error e => rw [hl] at h; cases h
      | ok p =>
        rw [hl] at h
        simp only [Option.some.injEq, Except.ok.injEq, Prod.mk.injEq] at h
        rw [← h.1]
        rfl

/-! The loop body with the histogram update unchecked. -/

theorem encodeFragmentUnchecked_ok_iff (s s1 : EncoderState) (f : Fragment) :
    encodeFragmentUnchecked s f = .ok s1 ↔ StepOkUnchecked s f ∧ s1 = stepState s f := by
  simp only [encodeFragmentUnchecked, StepOkUnchecked]
  by_cases hl : f.fragmentLength_ < 65536
  swap
  · simp only [hl, not_false_eq_true, if_true, false_and]
    constructor <;> intro h <;> cases h
  by_cases ht : f.allocatedTile_ < 65536
  swap
  · simp only [hl, ht, not_false_eq_true, not_true_eq_false, if_true, if_false, false_and, and_false]
    constructor <;> intro h <;> cases h
  have hl' : f.fragmentLength_ % 65536 = f.fragmentLength_ := Nat.mod_eq_of_lt hl
  have ht' : f.allocatedTile_ % 65536 = f.allocatedTile_ := Nat.mod_eq_of_lt ht
  simp only [hl, ht, not_true_eq_false, if_false, true_and]
  cases hw : writePosDiff s.out1 s.shift (posDiffOf s.lastPos f) with
  | error e =>
    have h48 : ¬ posDiffOf s.lastPos f < 2 ^ 48 := by
      intro h48
      have := (writePosDiff_ok_iff s.out1 s.shift _ (posDiffOf_lt _ _) _).2 ⟨h48, rfl⟩
      rw [hw] at this
      cases this
    constructor
    · intro h; cases h
    · intro h; exact absurd h.1.1 h48
  | ok r =>
    obtain ⟨h48, hr⟩ := (writePosDiff_ok_iff _ _ _ (posDiffOf_lt _ _) r).1 hw
    subst hr
    simp only [h48, true_and, hl', ht']
    by_cases hc : (s.tileReadCount.getD f.allocatedTile_ 0 + 1) % 2 ^ 32 = 0xFFFFFFFF
    · simp only [hc, if_true, ne_eq, not_true_eq_false, false_and]
      constructor <;> intro h <;> cases h
    simp only [hc, if_false, ne_eq, not_false_eq_true, true_and]
    by_cases hi : (s.indexCount + 1) % 2 ^ 64 = indexInterval
    · simp only [hi, if_true, stepState, decide_True, Except.ok.injEq]
      exact eq_comm
    · simp only [hi, if_false, stepState, decide_False, Except.ok.injEq]
      exact eq_comm

theorem encodeFragmentUnchecked_eq (s : EncoderState) (f : Fragment)
    (hb : f.allocatedTile_ < s.tileReadCount.length) :
    encodeFragmentUnchecked s f = encodeFragment s f := by
  simp only [encodeFragmentUnchecked, encodeFragment, hb, not_true_eq_false, if_false]

theorem encodeFragmentUnchecked_of_ok (s s1 : EncoderState) (f : Fragment)
    (h : encodeFragment s f = .ok s1) : encodeFragmentUnchecked s f = .ok s1 := by
  obtain ⟨hok, rfl⟩ := (encodeFragment_ok_iff s s1 f).1 h
  exact (encodeFragmentUnchecked_ok_iff s _ f).2 ⟨⟨hok.1, hok.2.1, hok.2.2.1, hok.2.2.2.2⟩, rfl⟩

theorem encodeLoopUnchecked_of_ok (fs : List Fragment) :
    ∀ (i : Nat) (s : EncoderState) (r : Nat × EncoderState),
      encodeLoop i s fs = .ok r → encodeLoopUnchecked i s fs = .ok r := by
  induction fs with
  | nil => intro i s r h; exact h
  | cons f fs ih =>
    intro i s r h
    by_cases hw : (i + 1) % 2 ^ 64 = 0
    · simp only [encodeLoop, hw, if_true] at h
      simp only [encodeLoopUnchecked, hw, if_true]
      exact h
    · by_cases hv : f.isValid = true
      · simp only [encodeLoop, hw, if_false, hv, Bool.not_true, Bool.false_eq_true] at h
        simp only [encodeLoopUnchecked, hw, if_false, hv, Bool.not_true, Bool.false_eq_true]
        cases hs : encodeFragment s f with
        | error e => rw [hs] at h; cases h
        | ok s1 =>
          rw [hs] at h
          rw [encodeFragmentUnchecked_of_ok s s1 f hs]
          exact ih _ s1 r h
      · have hv' : f.isValid = false := by simpa using hv
        simp only [encodeLoop, hw, if_false, hv', Bool.not_false, if_true] at h
        simp only [encodeLoopUnchecked, hw, if_false, hv', Bool.not_false, if_true]
        exact h

theorem runEncoderUnchecked_of_ok (tileCount lp sh : Nat) (fs : List Fragment) (r : RunResult)
    (h : runEncoder tileCount lp sh fs = .ok r) :
    runEncoderUnchecked tileCount lp sh fs = .ok r := by
  unfold runEncoder at h
  unfold runEncoderUnchecked
  cases hl : encodeLoop 0 (initialState tileCount lp sh) fs with
  | error e => rw [hl] at h; cases h
  | ok p =>
    rw [hl] at h
    rw [encodeLoopUnchecked_of_ok fs 0 _ p hl]
    exact h

theorem encodeFragmentUnchecked_error_of_not_stepOk (s : EncoderState) (f : Fragment)
    (h : ¬ StepOkUnchecked s f) : ∃ e, encodeFragmentUnchecked s f = .error e := by
  cases hr : encodeFragmentUnchecked s f with
  | error e => exact ⟨e, rfl⟩
  | ok s1 => exact absurd ((encodeFragmentUnchecked_ok_iff s s1 f).1 hr).1 h

theorem encodeLoopUnchecked_eq (fs : List Fragment) :
    ∀ (i : Nat) (s : EncoderState), (∀ f ∈ fs, f.allocatedTile_ < s.tileReadCount.length) →
      encodeLoopUnchecked i s fs = encodeLoop i s fs := by
  induction fs with
  | nil => intro i s _; rfl
  | cons f fs ih =>
    intro i s hb
    have hf := encodeFragmentUnchecked_eq s f (hb f (List.mem_cons_self _ _))
    simp only [encodeLoopUnchecked, encodeLoop, hf]
    cases hs : encodeFragment s f with
    | error e => rfl
    | ok s1 =>
      obtain ⟨_, rfl⟩ := (encodeFragment_ok_iff s s1 f).1 hs
      have hlen : (stepState s f).tileReadCount.length = s.tileReadCount.length := by
        simp only [stepState, List.length_set]
      have e := ih ((i + 1) % 2 ^ 64) (stepState s f) (fun g hg => by
        rw [hlen]
        exact hb g (List.mem_cons_of_mem _ hg))
      simp only [e]

theorem runEncoderUnchecked_eq (tileCount lp sh : Nat) (fs : List Fragment)
    (hb : ∀ f ∈ fs, f.allocatedTile_ < tileCount) :
    runEncoderUnchecked tileCount lp sh fs = runEncoder tileCount lp sh fs := by
  unfold runEncoderUnchecked runEncoder
  rw [encodeLoopUnchecked_eq fs 0 _ (by
    intro f hf
    simp only [initialState, List.length_replicate]
    exact hb f hf)]

/-! The run as a function of the answers of the generator. -/

theorem extAfter_rand {σ : Type} (c : Collaborators σ) (hind : RandIndependent c) (k : Nat) :
    ∀ e : σ, extAfter c (c.rand e).2 k = (c.rand (extAfter c e k)).2 := by
  induction k with
  | zero => intro e; rfl
  | succ k ih =>
    intro e
    show extAfter c (c.getNext (c.rand e).2).2 k = (c.rand (extAfter c (c.getNext e).2 k)).2
    rw [hind e]
    exact ih _

theorem draws_rand {σ : Type} (c : Collaborators σ) (hind : RandIndependent c) (k : Nat) :
    ∀ e : σ, draws c (c.rand e).2 k = draws c e k := by
  induction k with
  | zero => intro e; rfl
  | succ k ih =>
    intro e
    show (c.getNext (c.rand e).2).1 :: draws c (c.getNext (c.rand e).2).2 k =
      (c.getNext e).1 :: draws c (c.getNext e).2 k
    rw [hind e]
    show (c.getNext e).1 :: draws c (c.rand (c.getNext e).2).2 k = _
    rw [ih]

theorem allocateTile_known {σ : Type} (c : Collaborators σ) (o : FragmentsAllocatorOptions)
    (hknown : ∀ code, o.tileAllocationMethod ≠ .other code)
    (hrand : o.tileAllocationMethod = .TILE_ALLOCATION_RANDOM → RandIndependent c)
    (w : World σ) (f : Fragment) (n N : Nat) :
    ∃ f1 w1, allocateTile c o w f n N = .ok (f1, w1) ∧ f1.interval = f.interval ∧
      w1.drawn = w.drawn ∧ w1.consulted = w.consulted ∧
      (∀ k, draws c w1.ext k = draws c w.ext k) ∧
      (∀ k, (c.getNext (extAfter c w1.ext k)).1 = (c.getNext (extAfter c w.ext k)).1) := by
  unfold allocateTile
  split
  · rename_i hm
    refine ⟨_, _, rfl, rfl, rfl, rfl, ?_, ?_⟩
    · intro k
      exact draws_rand c (hrand hm) k w.ext
    · intro k
      show (c.getNext (extAfter c (c.rand w.ext).2 k)).1 = _
      rw [extAfter_rand c (hrand hm) k, hrand hm]
  · exact ⟨_, _, rfl, rfl, rfl, rfl, fun _ => rfl, fun _ => rfl⟩
  · exact ⟨_, _, rfl, rfl, rfl, rfl, fun _ => rfl, fun _ => rfl⟩
  · rename_i code hc
    exact absurd hc (hknown code)

theorem encodeLoop_wrap (i : Nat) (s : EncoderState) (fs : List Fragment)
    (hw : (i + 1) % 2 ^ 64 = 0) : encodeLoop i s fs = .ok ((i + 1) % 2 ^ 64, s) := by
  cases fs with
  | nil => rfl
  | cons f fs => simp only [encodeLoop, hw, if_true]

theorem runLoop_of_getNext_eq {σ : Type} (c : Collaborators σ) (o : FragmentsAllocatorOptions)
    (readCount fuel i : Nat) (w w2 : World σ) (s : EncoderState)
    (X : Except Fatal (Nat × World σ × EncoderState))
    (hg : getNextFragment c o (fuel + 1) w ((i + 1) % 2 ^ 64) readCount =
      getNextFragment c o fuel w2 ((i + 1) % 2 ^ 64) readCount)
    (hw : ¬ (i + 1) % 2 ^ 64 = 0)
    (h : runLoop c o readCount fuel i w2 s = some X) :
    runLoop c o readCount (fuel + 1) i w s = some X := by
  cases fuel with
  | zero => cases h
  | succ m =>
    rw [runLoop, if_neg hw] at h
    rw [runLoop, if_neg hw, hg]
    cases hgn : getNextFragment c o (m + 1) w2 ((i + 1) % 2 ^ 64) readCount with
    | none => rw [hgn] at h; cases h
    | some x =>
      rw [hgn] at h
      cases x with
      | error e => exact h
      | ok p =>
        obtain ⟨f, w1⟩ := p
        by_cases hv : f.isValid = true
        · simp only [hv, Bool.not_true, Bool.false_eq_true, if_false] at h ⊢
          cases hs : encodeFragment s f with
          | error e => rw [hs] at h; exact h
          | ok s1 =>
            rw [hs] at h
            exact runLoop_mono c o readCount m _ w1 s1 X h
        · have hv' : f.isValid = false := by simpa using hv
          simp only [hv', Bool.not_false, if_true] at h ⊢
          exact h

theorem runLoop_total {σ : Type} (c : Collaborators σ) (o : FragmentsAllocatorOptions)
    (hgen : o.mergeExistingFragments = false)
    (hknown : ∀ code, o.tileAllocationMethod ≠ .other code)
    (hrand : o.tileAllocationMethod = .TILE_ALLOCATION_RANDOM → RandIndependent c)
    (readCount : Nat) (n : Nat) :
    ∀ (i : Nat) (w : World σ), (∀ p ∈ draws c w.ext n, p.2 ≠ 0) →
      (c.getNext (extAfter c w.ext n)).1.2 = 0 →
      ∃ fs w1, fs.map Fragment.interval = accepted c (draws c w.ext n) ∧
        (∀ f ∈ fs, 0 < f.fragmentLength_) ∧
        w1.drawn = w.drawn ++ draws c w.ext (n + 1) ∧
        w1.consulted = w.consulted ++ (draws c w.ext n).map Fragment.ofInterval ∧
        ∀ (s : EncoderState) (fuel : Nat), n < fuel →
          (∀ e, encodeLoop i s fs = .error e →
            runLoop c o readCount fuel i w s = some (.error e)) ∧
          (∀ r, encodeLoop i s fs = .ok r →
            ∃ w2, runLoop c o readCount fuel i w s = some (.ok (r.1, w2, r.2)) ∧
              (r.1 ≠ 0 → w2 = w1)) := by
  have hgf : ∀ (fuel : Nat) (w : World σ) (a b : Nat),
      getNextFragment c o fuel w a b = generateLoop c o a b fuel w := by
    intro fuel w a b
    simp only [getNextFragment, hgen, Bool.not_false, if_true]
  induction n with
  | zero =>
    intro i w _ hz
    have hz' : (c.getNext w.ext).1.2 = 0 := hz
    refine ⟨[], { w with ext := (c.getNext w.ext).2,
                         drawn := w.drawn ++ [(c.getNext w.ext).1] },
      rfl, (fun f hf => by cases hf), rfl, ?_, ?_⟩
    · simp only [draws, List.map_nil, List.append_nil]
    · intro s fuel hf
      obtain ⟨m, rfl⟩ : ∃ m, fuel = m + 1 := ⟨fuel - 1, by omega⟩
      constructor
      · intro e he
        cases he
      · intro r hr
        simp only [encodeLoop, Except.ok.injEq] at hr
        subst hr
        by_cases hw : (i + 1) % 2 ^ 64 = 0
        · exact ⟨w, by simp only [runLoop, hw, if_true], fun h => absurd hw h⟩
        · refine ⟨_, ?_, fun _ => rfl⟩
          have hg : getNextFragment c o (m + 1) w ((i + 1) % 2 ^ 64) readCount =
              some (.ok (Fragment.invalid,
                { w with ext := (c.getNext w.ext).2,
                         drawn := w.drawn ++ [(c.getNext w.ext).1] })) := by
            rw [hgf]
            simp only [generateLoop, hz', if_true]
          rw [runLoop, if_neg hw, hg]
          rfl
  | succ n ih =>
    intro i w hall hz
    have hp0 : ¬ (c.getNext w.ext).1.2 = 0 := hall _ (List.mem_cons_self _ _)
    have hrest : ∀ p ∈ draws c (c.getNext w.ext).2 n, p.2 ≠ 0 :=
      fun p hp => hall p (List.mem_cons_of_mem _ hp)
    have hz1 : (c.getNext (extAfter c (c.getNext w.ext).2 n)).1.2 = 0 := hz
    let w2 : World σ :=
      { ext := (c.getNext w.ext).2, lastTile := w.lastTile,
        drawn := w.drawn ++ [(c.getNext w.ext).1],
        consulted := w.consulted ++ [Fragment.ofInterval (c.getNext w.ext).1] }
    have hdr : ∀ j, w2.drawn ++ draws c w2.ext j = w.drawn ++ draws c w.ext (j + 1) := by
      intro j
      simp only [w2, draws, List.append_assoc, List.singleton_append]
    have hco : w2.consulted ++ (draws c w2.ext n).map Fragment.ofInterval =
        w.consulted ++ (draws c w.ext (n + 1)).map Fragment.ofInterval := by
      simp only [w2, draws, List.append_assoc, List.singleton_append, List.map_cons]
    have hwrap : ∀ (fs : List Fragment) (w1 : World σ) (s : EncoderState) (m : Nat),
        (i + 1) % 2 ^ 64 = 0 →
        (∀ e, encodeLoop i s fs = .error e →
          runLoop c o readCount (m + 1) i w s = some (.error e)) ∧
        (∀ r, encodeLoop i s fs = .ok r →
          ∃ w3, runLoop c o readCount (m + 1) i w s = some (.ok (r.1, w3, r.2)) ∧
            (r.1 ≠ 0 → w3 = w1)) := by
      intro fs w1 s m hw
      have hel := encodeLoop_wrap i s fs hw
      constructor
      · intro e he
        rw [hel] at he
        cases he
      · intro r hr
        rw [hel] at hr
        simp only [Except.ok.injEq] at hr
        subst hr
        exact ⟨w, by simp only [runLoop, hw, if_true], fun h => absurd hw h⟩
    by_cases hd : c.needsDiscarding (Fragment.ofInterval (c.getNext w.ext).1) = true
    · obtain ⟨fs, w1, a1, a2, a3, a4, a5⟩ := ih i w2 hrest hz1
      refine ⟨fs, w1, ?_, a2, ?_, ?_, ?_⟩
      · rw [a1]
        show accepted c (draws c (c.getNext w.ext).2 n) =
          accepted c ((c.getNext w.ext).1 :: draws c (c.getNext w.ext).2 n)
        simp only [accepted, List.filter_cons, hd, Bool.not_true, Bool.false_eq_true, if_false]
      · rw [a3, hdr]
      · rw [a4, hco]
      · intro s fuel hf
        obtain ⟨m, rfl⟩ : ∃ m, fuel = m + 1 := ⟨fuel - 1, by omega⟩
        obtain ⟨b1, b2⟩ := a5 s m (by omega)
        by_cases hw : (i + 1) % 2 ^ 64 = 0
        · exact hwrap fs w1 s m hw
        · have hstep : generateLoop c o ((i + 1) % 2 ^ 64) readCount (m + 1) w =
              generateLoop c o ((i + 1) % 2 ^ 64) readCount m w2 := by
            simp only [generateLoop, hp0, if_false, hd, if_true]
          have hg : getNextFragment c o (m + 1) w ((i + 1) % 2 ^ 64) readCount =
              getNextFragment c o m w2 ((i + 1) % 2 ^ 64) readCount := by
            rw [hgf, hgf, hstep]
          constructor
          · intro e he
            exact runLoop_of_getNext_eq c o readCount m i w w2 s _ hg hw (b1 e he)
          · intro r hr
            obtain ⟨w3, c1, c2⟩ := b2 r hr
            exact ⟨w3, runLoop_of_getNext_eq c o readCount m i w w2 s _ hg hw c1, c2⟩
    · have hd' : c.needsDiscarding (Fragment.ofInterval (c.getNext w.ext).1) = false := by
        simpa using hd
      obtain ⟨f, w3, t1, t2, t3, t4, t5, t6⟩ := allocateTile_known c o hknown hrand w2
        (Fragment.ofInterval (c.getNext w.ext).1) ((i + 1) % 2 ^ 64) readCount
      have hrest3 : ∀ p ∈ draws c w3.ext n, p.2 ≠ 0 := by
        rw [t5]
        exact hrest
      have hz3 : (c.getNext (extAfter c w3.ext n)).1.2 = 0 := by
        rw [t6]
        exact hz1
      obtain ⟨fs, w1, a1, a2, a3, a4, a5⟩ := ih ((i + 1) % 2 ^ 64) w3 hrest3 hz3
      have hflen : f.fragmentLength_ = (c.getNext w.ext).1.2 := congrArg Prod.snd t2
      have hlen : 0 < f.fragmentLength_ := by omega
      have hv : f.isValid = true := (isValid_iff f).2 hlen
      refine ⟨f :: fs, w1, ?_, ?_, ?_, ?_, ?_⟩
      · show f.interval :: fs.map Fragment.interval =
          accepted c ((c.getNext w.ext).1 :: draws c (c.getNext w.ext).2 n)
        rw [a1, t5, t2]
        simp only [accepted, List.filter_cons, hd', Bool.not_false, if_true]
        rfl
      · intro g hg
        rcases List.mem_cons.1 hg with rfl | hg
        · exact hlen
        · exact a2 g hg
      · rw [a3, t3, t5]
        exact hdr (n + 1)
      · rw [a4, t4, t5]
        exact hco
      · intro s fuel hf
        obtain ⟨m, rfl⟩ : ∃ m, fuel = m + 1 := ⟨fuel - 1, by omega⟩
        by_cases hw : (i + 1) % 2 ^ 64 = 0
        · exact hwrap (f :: fs) w1 s m hw
        · have hg : getNextFragment c o (m + 1) w ((i + 1) % 2 ^ 64) readCount =
              some (.ok (f, w3)) := by
            rw [hgf]
            simp only [generateLoop, hp0, if_false, hd', Bool.false_eq_true]
            exact congrArg some t1
          cases hs : encodeFragment s f with
          | error e0 =>
            have hel : encodeLoop i s (f :: fs) = .error e0 := by
              simp only [encodeLoop, hw, if_false, hv, Bool.not_true, Bool.false_eq_true, hs]
            have hrl : runLoop c o readCount (m + 1) i w s = some (.error e0) := by
              rw [runLoop, if_neg hw, hg]
              simp only [hv, Bool.not_true, Bool.false_eq_true, if_false, hs]
            constructor
            · intro e he
              rw [hel] at he
              cases he
              exact hrl
            · intro r hr
              rw [hel] at hr
              cases hr
          | ok s1 =>
            have hel : encodeLoop i s (f :: fs) = encodeLoop ((i + 1) % 2 ^ 64) s1 fs := by
              simp only [encodeLoop, hw, if_false, hv, Bool.not_true, Bool.false_eq_true, hs]
            have hrl : runLoop c o readCount (m + 1) i w s =
                runLoop c o readCount m ((i + 1) % 2 ^ 64) w3 s1 := by
              rw [runLoop, if_neg hw, hg]
              simp only [hv, Bool.not_true, Bool.false_eq_true, if_false, hs]
            rw [hel, hrl]
            exact a5 s1 m (by omega)

theorem runGeneration_total {σ : Type} (c : Collaborators σ) (o : FragmentsAllocatorOptions)
    (hgen : o.mergeExistingFragments = false)
    (hknown : ∀ code, o.tileAllocationMethod ≠ .other code)
    (hrand : o.tileAllocationMethod = .TILE_ALLOCATION_RANDOM → RandIndependent c)
    (readCount n : Nat) (w : World σ)
    (hcand : ∀ p ∈ draws c w.ext n, p.2 ≠ 0)
    (hend : (c.getNext (extAfter c w.ext n)).1.2 = 0) :
    ∃ fs w1, fs.map Fragment.interval = accepted c (draws c w.ext n) ∧
      w1.drawn = w.drawn ++ draws c w.ext (n + 1) ∧
      w1.consulted = w.consulted ++ (draws c w.ext n).map Fragment.ofInterval ∧
      ∀ (fuel lp sh : Nat), n < fuel →
        (∀ e, runEncoder o.tileCount lp sh fs = .error e →
          runGeneration c o readCount fuel w lp sh = some (.error e)) ∧
        (∀ r, runEncoder o.tileCount lp sh fs = .ok r →
          runGeneration c o readCount fuel w lp sh = some (.ok (r, w1)) ∧
          r.generatedCount = (accepted c (draws c w.ext n)).length ∧
          r.state.out2 = (accepted c (draws c w.ext n)).map (fun p => p.2) ∧
          r.state.out3.length = (accepted c (draws c w.ext n)).length) := by
  obtain ⟨fs, w1, a1, a2, a3, a4, a5⟩ :=
    runLoop_total c o hgen hknown hrand readCount n 0 w hcand hend
  refine ⟨fs, w1, a1, a3, a4, ?_⟩
  intro fuel lp sh hf
  obtain ⟨b1, b2⟩ := a5 (initialState o.tileCount lp sh) fuel hf
  constructor
  · intro e he
    unfold runEncoder at he
    unfold runGeneration
    cases hl : encodeLoop 0 (initialState o.tileCount lp sh) fs with
    | error e0 =>
      rw [hl] at he
      cases he
      rw [b1 e hl]
    | ok p =>
      rw [hl] at he
      cases he
  · intro r hr
    obtain ⟨hrun, hres⟩ := (runEncoder_ok_iff o.tileCount lp sh fs a2 r).1 hr
    have hi := encodeLoop_of_runOk fs (fun f hf => (isValid_iff f).2 (a2 f hf)) 0 _
      (by have := runOk_length_le o.tileCount lp sh fs hrun; omega) hrun
    obtain ⟨w2, c1, c2⟩ := b2 _ hi
    have hw2 : w2 = w1 := c2 (by show 0 + fs.length + 1 ≠ 0; omega)
    subst hw2
    have hlen : fs.length = (accepted c (draws c w.ext n)).length := by
      rw [← a1, List.length_map]
    have ho2 : (initialState o.tileCount lp sh).out2 = [] := rfl
    have ho3 : (initialState o.tileCount lp sh).out3 = [] := rfl
    have hfin : r = finishRun (0 + fs.length + 1, stateAfter (initialState o.tileCount lp sh) fs) := by
      unfold runEncoder at hr
      rw [hi] at hr
      simp only [Except.ok.injEq] at hr
      exact hr.symm
    refine ⟨?_, ?_, ?_, ?_⟩
    · unfold runGeneration
      rw [c1, hfin]
    · rw [hres, hlen]
    · rw [hres]
      show (stateAfter (initialState o.tileCount lp sh) fs).out2 = _
      rw [stateAfter_out2, ho2, List.nil_append, ← a1, List.map_map]
      rfl
    · rw [hres]
      show (stateAfter (initialState o.tileCount lp sh) fs).out3.length = _
      rw [stateAfter_out3, ho3, List.nil_append, List.length_map, hlen]

/-! The main theorems. -/

/-- C1 (delta round trip).  For every sequence of valid fragments with 64-bit start
positions that are non-decreasing (the first one relative to 0): whenever the run
from fresh statics returns, decoding the slots it wrote to the positions stream by
the escape rule and accumulating the deltas gives back exactly the start positions;
and the run does return when moreover the successive deltas are below 2^48, lengths
and tiles fit 16 bits, tiles index the histogram and no tile receives 2^32-1
fragments. -/
theorem delta_round_trip (tileCount : Nat) (fs : List Fragment)
    (hvalid : ∀ f ∈ fs, 0 < f.fragmentLength_)
    (hpos : ∀ f ∈ fs, f.startPos_ < 2 ^ 64)
    (hmono : List.Chain (fun a b => a ≤ b) 0 (fs.map (fun f => f.startPos_))) :
    (∀ r, runEncoder tileCount 0 0 fs = .ok r →
      decodePositions r.state.out1 = some (fs.map (fun f => f.startPos_))) ∧
    ((∀ f ∈ fs, f.fragmentLength_ < 65536 ∧ f.allocatedTile_ < 65536 ∧
        f.allocatedTile_ < tileCount) →
      List.Chain (fun a b => b - a < 2 ^ 48) 0 (fs.map (fun f => f.startPos_)) →
      (∀ t, (fs.map (fun f => f.allocatedTile_)).count t < 2 ^ 32 - 1) →
      ∃ r, runEncoder tileCount 0 0 fs = .ok r) := by
  constructor
  · intro r hr
    obtain ⟨hrun, rfl⟩ := (runEncoder_ok_iff tileCount 0 0 fs hvalid r).1 hr
    have hd := runOk_posDiffs fs _ hrun
    have hl : (initialState tileCount 0 0).lastPos = 0 := rfl
    have ho : (initialState tileCount 0 0).out1 = [] := rfl
    rw [hl] at hd
    simp only [decodePositions, stateAfter_out1, hl, ho, List.nil_append,
      decodeDeltas_encodeDeltas _ hd, Option.map_some',
      accumulate_posDiffs fs 0 (by norm_num) hpos hmono]
  · intro hfield hdelta hcount
    refine ⟨_, (runEncoder_ok_iff tileCount 0 0 fs hvalid _).2 ⟨?_, rfl⟩⟩
    apply runOk_of_wellFormed
    · intro f hf
      have : (initialState tileCount 0 0).tileReadCount.length = tileCount := by
        simp only [initialState, List.length_replicate]
      rw [this]
      exact hfield f hf
    · exact posDiffs_lt fs 0 (by norm_num) hpos hdelta hmono
    · intro t
      rw [initialState_hist, Nat.zero_add]
      exact hcount t

/-- Witness for C1: the run on `boundaryFragments`, whose deltas are 0, 1, 65534,
65535, 65536 and 2^47-1, returns, and its positions stream decodes to the six
start positions. -/
theorem delta_round_trip_witness :
    ∃ r, runEncoder 2 0 0 boundaryFragments = .ok r ∧
      decodePositions r.state.out1 =
        some [0, 1, 65535, 131070, 196606, 140737488551933] := by
  have h := delta_round_trip 2 boundaryFragments (by decide) (by decide)
    (by simp [boundaryFragments])
  obtain ⟨r, hr⟩ := h.2 (by decide) (by simp [boundaryFragments]) (by
    intro t
    have : (boundaryFragments.map (fun f => f.allocatedTile_)).count t ≤ 6 :=
      List.count_le_length _ _
    omega)
  exact ⟨r, hr, h.1 r hr⟩

/-- C2 (position delta encoding shape).  For a 64-bit delta `d`, lines 182-198
write exactly one slot equal to `d` when `d < 65535`; exactly the four slots 65535,
bits 32-47, bits 16-31, bits 0-15 of `d` when `65535 ≤ d < 2^48` (so 65535 itself
is written as 65535, 0, 0, 65535); and fail the assertion when `2^48 ≤ d`.  The
loop body writes to the positions stream what these lines write for the wrapped
difference of line 169. -/
theorem position_delta_encoding_shape (out1 : List Nat) (shift d : Nat) (h64 : d < 2 ^ 64) :
    (d < 65535 → writePosDiff out1 shift d = .ok (out1 ++ [d], shift)) ∧
    (65535 ≤ d → d < 2 ^ 48 →
      writePosDiff out1 shift d =
        .ok (out1 ++ [65535, d / 2 ^ 32 % 2 ^ 16, d / 2 ^ 16 % 2 ^ 16, d % 2 ^ 16],
             (shift + 3) % 2 ^ 32)) ∧
    (2 ^ 48 ≤ d → writePosDiff out1 shift d = .error .assertion) ∧
    writePosDiff out1 shift 65535 = .ok (out1 ++ [65535, 0, 0, 65535], (shift + 3) % 2 ^ 32) ∧
    (∀ (s s1 : EncoderState) (f : Fragment), encodeFragment s f = .ok s1 →
      writePosDiff s.out1 s.shift (posDiffOf s.lastPos f) = .ok (s1.out1, s1.shift)) := by
  refine ⟨writePosDiff_small out1 shift d, writePosDiff_escape out1 shift d,
    fun h => writePosDiff_fatal out1 shift d h h64, ?_, ?_⟩
  · exact writePosDiff_escape out1 shift 65535 (by norm_num) (by norm_num)
  · intro s s1 f h
    obtain ⟨hok, rfl⟩ := (encodeFragment_ok_iff s s1 f).1 h
    exact (writePosDiff_ok_iff _ _ _ (posDiffOf_lt _ _) _).2 ⟨hok.2.2.1, rfl⟩

/-- Witness for C2: the delta 65536 is written as the four slots 65535, 0, 1, 0 and
the delta 2^48 fails the assertion. -/
theorem position_delta_encoding_shape_witness :
    writePosDiff [] 0 65536 = .ok ([65535, 0, 1, 0], 3) ∧
    writePosDiff [] 0 (2 ^ 48) = .error .assertion :=
  ⟨(position_delta_encoding_shape [] 0 65536 (by norm_num)).2.1 (by norm_num) (by norm_num),
   (position_delta_encoding_shape [] 0 (2 ^ 48) (by norm_num)).2.2.1 (le_refl _)⟩

/-- C3, as stated, fails: the run from fresh statics on 1431655766 fragments that are
65535 apart returns, every record is escaped, and the 32-bit `shift` has wrapped to
2, which is neither 3 times the number of escaped records nor the number of slots
beyond one per fragment. -/
theorem shift_counter_wraps :
    ∃ r, runEncoder 1 0 0 (strideStream 65535 0 1431655766) = .ok r ∧
      escapes (posDiffs 0 (strideStream 65535 0 1431655766)) = 1431655766 ∧
      r.state.shift = 2 ∧
      r.state.shift ≠ 3 * escapes (posDiffs 0 (strideStream 65535 0 1431655766)) ∧
      r.state.out1.length ≠ (strideStream 65535 0 1431655766).length + r.state.shift := by
  obtain ⟨r, hr, hesc, hshift, hout, _⟩ :=
    strideStream_run 65535 1431655766 1 0 (by norm_num) (by norm_num) (by norm_num)
      (by norm_num) (by norm_num) (by norm_num)
  have h2 : r.state.shift = 2 := by rw [hshift]; norm_num
  refine ⟨r, hr, hesc, h2, ?_, ?_⟩
  · rw [h2, hesc]; norm_num
  · rw [h2, hout, strideStream_length]; norm_num

/-- C3, amended.  In a run from fresh statics in which 3 times the number of escaped
records stays below 2^32, `shift` is at the end 3 times the number of escaped
records and the positions stream holds one slot per fragment plus `shift` slots.
For every checkpoint `k`, written after fragment ordinal `N = 1000 * k` with
cumulative shift `S`: the first `N + S` slots of the positions stream are the
positions stream of the run on the first `N` fragments, and the slots from `N + S`
on are the records of the fragments after the `N`-th, so the record following the
checkpoint begins at byte `2 * (N + S)`. -/
theorem random_access_offset (tileCount : Nat) (fs : List Fragment)
    (hvalid : ∀ f ∈ fs, 0 < f.fragmentLength_) (r : RunResult)
    (hr : runEncoder tileCount 0 0 fs = .ok r)
    (hbound : 3 * escapes (posDiffs 0 fs) < 2 ^ 32) :
    r.state.shift = 3 * escapes (posDiffs 0 fs) ∧
    r.state.out1.length = fs.length + r.state.shift ∧
    ∀ k, 1 ≤ k → 1000 * k ≤ fs.length →
      ∃ S rp, r.state.shiftFile[k - 1]? = some S ∧
        runEncoder tileCount 0 0 (fs.take (1000 * k)) = .ok rp ∧
        byteOffset (1000 * k) S = 2 * rp.state.out1.length ∧
        r.state.out1.take (1000 * k + S) = rp.state.out1 ∧
        r.state.out1.drop (1000 * k + S) =
          encodeDeltas (posDiffs rp.state.lastPos (fs.drop (1000 * k))) := by
  obtain ⟨hrun, rfl⟩ := (runEncoder_ok_iff tileCount 0 0 fs hvalid r).1 hr
  have hl : (initialState tileCount 0 0).lastPos = 0 := rfl
  have ho : (initialState tileCount 0 0).out1 = [] := rfl
  have hsf : (initialState tileCount 0 0).shift = 0 := rfl
  have hsl : (initialState tileCount 0 0).shiftFile.length = 0 := rfl
  have hshift : (stateAfter (initialState tileCount 0 0) fs).shift =
      3 * escapes (posDiffs 0 fs) := by
    rw [stateAfter_shift _ _ (by rw [hsf]; norm_num), hl, hsf, Nat.zero_add,
      Nat.mod_eq_of_lt hbound]
  refine ⟨hshift, ?_, ?_⟩
  · show (stateAfter (initialState tileCount 0 0) fs).out1.length = _
    rw [hshift, stateAfter_out1, ho, List.nil_append, length_encodeDeltas, hl, length_posDiffs]
  · intro k hk hkn
    have hsplit : fs = fs.take (1000 * k) ++ fs.drop (1000 * k) :=
      (List.take_append_drop _ _).symm
    have hrun2 := hrun
    rw [hsplit, runOk_append] at hrun2
    have hvp : ∀ f ∈ fs.take (1000 * k), 0 < f.fragmentLength_ :=
      fun f hf => hvalid f (List.mem_of_mem_take hf)
    obtain ⟨_, c2⟩ := checkpoint_entries (initialState tileCount 0 0) rfl fs k hk hkn
    rw [hsl, Nat.zero_add] at c2
    have hpd : posDiffs 0 fs = posDiffs 0 (fs.take (1000 * k)) ++
        posDiffs (stateAfter (initialState tileCount 0 0) (fs.take (1000 * k))).lastPos
          (fs.drop (1000 * k)) := by
      have := posDiffs_append (fs.take (1000 * k)) (fs.drop (1000 * k))
        (initialState tileCount 0 0)
      rwa [← hsplit, hl] at this
    have hesc : 3 * escapes (posDiffs 0 (fs.take (1000 * k))) < 2 ^ 32 := by
      rw [hpd, escapes_append] at hbound
      omega
    have hsp : (stateAfter (initialState tileCount 0 0) (fs.take (1000 * k))).shift =
        3 * escapes (posDiffs 0 (fs.take (1000 * k))) := by
      rw [stateAfter_shift _ _ (by rw [hsf]; norm_num), hl, hsf, Nat.zero_add,
        Nat.mod_eq_of_lt hesc]
    have htl : (fs.take (1000 * k)).length = 1000 * k := by
      rw [List.length_take]; omega
    have hpl : (stateAfter (initialState tileCount 0 0) (fs.take (1000 * k))).out1.length =
        1000 * k + (stateAfter (initialState tileCount 0 0) (fs.take (1000 * k))).shift := by
      rw [hsp, stateAfter_out1, ho, List.nil_append, length_encodeDeltas, hl, length_posDiffs,
        htl]
    have hfull : (stateAfter (initialState tileCount 0 0) fs).out1 =
        (stateAfter (initialState tileCount 0 0) (fs.take (1000 * k))).out1 ++
          encodeDeltas (posDiffs
            (stateAfter (initialState tileCount 0 0) (fs.take (1000 * k))).lastPos
            (fs.drop (1000 * k))) := by
      conv_lhs => rw [hsplit, stateAfter_append, stateAfter_out1]
    refine ⟨_, _, c2, (runEncoder_ok_iff tileCount 0 0 _ hvp _).2 ⟨hrun2.1, rfl⟩, ?_, ?_, ?_⟩
    · show byteOffset _ _ =
        2 * (stateAfter (initialState tileCount 0 0) (fs.take (1000 * k))).out1.length
      rw [hpl]; rfl
    · show List.take _ (stateAfter (initialState tileCount 0 0) fs).out1 =
        (stateAfter (initialState tileCount 0 0) (fs.take (1000 * k))).out1
      rw [hfull, ← hpl, List.take_left']
      rfl
    · show List.drop _ (stateAfter (initialState tileCount 0 0) fs).out1 = _
      rw [hfull, ← hpl, List.drop_left']
      rfl

/-- Witness for C3 amended: the run from fresh statics on 2500 fragments that are
70000 apart, which writes two checkpoints. -/
theorem random_access_offset_witness :
    ∃ r, runEncoder 1 0 0 (strideStream 70000 0 2500) = .ok r ∧
      r.state.shift = 3 * escapes (posDiffs 0 (strideStream 70000 0 2500)) ∧
      r.state.out1.length = (strideStream 70000 0 2500).length + r.state.shift ∧
      ∀ k, 1 ≤ k → 1000 * k ≤ (strideStream 70000 0 2500).length →
        ∃ S rp, r.state.shiftFile[k - 1]? = some S ∧
          runEncoder 1 0 0 ((strideStream 70000 0 2500).take (1000 * k)) = .ok rp ∧
          byteOffset (1000 * k) S = 2 * rp.state.out1.length ∧
          r.state.out1.take (1000 * k + S) = rp.state.out1 ∧
          r.state.out1.drop (1000 * k + S) =
            encodeDeltas (posDiffs rp.state.lastPos ((strideStream 70000 0 2500).drop (1000 * k))) := by
  obtain ⟨r, hr, hesc, _⟩ :=
    strideStream_run 70000 2500 1 0 (by norm_num) (by norm_num) (by norm_num)
      (by norm_num) (by norm_num) (by norm_num)
  exact ⟨r, hr, random_access_offset 1 (strideStream 70000 0 2500)
    (strideStream_valid 70000 2500 0) r hr (by rw [hesc]; norm_num)⟩

/-- C4 (index/shift alignment).  Whatever the statics hold, a run that encodes the
`n` fragments of `fs` and returns has counted `n` fragments, and has written to the
index stream the header 1, 1000 followed by exactly `n / 1000` entries and to the
shift stream exactly `n / 1000` entries; the fragments after the last full block of
1000 add nothing to either stream. -/
theorem index_shift_alignment (tileCount lp sh : Nat) (fs : List Fragment)
    (hvalid : ∀ f ∈ fs, 0 < f.fragmentLength_) (r : RunResult)
    (hr : runEncoder tileCount lp sh fs = .ok r) :
    r.generatedCount = fs.length ∧
    r.state.indexFile.take 2 = [1, 1000] ∧
    r.state.indexFile.length = 2 + fs.length / 1000 ∧
    r.state.shiftFile.length = fs.length / 1000 ∧
    ∃ rp, runEncoder tileCount lp sh (fs.take (1000 * (fs.length / 1000))) = .ok rp ∧
      rp.state.indexFile = r.state.indexFile ∧ rp.state.shiftFile = r.state.shiftFile := by
  obtain ⟨hrun, rfl⟩ := (runEncoder_ok_iff tileCount lp sh fs hvalid r).1 hr
  have hc : (initialState tileCount lp sh).indexCount < 1000 := by
    show 0 < 1000
    norm_num
  have hc0 : (initialState tileCount lp sh).indexCount = 0 := rfl
  have hil : (initialState tileCount lp sh).indexFile.length = 2 := rfl
  have hsl : (initialState tileCount lp sh).shiftFile.length = 0 := rfl
  obtain ⟨_, i2, i3⟩ := stateAfter_index fs _ hc
  obtain ⟨e1, _, p1, _⟩ := stateAfter_files_prefix fs (initialState tileCount lp sh)
  rw [hc0, hil, Nat.zero_add] at i2
  rw [hc0, hsl, Nat.zero_add, Nat.zero_add] at i3
  have hsplit : fs = fs.take (1000 * (fs.length / 1000)) ++ fs.drop (1000 * (fs.length / 1000)) :=
    (List.take_append_drop _ _).symm
  have hrun2 := hrun
  rw [hsplit, runOk_append] at hrun2
  have hvp : ∀ f ∈ fs.take (1000 * (fs.length / 1000)), 0 < f.fragmentLength_ :=
    fun f hf => hvalid f (List.mem_of_mem_take hf)
  have htl : (fs.take (1000 * (fs.length / 1000))).length = 1000 * (fs.length / 1000) := by
    rw [List.length_take]; omega
  obtain ⟨_, j2, j3⟩ := stateAfter_index (fs.take (1000 * (fs.length / 1000))) _ hc
  rw [hc0, hil, Nat.zero_add, htl] at j2
  rw [hc0, hsl, Nat.zero_add, Nat.zero_add, htl] at j3
  obtain ⟨d1, d2, q1, q2⟩ := stateAfter_files_prefix (fs.drop (1000 * (fs.length / 1000)))
    (stateAfter (initialState tileCount lp sh) (fs.take (1000 * (fs.length / 1000))))
  rw [← stateAfter_append, ← hsplit] at q1 q2
  have hd1 : d1 = [] := by
    have := congrArg List.length q1
    rw [List.length_append, i2, j2] at this
    exact List.length_eq_zero.1 (by omega)
  have hd2 : d2 = [] := by
    have := congrArg List.length q2
    rw [List.length_append, i3, j3] at this
    exact List.length_eq_zero.1 (by omega)
  refine ⟨rfl, ?_, i2, i3, _, (runEncoder_ok_iff tileCount lp sh _ hvp _).2 ⟨hrun2.1, rfl⟩, ?_, ?_⟩
  · show List.take 2 (stateAfter (initialState tileCount lp sh) fs).indexFile = [1, 1000]
    rw [p1]
    rfl
  · show _ = (stateAfter (initialState tileCount lp sh) fs).indexFile
    rw [q1, hd1, List.append_nil]
  · show _ = (stateAfter (initialState tileCount lp sh) fs).shiftFile
    rw [q2, hd2, List.append_nil]

/-- Witness for C4: a run on 2500 fragments returns and leaves the header and two
entries in the index stream and two entries in the shift stream. -/
theorem index_shift_alignment_witness :
    ∃ r, runEncoder 1 0 0 (strideStream 70000 0 2500) = .ok r ∧
      r.generatedCount = 2500 ∧
      r.state.indexFile.take 2 = [1, 1000] ∧
      r.state.indexFile.length = 2 + 2 ∧
      r.state.shiftFile.length = 2 := by
  obtain ⟨r, hr, _⟩ :=
    strideStream_run 70000 2500 1 0 (by norm_num) (by norm_num) (by norm_num)
      (by norm_num) (by norm_num) (by norm_num)
  have h := index_shift_alignment 1 0 0 (strideStream 70000 0 2500)
    (strideStream_valid 70000 2500 0) r hr
  rw [strideStream_length] at h
  exact ⟨r, hr, h.1, h.2.1, h.2.2.1, h.2.2.2.1⟩

/-- C5, as stated, fails: in the run from fresh statics on 1431656000 fragments that
are 65535 apart, the fragments 1 through 1000 * 1431656 have produced 4294968000
widened slots, but entry 1431656 of the shift stream is 704. -/
theorem shift_entry_wraps :
    ∃ r, runEncoder 1 0 0 (strideStream 65535 0 1431656000) = .ok r ∧
      3 * escapes (posDiffs 0 ((strideStream 65535 0 1431656000).take (1000 * 1431656))) =
        4294968000 ∧
      r.state.shiftFile[1431656 - 1]? = some 704 := by
  obtain ⟨r, hr, hesc, hshift, _, _, _, hst⟩ :=
    strideStream_run 65535 1431656000 1 0 (by norm_num) (by norm_num) (by norm_num)
      (by norm_num) (by norm_num) (by norm_num)
  have hlen : (strideStream 65535 0 1431656000).length = 1000 * 1431656 := by
    rw [strideStream_length]
  have htake : (strideStream 65535 0 1431656000).take (1000 * 1431656) =
      strideStream 65535 0 1431656000 := by
    rw [← hlen]; exact List.take_length _
  obtain ⟨_, c2⟩ := checkpoint_entries (initialState 1 0 0) rfl
    (strideStream 65535 0 1431656000) 1431656 (by norm_num) (le_of_eq hlen.symm)
  have hsl : (initialState 1 0 0).shiftFile.length = 0 := rfl
  rw [htake, ← hst, hsl, Nat.zero_add, hshift] at c2
  refine ⟨r, hr, ?_, ?_⟩
  · rw [htake, hesc]
  · rw [c2]; norm_num

/-- C5, amended.  In a run from fresh statics on fragments with 64-bit start
positions, for every `k ≥ 1` with `1000 * k ≤ n`: the `k`-th entry after the header
of the index stream is the start position of the `(1000 * k)`-th fragment, and the
`k`-th entry of the shift stream is the number of widened slots produced by
fragments 1 through `1000 * k`, reduced modulo 2^32. -/
theorem checkpoint_contents (tileCount : Nat) (fs : List Fragment)
    (hvalid : ∀ f ∈ fs, 0 < f.fragmentLength_) (hpos : ∀ f ∈ fs, f.startPos_ < 2 ^ 64)
    (r : RunResult) (hr : runEncoder tileCount 0 0 fs = .ok r)
    (k : Nat) (hk : 1 ≤ k) (hkn : 1000 * k ≤ fs.length) :
    ∃ f, fs[1000 * k - 1]? = some f ∧
      r.state.indexFile[k + 1]? = some f.startPos_ ∧
      r.state.shiftFile[k - 1]? =
        some (3 * escapes (posDiffs 0 (fs.take (1000 * k))) % 2 ^ 32) := by
  obtain ⟨_, rfl⟩ := (runEncoder_ok_iff tileCount 0 0 fs hvalid r).1 hr
  have hN : 1000 * k - 1 < fs.length := by omega
  have hpre : fs.take (1000 * k) = fs.take (1000 * k - 1) ++ [fs.get ⟨1000 * k - 1, hN⟩] := by
    have := take_eq_snoc fs (1000 * k - 1) hN
    rwa [show 1000 * k - 1 + 1 = 1000 * k by omega] at this
  obtain ⟨c1, c2⟩ := checkpoint_entries (initialState tileCount 0 0) rfl fs k hk hkn
  have hil : (initialState tileCount 0 0).indexFile.length = 2 := rfl
  have hsl : (initialState tileCount 0 0).shiftFile.length = 0 := rfl
  have hl : (initialState tileCount 0 0).lastPos = 0 := rfl
  have hsf : (initialState tileCount 0 0).shift = 0 := rfl
  have hmem : fs.get ⟨1000 * k - 1, hN⟩ ∈ fs := List.get_mem _ _ _
  have hlast : (stateAfter (initialState tileCount 0 0) (fs.take (1000 * k))).lastPos =
      (fs.get ⟨1000 * k - 1, hN⟩).startPos_ := by
    rw [hpre, stateAfter_lastPos_snoc, Nat.mod_eq_of_lt (hpos _ hmem)]
  have hshift : (stateAfter (initialState tileCount 0 0) (fs.take (1000 * k))).shift =
      3 * escapes (posDiffs 0 (fs.take (1000 * k))) % 2 ^ 32 := by
    rw [stateAfter_shift _ _ (by rw [hsf]; norm_num), hl, hsf, Nat.zero_add]
  rw [hil, hlast, show 2 + (k - 1) = k + 1 by omega] at c1
  rw [hsl, Nat.zero_add, hshift] at c2
  exact ⟨fs.get ⟨1000 * k - 1, hN⟩, List.getElem?_eq_getElem hN, c1, c2⟩

/-- Witness for C5 amended: the second checkpoint of a run on 2500 fragments. -/
theorem checkpoint_contents_witness :
    ∃ r f, runEncoder 1 0 0 (strideStream 70000 0 2500) = .ok r ∧
      (strideStream 70000 0 2500)[1000 * 2 - 1]? = some f ∧
      r.state.indexFile[2 + 1]? = some f.startPos_ ∧
      r.state.shiftFile[2 - 1]? =
        some (3 * escapes (posDiffs 0 ((strideStream 70000 0 2500).take (1000 * 2))) % 2 ^ 32) := by
  obtain ⟨r, hr, _⟩ :=
    strideStream_run 70000 2500 1 0 (by norm_num) (by norm_num) (by norm_num)
      (by norm_num) (by norm_num) (by norm_num)
  have hp : ∀ f ∈ strideStream 70000 0 2500, f.startPos_ < 2 ^ 64 :=
    strideStream_pos_lt 70000 2500 0 (by norm_num)
  obtain ⟨f, h1, h2, h3⟩ := checkpoint_contents 1 (strideStream 70000 0 2500)
    (strideStream_valid 70000 2500 0) hp r hr 2 (by norm_num)
    (by rw [strideStream_length]; norm_num)
  exact ⟨r, f, hr, h1, h2, h3⟩

/-- Histogram conservation in the runs that stay inside the histogram.  Whatever the
statics hold, when a run on the fragments `fs` returns in which every update of the
histogram is inside it, the stats stream holds `tileCount` counts in tile-index
order, entry `t` being the number of fragments of `fs` assigned to tile `t`, every
count fits 32 bits, and the sum of the counts equals the number of fragments,
which is the number of records of the lengths stream and the count of line 215. -/
theorem histogram_conservation (tileCount lp sh : Nat) (fs : List Fragment)
    (hvalid : ∀ f ∈ fs, 0 < f.fragmentLength_) (r : RunResult)
    (hr : runEncoder tileCount lp sh fs = .ok r) :
    r.out4.length = tileCount ∧
    r.out4 = (List.range tileCount).map
      (fun t => (fs.map (fun f => f.allocatedTile_)).count t) ∧
    (∀ c ∈ r.out4, c < 2 ^ 32) ∧
    r.out4.sum = fs.length ∧
    r.state.out2.length = fs.length ∧
    r.generatedCount = fs.length := by
  obtain ⟨hrun, rfl⟩ := (runEncoder_ok_iff tileCount lp sh fs hvalid r).1 hr
  have h0 : ∀ t, (initialState tileCount lp sh).tileReadCount.getD t 0 < 2 ^ 32 - 1 := by
    intro t; rw [initialState_hist]; norm_num
  obtain ⟨hlen, hh⟩ := stateAfter_hist fs _ h0 hrun
  have hl0 : (initialState tileCount lp sh).tileReadCount.length = tileCount := by
    simp only [initialState, List.length_replicate]
  have hall := runOk_forall fs _ hrun
  have heq : (stateAfter (initialState tileCount lp sh) fs).tileReadCount =
      (List.range tileCount).map (fun t => (fs.map (fun f => f.allocatedTile_)).count t) := by
    apply list_eq_map_range _ _ _ (hlen.trans hl0)
    intro t _
    rw [(hh t).1, initialState_hist, Nat.zero_add]
  have ho2 : (initialState tileCount lp sh).out2 = [] := rfl
  refine ⟨hlen.trans hl0, heq, ?_, ?_, ?_, rfl⟩
  · intro c hc
    show c < 2 ^ 32
    have hc' : c ∈ (stateAfter (initialState tileCount lp sh) fs).tileReadCount := hc
    obtain ⟨i, hi, rfl⟩ := List.getElem_of_mem hc'
    have := (hh i).2
    rw [List.getD_eq_getElem?_getD, List.getElem?_eq_getElem hi, Option.getD_some] at this
    omega
  · show (stateAfter (initialState tileCount lp sh) fs).tileReadCount.sum = fs.length
    rw [heq, sum_count_range _ _ (by
      intro x hx
      obtain ⟨f, hf, rfl⟩ := List.mem_map.1 hx
      have := (hall f hf).2.2
      rwa [hl0] at this), List.length_map]
  · show (stateAfter (initialState tileCount lp sh) fs).out2.length = fs.length
    rw [stateAfter_out2, ho2, List.nil_append, List.length_map]

theorem boundaryFragments_run : ∃ r, runEncoder 2 0 0 boundaryFragments = .ok r :=
  ⟨_, rfl⟩

/-- The run on the six `boundaryFragments` for two tiles returns and its stats
stream is 2, 4. -/
theorem histogram_conservation_witness :
    ∃ r, runEncoder 2 0 0 boundaryFragments = .ok r ∧ r.out4 = [2, 4] ∧ r.out4.sum = 6 ∧
      r.state.out2.length = 6 := by
  obtain ⟨r, hr⟩ := boundaryFragments_run
  have h := histogram_conservation 2 0 0 boundaryFragments (by decide) r hr
  exact ⟨r, hr, h.2.1.trans (by decide), h.2.2.2.1, h.2.2.2.2.1⟩

/-- C6 fails on the code.  With line 201 as the source has it: in merge mode with
two tiles, a reader that returns one valid fragment of tile 2 gives a run that
returns with one fragment emitted and one record in the lengths stream, but the
stats stream 0, 0: the fragment is counted in no entry.  A generation run with the
SEQUENCE policy, two tiles and four candidates, none discarded, returns with four
fragments emitted, four records in the lengths stream and the tiles 0, 1, 1, 2 in
the tiles stream, but its stats stream is 1, 2, of sum 3: the fourth fragment was
assigned tile 2.  The runs that mark the update outside the histogram stop at these
fragments. -/
theorem histogram_not_conserved :
    (∃ r w1, runGenerationUnchecked readerCollaborators (mergeOptions 2) 1 5
        (readerWorld [⟨0, 1, 2⟩]) 0 0 = some (.ok (r, w1)) ∧
      r.out4 = [0, 0] ∧ r.out4.sum = 0 ∧ r.state.out2.length = 1 ∧
      r.state.out3 = [2] ∧ r.generatedCount = 1) ∧
    (∃ r, runEncoderUnchecked 2 0 0 [⟨0, 1, 2⟩] = .ok r ∧ r.out4 = [0, 0] ∧
      r.out4.sum = 0 ∧ r.state.out2.length = 1 ∧ r.generatedCount = 1) ∧
    (∃ r w1, runGenerationUnchecked (listCollaborators keepAll) (sequenceOptions 2) 4 10
        (listWorld uniformFour) 0 0 = some (.ok (r, w1)) ∧
      r.out4 = [1, 2] ∧ r.out4.sum = 3 ∧ r.state.out2.length = 4 ∧
      r.state.out3 = [0, 1, 1, 2] ∧ r.generatedCount = 4) ∧
    runEncoder 2 0 0 [⟨0, 1, 2⟩] = .error .outOfBounds ∧
    runGeneration (listCollaborators keepAll) (sequenceOptions 2) 4 10
        (listWorld uniformFour) 0 0 = some (.error .outOfBounds) :=
  ⟨⟨_, _, rfl, rfl, rfl, rfl, rfl, rfl⟩, ⟨_, rfl, rfl, rfl, rfl, rfl⟩,
    ⟨_, _, rfl, rfl, rfl, rfl, rfl, rfl⟩, rfl, rfl⟩

theorem runEncoder_snoc (tileCount lp sh : Nat) (fs : List Fragment) (f : Fragment)
    (rp : RunResult) (hv : ∀ g ∈ fs, 0 < g.fragmentLength_) (hvf : 0 < f.fragmentLength_)
    (hrp : runEncoder tileCount lp sh fs = .ok rp) (hstep : StepOk rp.state f) :
    ∃ r, runEncoder tileCount lp sh (fs ++ [f]) = .ok r ∧ r.state = stepState rp.state f := by
  obtain ⟨hrun, rfl⟩ := (runEncoder_ok_iff tileCount lp sh fs hv rp).1 hrp
  have hvalid : ∀ g ∈ fs ++ [f], 0 < g.fragmentLength_ := by
    intro g hg
    rcases List.mem_append.1 hg with hg | hg
    · exact hv g hg
    · rw [List.mem_singleton.1 hg]; exact hvf
  have hok : RunOk (initialState tileCount lp sh) (fs ++ [f]) :=
    (runOk_append fs [f] _).2 ⟨hrun, hstep, trivial⟩
  exact ⟨_, (runEncoder_ok_iff tileCount lp sh _ hvalid _).2 ⟨hok, rfl⟩, stateAfter_snoc _ _ _⟩

/-- C10, as stated, fails: the run from fresh statics on 65536 fragments that are
2^48-1 apart returns with `lastPos = 2^64 - 65536`; a further fragment at start
position 0, which is smaller, passes every assertion, and its wrapped difference
65536 is written to the positions stream as the escaped record 65535, 0, 1, 0. -/
theorem descending_position_written :
    ∃ rp r, runEncoder 1 0 0 (strideStream (2 ^ 48 - 1) 0 65536) = .ok rp ∧
      rp.state.lastPos = 2 ^ 64 - 65536 ∧
      runEncoder 1 0 0 (strideStream (2 ^ 48 - 1) 0 65536 ++ [⟨0, 1, 0⟩]) = .ok r ∧
      r.state.out1 = rp.state.out1 ++ [65535, 0, 1, 0] := by
  obtain ⟨rp, hrp, _, _, _, hcount, hlen, hst⟩ :=
    strideStream_run (2 ^ 48 - 1) 65536 1 0 (by norm_num) (by norm_num) (by norm_num)
      (by norm_num) (by norm_num) (by norm_num)
  have hlast : rp.state.lastPos = 2 ^ 64 - 65536 := by
    rw [hst, strideStream_lastPos (2 ^ 48 - 1) 65535 0 _ (by norm_num)]
    norm_num
  have hd : posDiffOf rp.state.lastPos ⟨0, 1, 0⟩ = 65536 := by
    rw [hlast]; rfl
  have hstep : StepOk rp.state ⟨0, 1, 0⟩ := by
    refine ⟨by norm_num, by norm_num, by rw [hd]; norm_num, by rw [hlen]; norm_num, ?_⟩
    show (rp.state.tileReadCount.getD 0 0 + 1) % 2 ^ 32 ≠ 0xFFFFFFFF
    omega
  obtain ⟨r, hr, hrs⟩ := runEncoder_snoc 1 0 0 _ ⟨0, 1, 0⟩ rp
    (strideStream_valid _ _ _) Nat.one_pos hrp hstep
  refine ⟨rp, r, hrp, hlast, hr, ?_⟩
  rw [hrs]
  show rp.state.out1 ++ slotsOf (posDiffOf rp.state.lastPos ⟨0, 1, 0⟩) = _
  rw [hd]
  rfl

/-- C10, amended.  A fragment whose start position is smaller than the 64-bit start
position of the previously encoded fragment by at most 2^64 - 2^48 makes the loop
body fail an assertion, whatever else the state holds, so nothing is written for
it; and no run returns on a sequence in which such a fragment follows another. -/
theorem descending_position_fatal (s : EncoderState) (f : Fragment)
    (hlast : s.lastPos < 2 ^ 64) (hdesc : f.startPos_ < s.lastPos)
    (hsmall : s.lastPos - f.startPos_ ≤ 2 ^ 64 - 2 ^ 48) :
    encodeFragment s f = .error .assertion ∧
    ∀ (tileCount lp sh : Nat) (pre post : List Fragment) (a : Fragment) (r : RunResult),
      (∀ g ∈ pre ++ a :: f :: post, 0 < g.fragmentLength_) →
      a.startPos_ = s.lastPos →
      runEncoder tileCount lp sh (pre ++ a :: f :: post) ≠ .ok r := by
  have hbig : 2 ^ 48 ≤ posDiffOf s.lastPos f := by
    unfold posDiffOf
    omega
  constructor
  · simp only [encodeFragment]
    by_cases hl : f.fragmentLength_ < 65536
    swap
    · simp only [hl, not_false_eq_true, if_true]
    by_cases ht : f.allocatedTile_ < 65536
    swap
    · simp only [hl, ht, not_false_eq_true, not_true_eq_false, if_true, if_false]
    simp only [hl, ht, not_true_eq_false, if_false]
    rw [writePosDiff_fatal _ _ _ hbig (posDiffOf_lt _ _)]
  · intro tileCount lp sh pre post a r hv ha hr
    obtain ⟨hrun, _⟩ := (runEncoder_ok_iff tileCount lp sh _ hv r).1 hr
    have e : pre ++ a :: f :: post = (pre ++ [a]) ++ f :: post := by
      rw [List.append_assoc, List.singleton_append]
    rw [e, runOk_append, runOk_cons] at hrun
    have h48 := hrun.2.1.2.2.1
    rw [stateAfter_lastPos_snoc, ha, Nat.mod_eq_of_lt hlast] at h48
    omega

/-- Witness for C10 amended: after a fragment at start position 100, a fragment at
start position 50 fails the assertion. -/
theorem descending_position_fatal_witness :
    encodeFragment (initialState 1 100 0) ⟨50, 1, 0⟩ = .error .assertion :=
  (descending_position_fatal (initialState 1 100 0) ⟨50, 1, 0⟩
    (by show 100 < 2 ^ 64; norm_num) (by show 50 < 100; norm_num)
    (by show 100 - 50 ≤ 2 ^ 64 - 2 ^ 48; norm_num)).1

/-- C7 fails on the code.  With the SEQUENCE policy, one tile and `readCount = 1`, the
generator returns one interval and then signals exhaustion; the loop of `run`
passes `i = 1` for the only fragment, which is assigned tile `1 * 1 / 1 = 1`,
outside `[0, 1)`, and the histogram update of the run indexes past the histogram. -/
theorem sequence_tile_out_of_range :
    (∃ w1, getNextFragment (listCollaborators keepAll) (sequenceOptions 1) 1
        (listWorld [(0, 100)]) 1 1 = some (.ok (⟨0, 100, 1⟩, w1))) ∧
    runGeneration (listCollaborators keepAll) (sequenceOptions 1) 1 3
        (listWorld [(0, 100)]) 0 0 = some (.error .outOfBounds) :=
  ⟨⟨_, rfl⟩, rfl⟩

/-- C8 fails on the code.  With the SEQUENCE policy, two tiles and `totalCount = 4`,
the four successive calls of `getNextFragment` with the ordinals 1, 2, 3, 4 that
the loop of `run` passes assign the tiles 0, 1, 1, 2: tile 0 receives one fragment,
although `4 / 2 = 2`, and the last fragment is assigned tile 2, which is no tile;
the run stops at the histogram update of that fragment. -/
theorem sequence_tiles_unbalanced :
    (∃ w1 w2 w3 w4,
      getNextFragment (listCollaborators keepAll) (sequenceOptions 2) 1
        (listWorld uniformFour) 1 4 = some (.ok (⟨0, 100, 0⟩, w1)) ∧
      getNextFragment (listCollaborators keepAll) (sequenceOptions 2) 1 w1 2 4 =
        some (.ok (⟨10, 100, 1⟩, w2)) ∧
      getNextFragment (listCollaborators keepAll) (sequenceOptions 2) 1 w2 3 4 =
        some (.ok (⟨20, 100, 1⟩, w3)) ∧
      getNextFragment (listCollaborators keepAll) (sequenceOptions 2) 1 w3 4 4 =
        some (.ok (⟨30, 100, 2⟩, w4))) ∧
    4 / 2 = 2 ∧
    runGeneration (listCollaborators keepAll) (sequenceOptions 2) 4 10
        (listWorld uniformFour) 0 0 = some (.error .outOfBounds) :=
  ⟨⟨_, _, _, _, rfl, rfl, rfl, rfl⟩, rfl, rfl⟩

/-- C9 (bias-filter contract).  In generation mode, for every generator and filter:
(1) if the first `k` intervals that the generator returns are candidates that the
filter discards and the next interval has length 0, `getNextFragment` returns the
invalid fragment, and if the next interval is a candidate that the filter does not
discard, it returns what the tile allocation makes of that candidate (the same
start position and length, for each of the three policies); in both cases the
filter has been consulted exactly on the candidates drawn, once each, in order.
(2) If the generator, asked again and again from its state at the start of the run,
returns `n` candidates and then a zero-length interval (with the RANDOM policy: the
random generator and the interval generator not disturbing each other), then for
one of the three policies there is a list `fs` of fragments whose start positions
and lengths are exactly those of the candidates that the filter does not discard,
in the order of generation, such that every run with more than `n` units of fuel
returns what the encoder returns on `fs`: the same fatal outcome, or the same
streams, with the emitted total and the numbers of length and tile records equal
to the number of candidates not discarded; and at the end of such a run the
generator has been asked `n + 1` times and the filter has been consulted exactly
once on each of the `n` candidates.  (3) Whenever a run returns, whatever the
random generator does to the interval generator, the intervals drawn during the
run are candidates followed by one zero-length interval, the filter was consulted
exactly once on each candidate, and the fragments encoded are exactly the
candidates not discarded, in order. -/
theorem bias_filter_contract {σ : Type} (c : Collaborators σ) (o : FragmentsAllocatorOptions)
    (hgen : o.mergeExistingFragments = false) :
    (∀ (w : World σ) (n N k fuel : Nat), k < fuel →
      (∀ p ∈ draws c w.ext k, p.2 ≠ 0 ∧ c.needsDiscarding (Fragment.ofInterval p) = true) →
      ((c.getNext (extAfter c w.ext k)).1.2 = 0 →
        getNextFragment c o fuel w n N =
          some (.ok (Fragment.invalid,
            { worldAfterDraws c w k with
              ext := extAfter c w.ext (k + 1),
              drawn := w.drawn ++ draws c w.ext (k + 1) }))) ∧
      ((c.getNext (extAfter c w.ext k)).1.2 ≠ 0 →
        c.needsDiscarding (Fragment.ofInterval (c.getNext (extAfter c w.ext k)).1) = false →
        getNextFragment c o fuel w n N =
          some (allocateTile c o (worldAfterDraws c w (k + 1))
            (Fragment.ofInterval (c.getNext (extAfter c w.ext k)).1) n N) ∧
        ((∀ code, o.tileAllocationMethod ≠ .other code) →
          ∃ f1 w1, allocateTile c o (worldAfterDraws c w (k + 1))
              (Fragment.ofInterval (c.getNext (extAfter c w.ext k)).1) n N = .ok (f1, w1) ∧
            f1.interval = (c.getNext (extAfter c w.ext k)).1 ∧
            w1.drawn = w.drawn ++ draws c w.ext (k + 1) ∧
            w1.consulted = w.consulted ++ (draws c w.ext (k + 1)).map Fragment.ofInterval))) ∧
    ((∀ code, o.tileAllocationMethod ≠ .other code) →
      (o.tileAllocationMethod = .TILE_ALLOCATION_RANDOM → RandIndependent c) →
      ∀ (readCount n : Nat) (w : World σ),
      (∀ p ∈ draws c w.ext n, p.2 ≠ 0) →
      (c.getNext (extAfter c w.ext n)).1.2 = 0 →
      ∃ fs w1, fs.map Fragment.interval = accepted c (draws c w.ext n) ∧
        w1.drawn = w.drawn ++ draws c w.ext (n + 1) ∧
        w1.consulted = w.consulted ++ (draws c w.ext n).map Fragment.ofInterval ∧
        ∀ (fuel lp sh : Nat), n < fuel →
          (∀ e, runEncoder o.tileCount lp sh fs = .error e →
            runGeneration c o readCount fuel w lp sh = some (.error e)) ∧
          (∀ r, runEncoder o.tileCount lp sh fs = .ok r →
            runGeneration c o readCount fuel w lp sh = some (.ok (r, w1)) ∧
            r.generatedCount = (accepted c (draws c w.ext n)).length ∧
            r.state.out2 = (accepted c (draws c w.ext n)).map (fun p => p.2) ∧
            r.state.out3.length = (accepted c (draws c w.ext n)).length)) ∧
    (∀ (readCount fuel lp sh : Nat) (w w1 : World σ) (r : RunResult),
      runGeneration c o readCount fuel w lp sh = some (.ok (r, w1)) →
      ∃ cands t fs, w1.drawn = w.drawn ++ (cands ++ [t]) ∧ t.2 = 0 ∧
        (∀ p ∈ cands, p.2 ≠ 0) ∧
        w1.consulted = w.consulted ++ cands.map Fragment.ofInterval ∧
        fs.map Fragment.interval = accepted c cands ∧
        runEncoder o.tileCount lp sh fs = .ok r ∧
        r.generatedCount = (accepted c cands).length ∧
        r.state.out2 = (accepted c cands).map (fun p => p.2) ∧
        r.state.out3.length = (accepted c cands).length) := by
  refine ⟨?_, ?_, ?_⟩
  · intro w n N k fuel hk hall
    have hg : getNextFragment c o fuel w n N = generateLoop c o n N fuel w := by
      simp only [getNextFragment, hgen, Bool.not_false, if_true]
    obtain ⟨h1, h2⟩ := generateLoop_spec c o n N k w fuel hk hall
    rw [hg]
    refine ⟨h1, fun hnz hnd => ⟨h2 hnz hnd, fun hknown => ?_⟩⟩
    have hex : ∃ f1 w1, allocateTile c o (worldAfterDraws c w (k + 1))
        (Fragment.ofInterval (c.getNext (extAfter c w.ext k)).1) n N = .ok (f1, w1) := by
      unfold allocateTile
      split
      · exact ⟨_, _, rfl⟩
      · exact ⟨_, _, rfl⟩
      · exact ⟨_, _, rfl⟩
      · rename_i code hc
        exact absurd hc (hknown code)
    obtain ⟨f1, w1, he⟩ := hex
    obtain ⟨a1, a2, a3⟩ := allocateTile_ok c o _ w1 _ f1 n N he
    exact ⟨f1, w1, he, a1, a2, a3⟩
  · intro hknown hrand readCount n w hcand hend
    exact runGeneration_total c o hgen hknown hrand readCount n w hcand hend
  · intro readCount fuel lp sh w w1 r h
    exact runGeneration_emitted c o hgen readCount fuel lp sh w w1 r h

theorem fiveIntervals_run :
    ∃ r w1, runGeneration (listCollaborators discardOdd) (interleavedOptions 2) 4 10
      (listWorld fiveIntervals) 0 0 = some (.ok (r, w1)) :=
  ⟨_, _, rfl⟩

/-- Witness for C9: the list generator holds five candidates, of which the filter
discards the second and the fourth, and its random generator does not disturb it.
The run with the INTERLEAVED policy and the run with the RANDOM policy return; each
has emitted three fragments, the lengths stream holds the lengths 100, 100, 7 of
the first, third and fifth candidate, the tiles stream holds three records, the
generator was asked six times and the filter was consulted on the five
candidates. -/
theorem bias_filter_contract_witness :
    (∀ p ∈ draws (listCollaborators discardOdd) (listWorld fiveIntervals).ext 5, p.2 ≠ 0) ∧
    ((listCollaborators discardOdd).getNext
      (extAfter (listCollaborators discardOdd) (listWorld fiveIntervals).ext 5)).1.2 = 0 ∧
    RandIndependent (listCollaborators discardOdd) ∧
    (∃ r w1, runGeneration (listCollaborators discardOdd) (interleavedOptions 2) 4 10
        (listWorld fiveIntervals) 0 0 = some (.ok (r, w1)) ∧
      r.generatedCount = 3 ∧ r.state.out2 = [100, 100, 7] ∧ r.state.out3.length = 3 ∧
      w1.drawn = [(0, 100), (10, 100), (20, 100), (30, 5), (40, 7), (0, 0)] ∧
      w1.consulted = [⟨0, 100, 0⟩, ⟨10, 100, 0⟩, ⟨20, 100, 0⟩, ⟨30, 5, 0⟩, ⟨40, 7, 0⟩]) ∧
    (∃ r w1, runGeneration (listCollaborators discardOdd) (randomOptions 2) 4 10
        (listWorld fiveIntervals) 0 0 = some (.ok (r, w1)) ∧
      r.generatedCount = 3 ∧ r.state.out2 = [100, 100, 7] ∧ r.state.out3.length = 3 ∧
      w1.drawn = [(0, 100), (10, 100), (20, 100), (30, 5), (40, 7), (0, 0)] ∧
      w1.consulted = [⟨0, 100, 0⟩, ⟨10, 100, 0⟩, ⟨20, 100, 0⟩, ⟨30, 5, 0⟩, ⟨40, 7, 0⟩]) := by
  have hcand : ∀ p ∈ draws (listCollaborators discardOdd) (listWorld fiveIntervals).ext 5,
      p.2 ≠ 0 := by decide
  have hend : ((listCollaborators discardOdd).getNext
      (extAfter (listCollaborators discardOdd) (listWorld fiveIntervals).ext 5)).1.2 = 0 := rfl
  have hind : RandIndependent (listCollaborators discardOdd) := fun _ => rfl
  have key : ∀ o : FragmentsAllocatorOptions, o.mergeExistingFragments = false →
      (∀ code, o.tileAllocationMethod ≠ .other code) →
      (∃ r0 w0, runGeneration (listCollaborators discardOdd) o 4 10
        (listWorld fiveIntervals) 0 0 = some (.ok (r0, w0))) →
      ∃ r w1, runGeneration (listCollaborators discardOdd) o 4 10
          (listWorld fiveIntervals) 0 0 = some (.ok (r, w1)) ∧
        r.generatedCount = 3 ∧ r.state.out2 = [100, 100, 7] ∧ r.state.out3.length = 3 ∧
        w1.drawn = [(0, 100), (10, 100), (20, 100), (30, 5), (40, 7), (0, 0)] ∧
        w1.consulted = [⟨0, 100, 0⟩, ⟨10, 100, 0⟩, ⟨20, 100, 0⟩, ⟨30, 5, 0⟩, ⟨40, 7, 0⟩] := by
    intro o hgen hknown hrun
    obtain ⟨fs, w1, _, h2, h3, h4⟩ :=
      (bias_filter_contract (listCollaborators discardOdd) o hgen).2.1
        hknown (fun _ => hind) 4 5 (listWorld fiveIntervals) hcand hend
    obtain ⟨herr, hok⟩ := h4 10 0 0 (by norm_num)
    obtain ⟨r0, w0, hrun⟩ := hrun
    cases hre : runEncoder o.tileCount 0 0 fs with
    | error e =>
      have := herr e hre
      rw [hrun] at this
      cases this
    | ok r =>
      obtain ⟨g1, g2, g3, g4⟩ := hok r hre
      exact ⟨r, w1, g1, g2, g3, g4, h2, h3⟩
  exact ⟨hcand, hend, hind,
    key (interleavedOptions 2) rfl (fun code h => by cases h) ⟨_, _, rfl⟩,
    key (randomOptions 2) rfl (fun code h => by cases h) ⟨_, _, rfl⟩⟩

/-- C11, as stated, fails: after a fragment at start position 100 has been encoded,
a fragment at start position 50 with length 1 and tile 0, both at most 65535, fails
the assertion on the delta on line 192, before lines 199 and 200 are reached:
neither the lengths stream nor the tiles stream gains a record, and the run on the
two fragments ends in the assertion. -/
theorem field_guard_later_assertion :
    (⟨50, 1, 0⟩ : Fragment).fragmentLength_ ≤ 65535 ∧
    (⟨50, 1, 0⟩ : Fragment).allocatedTile_ ≤ 65535 ∧
    (∃ rp, runEncoder 1 0 0 [⟨100, 1, 0⟩] = .ok rp ∧
      rp.state.out2 = [1] ∧ rp.state.out3 = [0] ∧
      lengthAndTileWritten rp.state ⟨50, 1, 0⟩ = .error .assertion ∧
      encodeFragment rp.state ⟨50, 1, 0⟩ = .error .assertion ∧
      encodeFragmentUnchecked rp.state ⟨50, 1, 0⟩ = .error .assertion) ∧
    runEncoder 1 0 0 [⟨100, 1, 0⟩, ⟨50, 1, 0⟩] = .error .assertion ∧
    runEncoderUnchecked 1 0 0 [⟨100, 1, 0⟩, ⟨50, 1, 0⟩] = .error .assertion :=
  ⟨by decide, by decide, ⟨_, rfl, rfl, rfl, rfl, rfl, rfl⟩, rfl, rfl⟩

/-- C11, amended.  In every state: (1) a fragment whose length or whose tile exceeds
65535 makes the loop body fail an assertion, which is its outcome before anything
else is computed for the fragment, so that lines 199 and 200 are not reached;
(2) for a fragment whose length and tile are at most 65535 and whose wrapped delta
is below 2^48, lines 199 and 200 are reached and the lengths stream and the tiles
stream each gain exactly one record, equal to the length and to the tile of the
fragment, and the body then returns, with these streams, unless the assertion of
line 202 on the counter of the tile fails; (3) for a fragment whose length and tile
are at most 65535 and whose wrapped delta is 2^48 or more, the assertion of line
192 ends the body before lines 199 and 200; (4) the body returns only for a
fragment whose length and tile are at most 65535, and then with exactly these two
records added.  What is said of the body holds with line 201 as the source has it,
and, for a tile inside the histogram, of the body that marks the update outside
the histogram. -/
theorem field_guard (s : EncoderState) (f : Fragment) :
    ((65535 < f.fragmentLength_ ∨ 65535 < f.allocatedTile_) →
      lengthAndTileWritten s f = .error .assertion ∧
      encodeFragmentUnchecked s f = .error .assertion ∧
      encodeFragment s f = .error .assertion) ∧
    (f.fragmentLength_ ≤ 65535 → f.allocatedTile_ ≤ 65535 →
      posDiffOf s.lastPos f < 2 ^ 48 →
      lengthAndTileWritten s f =
        .ok (s.out2 ++ [f.fragmentLength_], s.out3 ++ [f.allocatedTile_]) ∧
      ((s.tileReadCount.getD f.allocatedTile_ 0 + 1) % 2 ^ 32 ≠ 0xFFFFFFFF →
        ∃ s1, encodeFragmentUnchecked s f = .ok s1 ∧
          s1.out2 = s.out2 ++ [f.fragmentLength_] ∧
          s1.out3 = s.out3 ++ [f.allocatedTile_] ∧
          (f.allocatedTile_ < s.tileReadCount.length → encodeFragment s f = .ok s1))) ∧
    (f.fragmentLength_ ≤ 65535 → f.allocatedTile_ ≤ 65535 →
      2 ^ 48 ≤ posDiffOf s.lastPos f →
      lengthAndTileWritten s f = .error .assertion ∧
      encodeFragmentUnchecked s f = .error .assertion ∧
      encodeFragment s f = .error .assertion) ∧
    (∀ s1, (encodeFragmentUnchecked s f = .ok s1 ∨ encodeFragment s f = .ok s1) →
      f.fragmentLength_ ≤ 65535 ∧ f.allocatedTile_ ≤ 65535 ∧
        lengthAndTileWritten s f = .ok (s1.out2, s1.out3) ∧
        s1.out2 = s.out2 ++ [f.fragmentLength_] ∧ s1.out3 = s.out3 ++ [f.allocatedTile_]) := by
  have hwritten : f.fragmentLength_ ≤ 65535 → f.allocatedTile_ ≤ 65535 →
      posDiffOf s.lastPos f < 2 ^ 48 →
      lengthAndTileWritten s f =
        .ok (s.out2 ++ [f.fragmentLength_], s.out3 ++ [f.allocatedTile_]) := by
    intro hl ht h48
    have hl1 : f.fragmentLength_ < 65536 := by omega
    have ht1 : f.allocatedTile_ < 65536 := by omega
    have hw := (writePosDiff_ok_iff s.out1 s.shift _ (posDiffOf_lt s.lastPos f) _).2 ⟨h48, rfl⟩
    simp only [lengthAndTileWritten, hl1, ht1, not_true_eq_false, if_false, hw,
      Nat.mod_eq_of_lt hl1, Nat.mod_eq_of_lt ht1]
  refine ⟨?_, ?_, ?_, ?_⟩
  · intro h
    simp only [encodeFragment, encodeFragmentUnchecked, lengthAndTileWritten]
    by_cases hl : f.fragmentLength_ < 65536
    · have ht : ¬ f.allocatedTile_ < 65536 := by omega
      simp only [hl, ht, not_false_eq_true, not_true_eq_false, if_true, if_false, and_self]
    · simp only [hl, not_false_eq_true, if_true, and_self]
  · intro hl ht h48
    refine ⟨hwritten hl ht h48, ?_⟩
    intro hc
    have hok : StepOkUnchecked s f := ⟨by omega, by omega, h48, hc⟩
    refine ⟨stepState s f, (encodeFragmentUnchecked_ok_iff s _ f).2 ⟨hok, rfl⟩, rfl, rfl, ?_⟩
    intro hb
    exact (encodeFragment_ok_iff s _ f).2 ⟨⟨hok.1, hok.2.1, h48, hb, hc⟩, rfl⟩
  · intro hl ht h48
    have hl1 : f.fragmentLength_ < 65536 := by omega
    have ht1 : f.allocatedTile_ < 65536 := by omega
    have hw := writePosDiff_fatal s.out1 s.shift _ h48 (posDiffOf_lt s.lastPos f)
    simp only [encodeFragment, encodeFragmentUnchecked, lengthAndTileWritten, hl1, ht1,
      not_true_eq_false, if_false, hw, and_self]
  · intro s1 h
    have hboth : StepOkUnchecked s f ∧ s1 = stepState s f := by
      rcases h with h | h
      · exact (encodeFragmentUnchecked_ok_iff s s1 f).1 h
      · obtain ⟨hok, e⟩ := (encodeFragment_ok_iff s s1 f).1 h
        exact ⟨⟨hok.1, hok.2.1, hok.2.2.1, hok.2.2.2.2⟩, e⟩
    obtain ⟨hok, rfl⟩ := hboth
    have hl : f.fragmentLength_ ≤ 65535 := by have := hok.1; omega
    have ht : f.allocatedTile_ ≤ 65535 := by have := hok.2.1; omega
    exact ⟨hl, ht, hwritten hl ht hok.2.2.1, rfl, rfl⟩

/-- Witness for C11 amended: a fragment of length 70000 fails the assertion, and a
fragment at start position 5 of length 100 for tile 0, met in the state in which
the loop is entered, has a delta below 2^48 and adds the records 100 and 0. -/
theorem field_guard_witness :
    (65535 < (⟨5, 70000, 0⟩ : Fragment).fragmentLength_ ∧
      lengthAndTileWritten (initialState 1 0 0) ⟨5, 70000, 0⟩ = .error .assertion ∧
      encodeFragmentUnchecked (initialState 1 0 0) ⟨5, 70000, 0⟩ = .error .assertion ∧
      encodeFragment (initialState 1 0 0) ⟨5, 70000, 0⟩ = .error .assertion) ∧
    ((⟨5, 100, 0⟩ : Fragment).fragmentLength_ ≤ 65535 ∧
      (⟨5, 100, 0⟩ : Fragment).allocatedTile_ ≤ 65535 ∧
      posDiffOf (initialState 1 0 0).lastPos ⟨5, 100, 0⟩ < 2 ^ 48 ∧
      lengthAndTileWritten (initialState 1 0 0) ⟨5, 100, 0⟩ =
        .ok ((initialState 1 0 0).out2 ++ [100], (initialState 1 0 0).out3 ++ [0])) :=
  ⟨⟨by decide,
    (field_guard (initialState 1 0 0) ⟨5, 70000, 0⟩).1 (Or.inl (by decide))⟩,
    by decide, by decide, by decide,
    ((field_guard (initialState 1 0 0) ⟨5, 100, 0⟩).2.1
      (by decide) (by decide) (by decide)).1⟩

/-- C12 (histogram overflow guard).  Whatever the statics hold, in a run on the
fragments `fs` that returns, every per-tile count is the number of fragments of
that tile, without reduction modulo 2^32, and is below 2^32-1; appending one more
fragment, when the loop body returns, increments the count of its tile by exactly
one and leaves the other counts as they are; and when its tile has already
received 2^32-2 fragments, the loop body fails an assertion, so that no count ever
reaches 2^32-1 or wraps. -/
theorem histogram_overflow_guard (tileCount lp sh : Nat) (fs : List Fragment)
    (hvalid : ∀ f ∈ fs, 0 < f.fragmentLength_) (r : RunResult)
    (hr : runEncoder tileCount lp sh fs = .ok r) :
    (∀ t, r.state.tileReadCount.getD t 0 = (fs.map (fun f => f.allocatedTile_)).count t ∧
      r.state.tileReadCount.getD t 0 < 2 ^ 32 - 1) ∧
    (∀ f s1, encodeFragment r.state f = .ok s1 →
      ∀ t, s1.tileReadCount.getD t 0 =
        r.state.tileReadCount.getD t 0 + (if t = f.allocatedTile_ then 1 else 0)) ∧
    (∀ f, (fs.map (fun g => g.allocatedTile_)).count f.allocatedTile_ = 2 ^ 32 - 2 →
      encodeFragment r.state f = .error .assertion) := by
  obtain ⟨hrun, rfl⟩ := (runEncoder_ok_iff tileCount lp sh fs hvalid r).1 hr
  have h0 : ∀ t, (initialState tileCount lp sh).tileReadCount.getD t 0 < 2 ^ 32 - 1 := by
    intro t; rw [initialState_hist]; norm_num
  obtain ⟨_, hh⟩ := stateAfter_hist fs _ h0 hrun
  have hcount : ∀ t, (stateAfter (initialState tileCount lp sh) fs).tileReadCount.getD t 0 =
      (fs.map (fun f => f.allocatedTile_)).count t := by
    intro t
    rw [(hh t).1, initialState_hist, Nat.zero_add]
  refine ⟨fun t => ⟨hcount t, (hh t).2⟩, ?_, ?_⟩
  · intro f s1 h t
    obtain ⟨hok, rfl⟩ := (encodeFragment_ok_iff _ s1 f).1 h
    exact ((stepState_hist _ f hok (fun u => (hh u).2)).2 t).1
  · intro f hf
    exact encodeFragment_counter_fatal _ f (by
      show (stateAfter (initialState tileCount lp sh) fs).tileReadCount.getD f.allocatedTile_ 0 = _
      rw [hcount, hf])

/-- Witness for C12: the run from fresh statics on 2^32-2 fragments of tile 0 returns,
and the next fragment of tile 0 fails the assertion. -/
theorem histogram_overflow_guard_witness :
    ∃ r, runEncoder 1 0 0 (strideStream 65535 0 4294967294) = .ok r ∧
      encodeFragment r.state ⟨65535 * 4294967295, 1, 0⟩ = .error .assertion := by
  obtain ⟨r, hr, _⟩ :=
    strideStream_run 65535 4294967294 1 0 (by norm_num) (by norm_num) (by norm_num)
      (by norm_num) (by norm_num) (by norm_num)
  refine ⟨r, hr, (histogram_overflow_guard 1 0 0 (strideStream 65535 0 4294967294)
    (strideStream_valid 65535 4294967294 0) r hr).2.2 ⟨65535 * 4294967295, 1, 0⟩ ?_⟩
  show List.count 0 ((strideStream 65535 0 4294967294).map (fun g => g.allocatedTile_)) = _
  rw [strideStream_tiles, List.count_replicate_self]
  norm_num

/-- C13 fails on the code.  The comment on line 233 gives the purpose of the
increment: to generate different results in case the initial seed was 0.  With the
base seed 0 the first multiplication is by 0, so that the first character of the
contig name has no effect on the seed: any two names that differ only in their
first character get the same seed.  The one-character names `a` and `b` both get
the seed 1, and the names `chr1` and `xhr1` both get the seed 586580. -/
theorem seed_collision :
    (∀ (c1 c2 : Char) (rest : List Char),
      setRandomSeed 0 (String.mk (c1 :: rest)) = setRandomSeed 0 (String.mk (c2 :: rest))) ∧
    "a" ≠ "b" ∧ "a" ≠ "" ∧ "b" ≠ "" ∧ setRandomSeed 0 "a" = setRandomSeed 0 "b" ∧
    setRandomSeed 0 "a" = 1 ∧
    "chr1" ≠ "xhr1" ∧ setRandomSeed 0 "chr1" = setRandomSeed 0 "xhr1" ∧
    setRandomSeed 0 "chr1" = 586580 := by
  refine ⟨?_, by decide, by decide, by decide, by decide, by decide, by decide, by decide,
    by decide⟩
  intro c1 c2 rest
  simp only [setRandomSeed, List.foldl_cons, Nat.zero_mod, Nat.zero_mul]

/-- Where the seeds do differ: for every base seed, two contig names that differ
only in their last character get different seeds whenever the seed reached before
that character is odd. -/
theorem seed_distinct_last_character (randomSeed : Nat) (name : String) (c1 c2 : Char)
    (hodd : setRandomSeed randomSeed name % 2 = 1) (hne : c1 ≠ c2) :
    setRandomSeed randomSeed (name.push c1) ≠ setRandomSeed randomSeed (name.push c2) := by
  intro h
  rw [setRandomSeed_push, setRandomSeed_push] at h
  have h1 : setRandomSeed randomSeed name * c1.toNat % 2 ^ 32 =
      setRandomSeed randomSeed name * c2.toNat % 2 ^ 32 := by
    have a1 : setRandomSeed randomSeed name * c1.toNat % 2 ^ 32 < 2 ^ 32 :=
      Nat.mod_lt _ (by norm_num)
    have a2 : setRandomSeed randomSeed name * c2.toNat % 2 ^ 32 < 2 ^ 32 :=
      Nat.mod_lt _ (by norm_num)
    omega
  exact hne (char_toNat_inj c1 c2
    (mul_mod_cancel_of_odd _ _ _ hodd (char_toNat_lt c1) (char_toNat_lt c2) h1))

/-- With the base seed 7 the names `chr1` and `chr2` get different seeds. -/
theorem seed_distinct_last_character_witness :
    setRandomSeed 7 "chr" % 2 = 1 ∧ setRandomSeed 7 ("chr".push '1') ≠ setRandomSeed 7 ("chr".push '2') :=
  ⟨by decide, seed_distinct_last_character 7 "chr" '1' '2' (by decide) (by decide)⟩

/-- C14 fails on the code.  Two successive invocations of `run` in one process that
are given the same single fragment at start position 100: the first writes the
delta 100 to the positions stream, the second finds `lastPos = 100` in the static
and writes the delta 0; and given the same two fragments at 100 and 200, the first
invocation returns while the second fails the assertion on its first fragment, the
wrapped difference `100 - 200` being above 2^48. -/
theorem successive_runs_differ :
    (∃ r1 r2, runEncoderTwice 1 [⟨100, 1, 0⟩] = .ok (r1, r2) ∧
      r1.state.out1 = [100] ∧ r2.state.out1 = [0]) ∧
    (∃ r1, runEncoder 1 0 0 [⟨100, 1, 0⟩, ⟨200, 1, 0⟩] = .ok r1) ∧
    runEncoderTwice 1 [⟨100, 1, 0⟩, ⟨200, 1, 0⟩] = .error .assertion :=
  ⟨⟨_, _, rfl, rfl, rfl⟩, ⟨_, rfl⟩, rfl⟩

/-- C15 (missing-contig short-circuit).  When the requested contig name is not empty
and is the name of no contig of the reference, `run` returns normally at line 77,
with no output stream opened, whatever the collaborators, the other options and the
statics are; and when the reference has a contig of that name, the active contig
lengths are the single length of the first such contig. -/
theorem missing_contig_short_circuit {σ : Type} (c : Collaborators σ) (env : Environment σ)
    (o : FragmentsAllocatorOptions) (hname : o.contigName ≠ "") :
    ((∀ p ∈ env.contigs, p.1 ≠ o.contigName) →
      ∀ fuel lp sh, run c env o fuel lp sh = some (.ok .ignoredContig) ∧
        (RunReturn.ignoredContig : RunReturn σ).streams = none) ∧
    (∀ pre p post, env.contigs = pre ++ p :: post → p.1 = o.contigName →
      (∀ q ∈ pre, q.1 ≠ o.contigName) →
      selectContigLengths o.contigName env.contigs = some [p.2]) := by
  have hfind_none : ∀ l : List (String × Nat), (∀ p ∈ l, p.1 ≠ o.contigName) →
      findContig o.contigName l = [] := by
    intro l
    induction l with
    | nil => intro _; rfl
    | cons q l ih =>
      intro h
      rw [findContig, if_neg (h q (List.mem_cons_self _ _))]
      exact ih (fun p hp => h p (List.mem_cons_of_mem _ hp))
  have hfind_some : ∀ (pre : List (String × Nat)) (p : String × Nat) (post : List (String × Nat)),
      p.1 = o.contigName → (∀ q ∈ pre, q.1 ≠ o.contigName) →
      findContig o.contigName (pre ++ p :: post) = [p.2] := by
    intro pre
    induction pre with
    | nil =>
      intro p post hp _
      rw [List.nil_append, findContig, if_pos hp]
    | cons q pre ih =>
      intro p post hp h
      rw [List.cons_append, findContig, if_neg (h q (List.mem_cons_self _ _))]
      exact ih p post hp (fun r hr => h r (List.mem_cons_of_mem _ hr))
  constructor
  · intro h fuel lp sh
    have hsel : selectContigLengths o.contigName env.contigs = none := by
      simp only [selectContigLengths, hname, ne_eq, not_false_eq_true, if_true,
        hfind_none env.contigs h, List.isEmpty_nil]
    simp only [run, hsel]
    exact ⟨trivial, rfl⟩
  · intro pre p post hc hp h
    simp only [selectContigLengths, hname, ne_eq, not_false_eq_true, if_true, hc,
      hfind_some pre p post hp h, List.isEmpty_cons, Bool.false_eq_true, if_false]

/-- Witness for C15: in a reference with the contigs `chr1`, `chr2`, `chr2`, a run for
`chrX` returns at line 77, and a run for `chr2` selects the length 500 of the first
`chr2`. -/
theorem missing_contig_short_circuit_witness :
    run (listCollaborators keepAll) (sampleEnvironment false) (contigOptions "chrX" false)
      10 0 0 = some (.ok .ignoredContig) ∧
    selectContigLengths "chr2" (sampleEnvironment false).contigs = some [500] :=
  ⟨((missing_contig_short_circuit (listCollaborators keepAll) (sampleEnvironment false)
      (contigOptions "chrX" false) (by decide)).1 (by decide) 10 0 0).1,
   (missing_contig_short_circuit (listCollaborators keepAll) (sampleEnvironment false)
      (contigOptions "chr2" false) (by decide)).2 [("chr1", 1000)] ("chr2", 500)
      [("chr2", 700)] rfl rfl (by decide)⟩

/-- C17 (merge-mode marker handling).  When merge mode is requested, the contig
selection succeeds and the construction of the merge reader raises an
`EagleException`: `run` returns normally with no output stream opened if and only
if the marker `fragments.done` exists, and then it returns at line 117; if the
marker does not exist, the same exception leaves `run`. -/
theorem merge_marker_handling {σ : Type} (c : Collaborators σ) (env : Environment σ)
    (o : FragmentsAllocatorOptions) (fuel lp sh : Nat) (contigLengths : List Nat)
    (what : String)
    (hmerge : o.mergeExistingFragments = true)
    (hsel : selectContigLengths o.contigName env.contigs = some contigLengths)
    (hfail : env.newReader (setRandomSeed o.randomSeed o.contigName) contigLengths
      (env.contigs.map (fun p => p.1)) (env.readCountOf (contigLengths.sum % 2 ^ 64)) =
        .error what) :
    ((∃ ret, run c env o fuel lp sh = some (.ok ret) ∧ ret.streams = none) ↔
      env.markerExists = true) ∧
    (env.markerExists = true → run c env o fuel lp sh = some (.ok .fragmentsPresent)) ∧
    (env.markerExists = false →
      run c env o fuel lp sh = some (.error (.eagleException what))) := by
  have hyes : env.markerExists = true → run c env o fuel lp sh = some (.ok .fragmentsPresent) := by
    intro hm
    simp only [run, hsel, hmerge, if_true, hfail, hm]
  have hno : env.markerExists = false →
      run c env o fuel lp sh = some (.error (.eagleException what)) := by
    intro hm
    simp only [run, hsel, hmerge, if_true, hfail, hm, Bool.false_eq_true, if_false]
  refine ⟨⟨?_, fun hm => ⟨_, hyes hm, rfl⟩⟩, hyes, hno⟩
  rintro ⟨ret, hret, _⟩
  cases hm : env.markerExists with
  | true => rfl
  | false =>
    rw [hno hm] at hret
    cases hret

/-- Witness for C17: with the failing reader of `sampleEnvironment`, a merge run for
`chr1` returns at line 117 when the marker exists and raises the reader's exception
when it does not. -/
theorem merge_marker_handling_witness :
    run (listCollaborators keepAll) (sampleEnvironment true) (contigOptions "chr1" true)
      10 0 0 = some (.ok .fragmentsPresent) ∧
    run (listCollaborators keepAll) (sampleEnvironment false) (contigOptions "chr1" true)
      10 0 0 = some (.error (.eagleException "no fragments file")) :=
  ⟨(merge_marker_handling (listCollaborators keepAll) (sampleEnvironment true)
      (contigOptions "chr1" true) 10 0 0 [1000] "no fragments file" rfl rfl rfl).2.1 rfl,
   (merge_marker_handling (listCollaborators keepAll) (sampleEnvironment false)
      (contigOptions "chr1" true) 10 0 0 [1000] "no fragments file" rfl rfl rfl).2.2 rfl⟩

/-- C16, as stated, fails: a generation run whose tile allocation method is none of
the three returns normally, with nothing emitted, when the generator has no
candidate and when the filter discards all four candidates. -/
theorem unknown_policy_run_returns :
    (∃ r w1, runGeneration (listCollaborators keepAll) unknownPolicyOptions 0 10
        (listWorld []) 0 0 = some (.ok (r, w1)) ∧ r.generatedCount = 0) ∧
    (∃ r w1, runGeneration (listCollaborators discardAll) unknownPolicyOptions 4 10
        (listWorld uniformFour) 0 0 = some (.ok (r, w1)) ∧ r.generatedCount = 0) :=
  ⟨⟨_, _, rfl, rfl⟩, ⟨_, _, rfl, rfl⟩⟩

/-- C16, amended.  In a generation run whose tile allocation method is none of the
three, if the first `k` intervals drawn are candidates that the filter discards:
when the next interval is a candidate that the filter does not discard, the run
fails with the error of `EAGLE_ERROR`, before any fragment is encoded; when the
next interval has length 0, the run returns normally with nothing emitted. -/
theorem unknown_policy_fatal {σ : Type} (c : Collaborators σ) (o : FragmentsAllocatorOptions)
    (hgen : o.mergeExistingFragments = false) (code : Nat)
    (hm : o.tileAllocationMethod = .other code) (readCount lp sh : Nat) (w : World σ)
    (k fuel : Nat) (hk : k < fuel)
    (hrej : ∀ p ∈ draws c w.ext k,
      p.2 ≠ 0 ∧ c.needsDiscarding (Fragment.ofInterval p) = true) :
    ((c.getNext (extAfter c w.ext k)).1.2 ≠ 0 →
      c.needsDiscarding (Fragment.ofInterval (c.getNext (extAfter c w.ext k)).1) = false →
      runGeneration c o readCount fuel w lp sh = some (.error .eagleError)) ∧
    ((c.getNext (extAfter c w.ext k)).1.2 = 0 →
      ∃ r w1, runGeneration c o readCount fuel w lp sh = some (.ok (r, w1)) ∧
        r.generatedCount = 0 ∧ r.state.out1 = [] ∧ r.state.out2 = [] ∧ r.state.out3 = []) := by
  obtain ⟨m, rfl⟩ : ∃ m, fuel = m + 1 := ⟨fuel - 1, by omega⟩
  have h1 : (0 + 1) % 2 ^ 64 = 1 := by norm_num
  have h10 : ¬ (1 : Nat) = 0 := by norm_num
  have hg : getNextFragment c o (m + 1) w 1 readCount =
      generateLoop c o 1 readCount (m + 1) w := by
    simp only [getNextFragment, hgen, Bool.not_false, if_true]
  obtain ⟨s1, s2⟩ := generateLoop_spec c o 1 readCount k w (m + 1) hk hrej
  constructor
  · intro hnz hnd
    have ha : ∀ (w2 : World σ) (f : Fragment),
        allocateTile c o w2 f 1 readCount = .error .eagleError := by
      intro w2 f
      simp only [allocateTile, hm]
    simp only [runGeneration, runLoop, h1, h10, if_false, hg, s2 hnz hnd, ha]
  · intro hz
    have hinv : Fragment.invalid.isValid = false := rfl
    refine ⟨finishRun (1, initialState o.tileCount lp sh),
      { worldAfterDraws c w k with
        ext := extAfter c w.ext (k + 1),
        drawn := w.drawn ++ draws c w.ext (k + 1) }, ?_, ?_, rfl, rfl, rfl⟩
    · simp only [runGeneration, runLoop, h1, h10, if_false, hg, s1 hz, hinv, Bool.not_false,
        if_true]
    · simp only [finishRun]
      norm_num

/-- Witness for C16 amended: with a generator of four candidates and a filter that
discards nothing, the run with the unknown method fails with the error of
`EAGLE_ERROR`. -/
theorem unknown_policy_fatal_witness :
    runGeneration (listCollaborators keepAll) unknownPolicyOptions 4 10
      (listWorld uniformFour) 0 0 = some (.error .eagleError) :=
  (unknown_policy_fatal (listCollaborators keepAll) unknownPolicyOptions rfl 7 rfl 4 0 0
    (listWorld uniformFour) 0 10 (by norm_num) (fun p hp => by cases hp)).1
    (by decide) rfl

/-- C19 (termination of discard-and-resample).  In generation mode, for every
generator that returns a zero-length interval after finitely many calls
(`Exhausts`) and for every filter, also one that discards every candidate: each
call of `getNextFragment` has a result, the same for all fuel above the bound, and
when it returns normally the result is the invalid fragment, after a zero-length
interval, or a candidate that the filter does not discard, all candidates drawn
before it having been discarded; and the loop of `run` has a result, the same for
all fuel above the bound, and when the run returns, the number of fragments emitted
is at most the number of candidates that the generator returned. -/
theorem discard_resample_terminates {σ : Type} (c : Collaborators σ)
    (o : FragmentsAllocatorOptions) (hgen : o.mergeExistingFragments = false)
    (remaining : σ → Nat) (hex : Exhausts c remaining) :
    (∀ (w : World σ) (n N : Nat),
      ∃ res, (∀ fuel, remaining w.ext < fuel → getNextFragment c o fuel w n N = some res) ∧
        ∀ f w1, res = .ok (f, w1) →
          ∃ D0 t, w1.drawn = w.drawn ++ (D0 ++ [t]) ∧
            (∀ p ∈ D0, p.2 ≠ 0 ∧ c.needsDiscarding (Fragment.ofInterval p) = true) ∧
            ((t.2 = 0 ∧ f = Fragment.invalid) ∨
             (t.2 ≠ 0 ∧ c.needsDiscarding (Fragment.ofInterval t) = false ∧
                f.interval = t))) ∧
    (∀ (readCount lp sh : Nat) (w : World σ),
      ∃ res, (∀ fuel, remaining w.ext < fuel →
          runGeneration c o readCount fuel w lp sh = some res) ∧
        ∀ r w1, res = .ok (r, w1) →
          ∃ cands t, w1.drawn = w.drawn ++ (cands ++ [t]) ∧ t.2 = 0 ∧
            (∀ p ∈ cands, p.2 ≠ 0) ∧ r.generatedCount ≤ cands.length) := by
  constructor
  · intro w n N
    have hg : ∀ fuel, getNextFragment c o fuel w n N = generateLoop c o n N fuel w := by
      intro fuel
      simp only [getNextFragment, hgen, Bool.not_false, if_true]
    obtain ⟨res, hres, _⟩ :=
      generateLoop_terminates c o remaining hex n N (remaining w.ext + 1) w (Nat.lt_succ_self _)
    refine ⟨res, ?_, ?_⟩
    · intro fuel hf
      exact getNextFragment_mono_le c o n N w res (remaining w.ext + 1) fuel hf
        (by rw [hg]; exact hres)
    · intro f w1 h
      subst h
      obtain ⟨D0, t, d1, d2, d3⟩ := generateLoop_ok c o n N _ w w1 f hres
      refine ⟨D0, t, d1, d2, ?_⟩
      rcases d3 with ⟨a, b, _⟩ | ⟨a, b, b2, _⟩
      · exact Or.inl ⟨a, b⟩
      · exact Or.inr ⟨a, b, b2⟩
  · intro readCount lp sh w
    obtain ⟨x, hx⟩ := runLoop_terminates c o hgen remaining hex readCount
      (remaining w.ext + 1) 0 w (initialState o.tileCount lp sh) (Nat.lt_succ_self _)
    have hrun : ∃ res, runGeneration c o readCount (remaining w.ext + 1) w lp sh = some res := by
      unfold runGeneration
      rw [hx]
      cases x with
      | error e => exact ⟨_, rfl⟩
      | ok p => exact ⟨_, rfl⟩
    obtain ⟨res, hres⟩ := hrun
    refine ⟨res, ?_, ?_⟩
    · intro fuel hf
      exact runGeneration_mono_le c o readCount w lp sh res (remaining w.ext + 1) fuel hf hres
    · intro r w1 h
      subst h
      obtain ⟨cands, t, fs, e1, e2, e3, _, _, _, e7, _, _⟩ :=
        runGeneration_emitted c o hgen readCount _ lp sh w w1 r hres
      refine ⟨cands, t, e1, e2, e3, ?_⟩
      rw [e7]
      exact List.length_filter_le _ _

/-- Witness for C19: with a generator of four candidates and a filter that discards
every candidate, the call of `getNextFragment` and the run have a result for all
fuel above 4. -/
theorem discard_resample_terminates_witness :
    (∃ res, ∀ fuel, 4 < fuel →
      getNextFragment (listCollaborators discardAll) (sequenceOptions 2) fuel
        (listWorld uniformFour) 1 4 = some res) ∧
    (∃ res, ∀ fuel, 4 < fuel →
      runGeneration (listCollaborators discardAll) (sequenceOptions 2) 4 fuel
        (listWorld uniformFour) 0 0 = some res) := by
  have h := discard_resample_terminates (listCollaborators discardAll) (sequenceOptions 2) rfl
    List.length (listCollaborators_exhausts discardAll)
  obtain ⟨res1, h1, _⟩ := h.1 (listWorld uniformFour) 1 4
  obtain ⟨res2, h2, _⟩ := h.2 4 0 0 (listWorld uniformFour)
  exact ⟨⟨res1, h1⟩, ⟨res2, h2⟩⟩

/-- C20 fails on the code.  In merge mode with two tiles, the reader returns a valid
fragment of length 1 for tile 2: it passes both 16-bit assertions, its tile is not
smaller than `tileCount`, and the histogram update of the loop body indexes outside
the histogram, in the loop body and in the run.  In generation mode with the
SEQUENCE policy, three tiles and `readCount = 3`, the third fragment is assigned
tile 3 and the run ends in the same way. -/
theorem histogram_index_out_of_bounds :
    (⟨0, 1, 2⟩ : Fragment).isValid = true ∧
    (1 : Nat) < 65536 ∧ (2 : Nat) < 65536 ∧ ¬ (2 : Nat) < 2 ∧
    encodeFragment (initialState 2 0 0) ⟨0, 1, 2⟩ = .error .outOfBounds ∧
    runGeneration readerCollaborators (mergeOptions 2) 1 5 (readerWorld [⟨0, 1, 2⟩]) 0 0 =
      some (.error .outOfBounds) ∧
    runGeneration (listCollaborators keepAll) (sequenceOptions 3) 3 10
      (listWorld [(0, 100), (10, 100), (20, 100)]) 0 0 = some (.error .outOfBounds) :=
  ⟨rfl, by norm_num, by norm_num, by norm_num, rfl, rfl, rfl⟩

end Eagle
